import Mathlib

/-!
# Framer: an unrolled doubly linked list

A shallow embedding of `src/src/framer.c` / `framer.h`.

* An item is a `void*`, a machine word; it is modelled as a natural number
  and `NULL` is `0`.
* `fr_size_t` is `int64_t`; counters and indices are modelled as `Int`
  (the signed comparisons such as `idx == used - 1` with `used = 0` matter;
  the counters are bounded by the memory of the machine, so wrap-around at
  `2^63` is not reachable and is not modelled).
* A node `fn_s` is its fill count and its slot array.  The `prev` / `next`
  pointers of the chain are modelled by a zipper: a position `fr_s` holds
  the list of nodes before its segment (nearest first: the head is
  `seg->prev`), the segment, and the list of nodes after it (the head is
  `seg->next`).
* Only the default allocator (`pos->mem == NULL`) is modelled.
* Slot reads outside the slot array are undefined in C; the model returns
  `NULL` for them and drops writes outside the array (`fr_item_at`, whose
  contract is about such reads, uses a read that reports them).  The slots of a new
  node other than slot 0 are indeterminate in C; the model fills them with
  `NULL`.
-/

namespace Framer

/-- Item reference (`void*`). -/
abbrev Item := Nat

/-- The null reference. -/
def NULL : Item := 0

/-- Mininum size of data segment (`FR_SEG_MIN`). -/
def FR_SEG_MIN : Int := 4

/-- Framer node: `used` count and the `data` slot array. -/
structure fn_s where
  used : Int
  data : List Item
deriving DecidableEq

/-- Framer position together with the chain it points into.
`prevs` is `seg->prev, seg->prev->prev, ...`, `nexts` is
`seg->next, seg->next->next, ...`. -/
structure fr_s where
  prevs : List fn_s
  seg : fn_s
  nexts : List fn_s
  idx : Int
  size : Int
  icnt : Int
  ncnt : Int
deriving DecidableEq

/-- Slot read `a[i]`. -/
def rd (a : List Item) (i : Int) : Item :=
  if 0 ≤ i then a.getD i.toNat NULL else NULL

/-- Slot write `a[i] = v`. -/
def wr (a : List Item) (i : Int) (v : Item) : List Item :=
  if 0 ≤ i then a.set i.toNat v else a

/-- The libc call `memmove(&dst[d], &src[s], n * FR_ITEM_SIZE)`: the `n` items
`src[s], ..., src[s+n-1]` (as they are before the call) are stored to
`dst[d], ..., dst[d+n-1]`. -/
def memmove (dst : List Item) (d : Int) (src : List Item) (s : Int) (n : Int) : List Item :=
  (List.range n.toNat).foldl
    (fun (acc : List Item) (k : Nat) => wr acc (d + (k : Int)) (rd src (s + (k : Int)))) dst

/-- The libc call `memcpy(&dst[d], &src[s], n * FR_ITEM_SIZE)`; source and
destination are different arrays at every call site. -/
def memcpy (dst : List Item) (d : Int) (src : List Item) (s : Int) (n : Int) : List Item :=
  memmove dst d src s n

/-- Half size of segment (macro `half_seg`). -/
def half_seg (size : Int) : Int :=
  if size % 2 = 0 then Int.tdiv size 2 else Int.tdiv size 2 + 1

/-- Create Framer node with given segment size.  The source asserts
`size >= FR_SEG_MIN`; the theorems carry that precondition as a hypothesis. -/
def fn_new_sized (size : Int) : fn_s :=
  { used := 0, data := List.replicate size.toNat NULL }

/-- Create Framer with given segment size. -/
def fr_create_sized (size : Int) : fr_s :=
  { prevs := [], seg := fn_new_sized size, nexts := [], idx := 0, size := size,
    icnt := 0, ncnt := 1 }

/-- Return item count of Framer. -/
def fr_length (pos : fr_s) : Int := pos.icnt

/-- Return Node count of Framer. -/
def fr_node_count (pos : fr_s) : Int := pos.ncnt

/-- Return current item. -/
def fr_item (pos : fr_s) : Item := rd pos.seg.data pos.idx

/-- Move right; the second component is the return value. -/
def fr_next (pos : fr_s) : fr_s × Int :=
  if pos.idx < pos.seg.used - 1 then
    ({ pos with idx := pos.idx + 1 }, 1)
  else
    match pos.nexts with
    | [] => (pos, 0)
    | n :: ns => ({ pos with prevs := pos.seg :: pos.prevs, seg := n, nexts := ns, idx := 0 }, 1)

/-- The loop `while ( tmp.seg->prev ) tmp.seg = tmp.seg->prev;` of `fr_first`. -/
def to_head : List fn_s → fn_s → List fn_s → fn_s × List fn_s
  | [], s, ns => (s, ns)
  | q :: qs, s, ns => to_head qs q (s :: ns)

/-- Return first Position in Framer. -/
def fr_first (pos : fr_s) : fr_s :=
  let r := to_head pos.prevs pos.seg pos.nexts
  { pos with prevs := [], seg := r.1, nexts := r.2, idx := 0 }

/-- Even items in peer Node segments; the second component is the return value. -/
def fr_even (pos : fr_s) : fr_s × Int :=
  match pos.nexts with
  | next :: ns =>
    if pos.seg.used + next.used ≤ pos.size then
      ({ pos with
          seg := { used := pos.seg.used + next.used,
                   data := memcpy pos.seg.data pos.seg.used next.data 0 next.used },
          ncnt := pos.ncnt - 1,
          nexts := ns }, 2)
    else if pos.seg.used * 2 < pos.size then
      let cnt := half_seg pos.size - pos.seg.used
      ({ pos with
          seg := { used := pos.seg.used + cnt,
                   data := memcpy pos.seg.data pos.seg.used next.data 0 cnt },
          nexts := { used := next.used - cnt,
                     data := memmove next.data 0 next.data cnt cnt } :: ns }, 1)
    else
      (pos, 0)
  | [] =>
    match pos.prevs with
    | prev :: ps =>
      if pos.seg.used * 2 < pos.size then
        let cnt := half_seg pos.size - pos.seg.used
        let d1 := memmove pos.seg.data pos.seg.used pos.seg.data 0 cnt
        let d2 := memcpy d1 0 prev.data (prev.used - cnt) cnt
        ({ pos with
            prevs := { prev with used := prev.used - cnt } :: ps,
            seg := { used := pos.seg.used + cnt, data := d2 },
            idx := pos.idx + cnt }, 1)
      else
        (pos, 0)
    | [] => (pos, 0)

/-- Body shared by the two in-place branches of `fr_insert`: shift the tail of
    the segment right by one and store the item at the index. -/
def insert_shift (pos : fr_s) (item : Item) : fr_s :=
  let s := pos.seg
  let d := if pos.idx < s.used then
             memmove s.data (pos.idx + 1) s.data pos.idx (s.used - pos.idx)
           else s.data
  { pos with seg := { used := s.used + 1, data := wr d pos.idx item } }

/-- Last part of the full-segment case of `fr_insert`: "Peers don't have space,
    hence open a new segment and even out." -/
def insert_split (pos : fr_s) (item : Item) : fr_s :=
  let s := pos.seg
  let node := fn_new_sized pos.size
  let tail_cnt := s.used - pos.idx
  let pos1 : fr_s :=
    { pos with
        ncnt := pos.ncnt + 1,
        seg := { used := pos.idx + 1, data := wr s.data pos.idx item },
        nexts := { used := tail_cnt, data := memcpy node.data 0 s.data pos.idx tail_cnt }
                   :: pos.nexts }
  (fr_even pos1).1

/-- The "Full segment." case of `fr_insert`. -/
def insert_full (pos : fr_s) (item : Item) : fr_s :=
  let s := pos.seg
  if pos.idx ≥ s.used then
    let node := fn_new_sized pos.size
    { pos with
        ncnt := pos.ncnt + 1,
        prevs := s :: pos.prevs,
        seg := { used := node.used + 1, data := wr node.data 0 item },
        idx := 0 }
  else if pos.idx < half_seg pos.size then
    match pos.prevs with
    | prev :: ps =>
      if pos.idx ≠ 0 ∧ pos.idx ≤ pos.size - prev.used then
        let used1 := s.used - pos.idx
        let d := if pos.idx > 1 then memmove s.data 1 s.data pos.idx used1 else s.data
        { pos with
            prevs := { used := prev.used + pos.idx,
                       data := memcpy prev.data prev.used s.data 0 pos.idx } :: ps,
            seg := { used := used1 + 1, data := wr d 0 item },
            idx := 0 }
      else insert_split pos item
    | [] => insert_split pos item
  else
    match pos.nexts with
    | next :: ns =>
      let cnt := s.used - pos.idx
      if cnt ≤ pos.size - next.used then
        let d := memmove next.data cnt next.data 0 cnt
        { pos with
            nexts := { used := next.used + cnt, data := memcpy d 0 s.data pos.idx cnt } :: ns,
            seg := { used := s.used - cnt + 1, data := wr s.data pos.idx item } }
      else insert_split pos item
    | [] => insert_split pos item

/-- The third and fourth alternatives of `fr_insert`. -/
def insert_rest (pos : fr_s) (item : Item) : fr_s :=
  if pos.seg.used < pos.size then insert_shift pos item else insert_full pos item

/-- Insert item to current Position. -/
def fr_insert (pos0 : fr_s) (item : Item) : fr_s :=
  let pos := { pos0 with icnt := pos0.icnt + 1 }
  if pos.idx > 0 ∧ pos.seg.used < pos.size then
    insert_shift pos item
  else
    match pos.prevs with
    | prev :: ps =>
      if pos.idx = 0 ∧ prev.used < pos.size then
        { pos with
            prevs := ps,
            seg := { used := prev.used + 1, data := wr prev.data prev.used item },
            nexts := pos.seg :: pos.nexts,
            idx := prev.used + 1 - 1 }
      else insert_rest pos item
    | [] => insert_rest pos item

/-- Append item after current Position. -/
def fr_append (pos : fr_s) (item : Item) : fr_s :=
  if pos.icnt ≠ 0 ∧ pos.idx = pos.seg.used - 1 ∧ pos.nexts = [] ∧ pos.seg.used < pos.size then
    { pos with
        icnt := pos.icnt + 1,
        idx := pos.idx + 1,
        seg := { used := pos.seg.used + 1, data := wr pos.seg.data (pos.idx + 1) item } }
  else if pos.icnt = 0 then
    fr_insert pos item
  else if pos.seg.used < pos.size then
    fr_insert { pos with idx := pos.idx + 1 } item
  else if pos.nexts = [] then
    fr_insert { pos with idx := pos.idx + 1 } item
  else
    fr_insert (fr_next pos).1 item

/-- Delete item from Framer; the second component is the returned item. -/
def fr_delete (pos : fr_s) : fr_s × Item :=
  let s := pos.seg
  let ret := rd s.data pos.idx
  if s.used > 1 then
    if pos.idx < s.used - 1 then
      ({ pos with
          icnt := pos.icnt - 1,
          seg := { used := s.used - 1,
                   data := memmove s.data pos.idx s.data (pos.idx + 1) (s.used - (pos.idx + 1)) } },
       ret)
    else
      match pos.nexts with
      | n :: ns =>
        ({ pos with
            icnt := pos.icnt - 1,
            prevs := { s with used := s.used - 1 } :: pos.prevs,
            seg := n, nexts := ns, idx := 0 }, ret)
      | [] =>
        ({ pos with
            icnt := pos.icnt - 1,
            idx := pos.idx - 1,
            seg := { s with used := s.used - 1 } }, ret)
  else if s.used = 1 then
    match pos.nexts, pos.prevs with
    | [], [] =>
      ({ pos with
          icnt := pos.icnt - 1,
          seg := { used := s.used - 1, data := wr s.data 0 NULL },
          idx := 0 }, ret)
    | [], q :: qs =>
      ({ pos with
          icnt := pos.icnt - 1,
          idx := q.used - 1,
          ncnt := pos.ncnt - 1,
          seg := q, prevs := qs }, ret)
    | n :: ns, _ =>
      ({ pos with
          icnt := pos.icnt - 1,
          idx := 0,
          ncnt := pos.ncnt - 1,
          seg := n, nexts := ns }, ret)
  else
    (pos, ret)

/-- Delete item from Framer and even items in peer Node segments. -/
def fr_delete_even (pos : fr_s) : fr_s × Item :=
  let r := fr_delete pos
  ((fr_even r.1).1, r.2)

/-- Push item to back of Framer. -/
def fr_push (pos : fr_s) (item : Item) : fr_s :=
  if pos.icnt ≠ 0 ∧ pos.seg.used < pos.size then
    { pos with
        icnt := pos.icnt + 1,
        idx := pos.idx + 1,
        seg := { used := pos.seg.used + 1, data := wr pos.seg.data (pos.idx + 1) item } }
  else
    fr_append pos item

/-- Pop item from back of Framer; the second component is the returned item. -/
def fr_pop (pos : fr_s) : fr_s × Item :=
  if pos.idx > 0 then
    ({ pos with
        idx := pos.idx - 1,
        seg := { pos.seg with used := pos.seg.used - 1 },
        icnt := pos.icnt - 1 },
     rd pos.seg.data pos.idx)
  else
    fr_delete pos

/-! ## Logical content -/

/-- The items a node holds: its first `used` slots. -/
def fn_s.items (s : fn_s) : List Item := s.data.take s.used.toNat

/-- The segments of the chain, first to last. -/
def fr_s.chain (pos : fr_s) : List fn_s := pos.prevs.reverse ++ pos.seg :: pos.nexts

/-- The logical item sequence of the chain, first to last. -/
def fr_s.toList (pos : fr_s) : List Item := pos.chain.flatMap fn_s.items

/-- Sum of `used` over all segments of the chain. -/
def fr_s.sumUsed (pos : fr_s) : Int := (pos.chain.map fn_s.used).sum

/-- Position of the cursor in the logical item sequence (0-based). -/
def fr_s.position (pos : fr_s) : Nat :=
  (pos.prevs.reverse.flatMap fn_s.items).length + pos.idx.toNat

/-! ## Well-formedness -/

/-- A segment other than the one under the cursor: it is not empty, holds at
most `size` items, and its slot array has `size` slots. -/
def seg_ok (size : Int) (s : fn_s) : Prop :=
  1 ≤ s.used ∧ s.used ≤ size ∧ (s.data.length : Int) = size

/-- Well-formed chain: every segment has `0 ≤ used ≤ size` and a slot array of
`size` slots, no segment is empty unless it is the only one, and the cached
counters are accurate. -/
structure WellFormed (pos : fr_s) : Prop where
  prevs_ok : ∀ s ∈ pos.prevs, seg_ok pos.size s
  nexts_ok : ∀ s ∈ pos.nexts, seg_ok pos.size s
  used_nonneg : 0 ≤ pos.seg.used
  used_le : pos.seg.used ≤ pos.size
  data_len : (pos.seg.data.length : Int) = pos.size
  sole_if_empty : pos.seg.used = 0 → pos.prevs = [] ∧ pos.nexts = []
  icnt_eq : pos.icnt = pos.sumUsed
  ncnt_eq : pos.ncnt = (pos.chain.length : Int)

/-- The cursor references an item of its segment. -/
def OnItem (pos : fr_s) : Prop := 0 ≤ pos.idx ∧ pos.idx < pos.seg.used

/-- Valid cursor: on an item, or at index 0 of the empty container. -/
def ValidCursor (pos : fr_s) : Prop :=
  OnItem pos ∨ (pos.seg.used = 0 ∧ pos.idx = 0)

instance (size : Int) (s : fn_s) : Decidable (seg_ok size s) := by
  unfold seg_ok; infer_instance

instance (pos : fr_s) : Decidable (OnItem pos) := by
  unfold OnItem; infer_instance

instance (pos : fr_s) : Decidable (ValidCursor pos) := by
  unfold ValidCursor; infer_instance

/-! ## Example chains (capacity 4) -/

/-- The chain `[1,2,3,4] - [5]` with the cursor on the item `4`. -/
def ex_full_then_one : fr_s :=
  { prevs := [], seg := { used := 4, data := [1, 2, 3, 4] },
    nexts := [{ used := 1, data := [5, 0, 0, 0] }],
    idx := 3, size := 4, icnt := 5, ncnt := 2 }

/-- The state of `fr_insert` once `pos->icnt++` is done: the chain is
well formed except that the item counter is one ahead, the index is within
`[0, used]`, and it is `used` only where a caller may put it (a segment with
room, or the last segment). -/
structure InsertReady (pos : fr_s) : Prop where
  prevs_ok : ∀ s ∈ pos.prevs, seg_ok pos.size s
  nexts_ok : ∀ s ∈ pos.nexts, seg_ok pos.size s
  used_nonneg : 0 ≤ pos.seg.used
  used_le : pos.seg.used ≤ pos.size
  data_len : (pos.seg.data.length : Int) = pos.size
  sole_if_empty : pos.seg.used = 0 → pos.prevs = [] ∧ pos.nexts = []
  icnt_eq : pos.icnt = pos.sumUsed + 1
  ncnt_eq : pos.ncnt = (pos.chain.length : Int)
  idx_nonneg : 0 ≤ pos.idx
  idx_le : pos.idx ≤ pos.seg.used
  at_end : pos.idx = pos.seg.used → pos.seg.used < pos.size ∨ pos.nexts = []
  size_pos : 0 < pos.size

/-- Outcome of a mutation: a well-formed chain of the same capacity with the
cursor on an item. -/
structure Settled (pos res : fr_s) : Prop where
  wf : WellFormed res
  cur : OnItem res
  size_eq : res.size = pos.size

/-- The cursor positions `fr_insert` is called with: on an item, or one past
the last item of its segment where that segment has room or is the last one
(the position `fr_append` passes on, and index 0 of the empty container). -/
def InsertCursor (pos : fr_s) : Prop :=
  0 ≤ pos.idx ∧ pos.idx ≤ pos.seg.used ∧
    (pos.idx = pos.seg.used → pos.seg.used < pos.size ∨ pos.nexts = [])

instance (pos : fr_s) : Decidable (InsertCursor pos) := by
  unfold InsertCursor; infer_instance

/-- Outcome of a mutation that may empty the container: a well-formed chain of
the same capacity with a valid cursor. -/
structure Kept (pos res : fr_s) : Prop where
  wf : WellFormed res
  cur : ValidCursor res
  size_eq : res.size = pos.size

/-! ## Sequences of calls through the one cursor -/

/-- One call of a basic mutator. -/
inductive Op where
  | insert (item : Item)
  | append (item : Item)
  | delete
  | push (item : Item)
  | pop
deriving DecidableEq

/-- The position after the call (the returned item of delete / pop is dropped). -/
def Op.run (o : Op) (pos : fr_s) : fr_s :=
  match o with
  | Op.insert item => fr_insert pos item
  | Op.append item => fr_append pos item
  | Op.delete => (fr_delete pos).1
  | Op.push item => fr_push pos item
  | Op.pop => (fr_pop pos).1

/-- The position after a sequence of calls, first call first. -/
def run_ops (ops : List Op) (pos : fr_s) : fr_s :=
  ops.foldl (fun p o => o.run p) pos

/-- Slot 0 of the cursor's segment is null whenever that segment is empty. -/
def NullWhenEmpty (pos : fr_s) : Prop :=
  pos.seg.used = 0 → rd pos.seg.data 0 = NULL

/-- The cursor is on the last item of the sequence, or the container is empty
(with the cursor at index 0). -/
def AtEnd (pos : fr_s) : Prop :=
  pos.nexts = [] ∧
    ((1 ≤ pos.seg.used ∧ pos.idx = pos.seg.used - 1) ∨ (pos.seg.used = 0 ∧ pos.idx = 0))

instance (pos : fr_s) : Decidable (AtEnd pos) := by
  unfold AtEnd; infer_instance

/-- The compare loop of the tests: `n` times, read the item under the cursor
(`fr_cur`) and call `fr_next`. -/
def read_fwd : Nat → fr_s → List Item
  | 0, _ => []
  | n + 1, pos => fr_item pos :: read_fwd n (fr_next pos).1

/-- The pop loop of the tests: `n` calls of `fr_pop`; the returned items are
listed first call first. -/
def pop_many : Nat → fr_s → fr_s × List Item
  | 0, pos => (pos, [])
  | n + 1, pos =>
    let r := fr_pop pos
    let rest := pop_many n r.1
    (rest.1, r.2 :: rest.2)

/-- The items from the cursor (inclusive) to the end of the chain. -/
def fr_s.tail (pos : fr_s) : List Item :=
  pos.seg.items.drop pos.idx.toNat ++ pos.nexts.flatMap fn_s.items

/-- The chain `[1,2,3,4] - [5]` with the cursor on the last item `5`. -/
def ex_one_after_full : fr_s :=
  { prevs := [{ used := 4, data := [1, 2, 3, 4] }],
    seg := { used := 1, data := [5, 0, 0, 0] },
    nexts := [],
    idx := 0, size := 4, icnt := 5, ncnt := 2 }

/-- A single full segment `[1,2,3,4]` with the cursor on the first item. -/
def ex_single_full : fr_s :=
  { prevs := [], seg := { used := 4, data := [1, 2, 3, 4] }, nexts := [],
    idx := 0, size := 4, icnt := 4, ncnt := 1 }

/-- The chain `[1,2,3,4] - [5,6]` with the cursor on the item `4`; the two
unused slots of the second segment hold the stale references `7` and `8`. -/
def ex_full_then_two : fr_s :=
  { prevs := [], seg := { used := 4, data := [1, 2, 3, 4] },
    nexts := [{ used := 2, data := [5, 6, 7, 8] }],
    idx := 3, size := 4, icnt := 6, ncnt := 2 }

/-- The chain `[1] - [2,3,4,5]` with the cursor on the item `1`. -/
def ex_one_then_full : fr_s :=
  { prevs := [], seg := { used := 1, data := [1, 0, 0, 0] },
    nexts := [{ used := 4, data := [2, 3, 4, 5] }],
    idx := 0, size := 4, icnt := 5, ncnt := 2 }

/-- Capacity 8: the chain `[1] - [2]` with the cursor on the item `2`. -/
def ex_two_singletons : fr_s :=
  { prevs := [{ used := 1, data := [1, 0, 0, 0, 0, 0, 0, 0] }],
    seg := { used := 1, data := [2, 0, 0, 0, 0, 0, 0, 0] },
    nexts := [],
    idx := 0, size := 8, icnt := 2, ncnt := 2 }

/-! ## Navigation -/

/-- Move left; the second component is the return value. -/
def fr_prev (pos : fr_s) : fr_s × Int :=
  if pos.idx > 0 then
    ({ pos with idx := pos.idx - 1 }, 1)
  else
    match pos.prevs with
    | [] => (pos, 0)
    | q :: qs =>
      ({ pos with prevs := qs, seg := q, nexts := pos.seg :: pos.nexts, idx := q.used - 1 }, 1)

/-- The cursor is on the first item of the sequence (or at index 0 of the
empty container). -/
def AtStart (pos : fr_s) : Prop := pos.prevs = [] ∧ pos.idx = 0

instance (pos : fr_s) : Decidable (AtStart pos) := by
  unfold AtStart; infer_instance

/-- Capacity 8: the chain `[1] - [2] - [3,4,5,6,7,8,9,10]` with the cursor on
the item `1`. -/
def ex_two_small_then_full : fr_s :=
  { prevs := [],
    seg := { used := 1, data := [1, 0, 0, 0, 0, 0, 0, 0] },
    nexts := [{ used := 1, data := [2, 0, 0, 0, 0, 0, 0, 0] },
              { used := 8, data := [3, 4, 5, 6, 7, 8, 9, 10] }],
    idx := 0, size := 8, icnt := 10, ncnt := 3 }

/-- The chain `[1,2] - [3]` (capacity 4) with the cursor on the item `3`. -/
def ex_two_then_one : fr_s :=
  { prevs := [{ used := 2, data := [1, 2, 0, 0] }],
    seg := { used := 1, data := [3, 0, 0, 0] },
    nexts := [],
    idx := 0, size := 4, icnt := 3, ncnt := 2 }

/-- The segment-skipping loop of `fr_next_n`:
`while ( seg->next && steps >= seg->used ) { steps -= seg->used; seg = seg->next; }`.
The result is the position at index 0 of the segment reached, with the steps
left. -/
def next_n_skip (base : fr_s) : List fn_s → fn_s → List fn_s → Int → fr_s × Int
  | prevs, seg, [], steps =>
    ({ base with prevs := prevs, seg := seg, nexts := [], idx := 0 }, steps)
  | prevs, seg, n :: ns, steps =>
    if steps ≥ seg.used then
      next_n_skip base (seg :: prevs) n ns (steps - seg.used)
    else
      ({ base with prevs := prevs, seg := seg, nexts := n :: ns, idx := 0 }, steps)

/-- The one-by-one loop of `fr_next_n`, `k` iterations; `none` is the early
`return 0`. -/
def next_n_walk : Nat → fr_s → Option fr_s
  | 0, p => some p
  | k + 1, p =>
    if p.idx < p.seg.used - 1 then
      next_n_walk k { p with idx := p.idx + 1 }
    else
      match p.nexts with
      | [] => none
      | n :: ns =>
        next_n_walk k { p with prevs := p.seg :: p.prevs, seg := n, nexts := ns, idx := 0 }

/-- The "Small distance, go one by one." part of `fr_next_n`. -/
def next_n_slow (pos : fr_s) (n : Int) : fr_s × Int :=
  match next_n_walk n.toNat pos with
  | some p => (p, n)
  | none => (pos, 0)

/-- Move right N times; the second component is the return value. -/
def fr_next_n (pos : fr_s) (n : Int) : fr_s × Int :=
  match pos.nexts with
  | next :: ns =>
    if n > pos.size then
      let steps := n - (pos.seg.used - pos.idx)
      let r := next_n_skip pos (pos.seg :: pos.prevs) next ns steps
      if r.2 ≤ r.1.seg.used - 1 then
        ({ r.1 with idx := r.2 }, n)
      else
        (pos, 0)
    else next_n_slow pos n
  | [] => next_n_slow pos n

/-- The position after `k` successive `fr_next` calls that all succeed (return
1); `none` when one of them fails. -/
def next_times : Nat → fr_s → Option fr_s
  | 0, p => some p
  | k + 1, p => if (fr_next p).2 = 1 then next_times k (fr_next p).1 else none
/-- The segment-skipping loop of `fr_prev_n`:
`while ( seg->prev && steps >= seg->prev->used ) { seg = seg->prev; steps -= seg->used; }`.
The result is the position at index 0 of the segment reached, with the steps
left. -/
def prev_n_skip (base : fr_s) : List fn_s → fn_s → List fn_s → Int → fr_s × Int
  | [], seg, nexts, steps =>
    ({ base with prevs := [], seg := seg, nexts := nexts, idx := 0 }, steps)
  | q :: qs, seg, nexts, steps =>
    if steps ≥ q.used then
      prev_n_skip base qs q (seg :: nexts) (steps - q.used)
    else
      ({ base with prevs := q :: qs, seg := seg, nexts := nexts, idx := 0 }, steps)

/-- The one-by-one loop of `fr_prev_n`, `k` iterations; `none` is the early
`return 0`. -/
def prev_n_walk : Nat → fr_s → Option fr_s
  | 0, p => some p
  | k + 1, p =>
    if p.idx > 0 then
      prev_n_walk k { p with idx := p.idx - 1 }
    else
      match p.prevs with
      | [] => none
      | q :: qs =>
        prev_n_walk k
          { p with prevs := qs, seg := q, nexts := p.seg :: p.nexts, idx := q.used - 1 }

/-- Move left N times; the second component is the return value. -/
def fr_prev_n (pos : fr_s) (n : Int) : fr_s × Int :=
  if n > pos.size then
    let steps := n - pos.idx
    let r := prev_n_skip pos pos.prevs pos.seg pos.nexts steps
    if r.2 = 0 then
      ({ r.1 with idx := 0 }, n)
    else
      match r.1.prevs with
      | q :: qs =>
        ({ r.1 with prevs := qs, seg := q, nexts := r.1.seg :: r.1.nexts, idx := q.used - r.2 },
          n)
      | [] => (pos, 0)
  else
    match prev_n_walk n.toNat pos with
    | some p => (p, n)
    | none => (pos, 0)

/-- The position after `k` successive `fr_prev` calls that all succeed (return
1); `none` when one of them fails. -/
def prev_times : Nat → fr_s → Option fr_s
  | 0, p => some p
  | k + 1, p => if (fr_prev p).2 = 1 then prev_times k (fr_prev p).1 else none

/-- Three full segments `[1,2,3,4] - [5,6,7,8] - [9,10,11,12]` (capacity 4), the
cursor on the first item. -/
def ex_three_full : fr_s :=
  { prevs := [],
    seg := { used := 4, data := [1, 2, 3, 4] },
    nexts := [{ used := 4, data := [5, 6, 7, 8] }, { used := 4, data := [9, 10, 11, 12] }],
    idx := 0, size := 4, icnt := 12, ncnt := 3 }

/-- The chain of `ex_three_full` with the cursor on the item `6`. -/
def ex_three_full_at6 : fr_s :=
  { prevs := [{ used := 4, data := [1, 2, 3, 4] }],
    seg := { used := 4, data := [5, 6, 7, 8] },
    nexts := [{ used := 4, data := [9, 10, 11, 12] }],
    idx := 1, size := 4, icnt := 12, ncnt := 3 }

/-! ## Search -/

/-- The inner loop of `fr_find` and `fr_find_with`:
`while ( tmp.idx < tmp.seg->used ) { if ( hit ) return tmp; tmp.idx++; }`, where
`hit` is the test made on the item at the index.  The first argument bounds the
number of iterations; the callers pass `used - idx`, the number of iterations the
loop can make.  The result is the index of the hit, `none` when the loop ends
without one. -/
def scan_seg (hit : Item → Bool) (s : fn_s) : Nat → Int → Option Int
  | 0, _ => none
  | k + 1, idx =>
    if idx < s.used then
      if hit (rd s.data idx) then some idx else scan_seg hit s k (idx + 1)
    else none

/-- The outer loop of `fr_find` and `fr_find_with`: scan the segment from the
index, then step to the next segment at index 0; `none` is the position with
`seg == NULL` that is returned when the chain is exhausted. -/
def find_scan (hit : Item → Bool) (base : fr_s) :
    List fn_s → fn_s → List fn_s → Int → Option fr_s
  | prevs, seg, [], idx =>
    match scan_seg hit seg (seg.used - idx).toNat idx with
    | some i => some { base with prevs := prevs, seg := seg, nexts := [], idx := i }
    | none => none
  | prevs, seg, n :: ns, idx =>
    match scan_seg hit seg (seg.used - idx).toNat idx with
    | some i => some { base with prevs := prevs, seg := seg, nexts := n :: ns, idx := i }
    | none => find_scan hit base (seg :: prevs) n ns 0

/-- Find item from Framer: the test is `tmp.seg->data[ tmp.idx ] == item`. -/
def fr_find (pos : fr_s) (item : Item) : Option fr_s :=
  find_scan (fun a => decide (a = item)) pos pos.prevs pos.seg pos.nexts pos.idx

/-- Find item from Framer using compare function: the test is
`comp( tmp.seg->data[ tmp.idx ], item ) == 0`. -/
def fr_find_with (pos : fr_s) (item : Item) (comp : Item → Item → Int) : Option fr_s :=
  find_scan (fun a => decide (comp a item = 0)) pos pos.prevs pos.seg pos.nexts pos.idx

/-- Is Position valid?  (`pos->seg != NULL`; `none` is the position with a null
segment.) -/
def fr_is_valid (r : Option fr_s) : Int := if r.isSome then 1 else 0
/-- The segment loop of `fr_find_sorted_with`:
`while ( tmp.seg ) { if ( comp( item, tmp.seg->data[ tmp.idx ] ) > 0 ) { prev = tmp.seg;
tmp.seg = tmp.seg->next; tmp.idx = 0; } else break; }`, followed by
`if ( prev ) tmp.seg = prev; tmp.idx = 0;`.  The first argument is `prev` (the
position at that segment, `none` for `NULL`); the result is `tmp` as it is
passed to `fr_find_with`. -/
def sorted_skip (comp : Item → Item → Int) (item : Item) (base : fr_s) :
    Option fr_s → List fn_s → fn_s → List fn_s → Int → fr_s
  | prev, prevs, seg, [], idx =>
    if comp item (rd seg.data idx) > 0 then
      { base with prevs := prevs, seg := seg, nexts := [], idx := 0 }
    else
      match prev with
      | some z => z
      | none => { base with prevs := prevs, seg := seg, nexts := [], idx := 0 }
  | prev, prevs, seg, n :: ns, idx =>
    if comp item (rd seg.data idx) > 0 then
      sorted_skip comp item base
        (some { base with prevs := prevs, seg := seg, nexts := n :: ns, idx := 0 })
        (seg :: prevs) n ns 0
    else
      match prev with
      | some z => z
      | none => { base with prevs := prevs, seg := seg, nexts := n :: ns, idx := 0 }

/-- Find item from Framer using compare function, assuming sorted data. -/
def fr_find_sorted_with (pos : fr_s) (item : Item) (comp : Item → Item → Int) : Option fr_s :=
  fr_find_with (sorted_skip comp item pos none pos.prevs pos.seg pos.nexts pos.idx) item comp

/-- A three-way comparator of a total order (more precisely of a total
preorder): the sign is antisymmetric and "not greater" is transitive. -/
structure TotalOrderComp (comp : Item → Item → Int) : Prop where
  swap : ∀ a b, 0 < comp a b ↔ comp b a < 0
  trans : ∀ a b c, comp a b ≤ 0 → comp b c ≤ 0 → comp a c ≤ 0

/-- The items of the chain are in ascending order under the comparator. -/
def Ascending (comp : Item → Item → Int) (pos : fr_s) : Prop :=
  pos.toList.Pairwise (fun a b => comp a b ≤ 0)

/-- The comparator `find_comp` of the tests, on the items themselves. -/
def find_comp (a b : Item) : Int :=
  if a > b then 1 else if a < b then -1 else 0

/-- Outcome of a call of `fr_pack_range`: the call returns (with the position
as it leaves it and the return code), or it dereferences a null segment
pointer; `out_of_fuel` is the model running out of loop iterations. -/
inductive pack_r where
  | ret (pos : fr_s) (code : Int)
  | null_deref
  | out_of_fuel
deriving DecidableEq

/-- The segment number `i` of a span of segments. -/
def seg_at (segs : List fn_s) (i : Nat) : fn_s := segs.getD i { used := 0, data := [] }

/-- The state of the main loop of `fr_pack_range`: the segments from `pos->seg`
to the end of the chain, and the locals `a.seg`, `a.idx`, `b.seg`, `b.idx`
(segments as indices into the span) and `b_used`. -/
structure pack_s where
  segs : List fn_s
  ia : Nat
  a_idx : Int
  ib : Nat
  b_idx : Int
  b_used : Int
deriving DecidableEq

/-- How the main loop of `fr_pack_range` ends. -/
inductive pack_l where
  | done (st : pack_s)
  | null_deref
  | out_of_fuel
deriving DecidableEq

/-- The loop `while ( a.seg && a.seg->used >= limit && ( !end || a.seg != end->seg ) )
a.seg = a.seg->next;` over the segments from `a.seg` on, `i` the number of
`a.seg`; `none` is `a.seg == NULL`.  `endi` is the number of `end->seg`,
`none` for `end == NULL`. -/
def pack_skip (limit : Int) (endi : Option Int) : List fn_s → Nat → Option Nat
  | [], _ => none
  | s :: rest, i =>
    if s.used ≥ limit ∧ endi ≠ some (i : Int) then pack_skip limit endi rest (i + 1) else some i

/-- The statements `a.seg->data[ a.idx++ ] = b.seg->data[ b.idx++ ]; a.seg->used++;`. -/
def pack_copy (st : pack_s) : pack_s :=
  { st with
    segs := st.segs.set st.ia
      { used := (seg_at st.segs st.ia).used + 1,
        data := wr (seg_at st.segs st.ia).data st.a_idx (rd (seg_at st.segs st.ib).data st.b_idx) },
    a_idx := st.a_idx + 1,
    b_idx := st.b_idx + 1 }

/-- The statement `if ( a.seg->used >= limit ) { a.seg = a.seg->next; a.idx = 0;
a.seg->used = 0; }`; `none` when `a.seg->next` is `NULL`, which the store to
`a.seg->used` dereferences. -/
def pack_a_next (limit : Int) (st : pack_s) : Option pack_s :=
  if (seg_at st.segs st.ia).used ≥ limit then
    if st.ia + 1 < st.segs.length then
      some { st with
        segs := st.segs.set (st.ia + 1) { seg_at st.segs (st.ia + 1) with used := 0 },
        ia := st.ia + 1,
        a_idx := 0 }
    else none
  else some st

/-- The statement `if ( b.idx >= b_used ) { b.seg = b.seg->next; if ( b.seg == NULL )
break; b_used = b.seg->used; b.idx = 0; }`; the flag is true for `break`. -/
def pack_b_next (st : pack_s) : pack_s × Bool :=
  if st.b_idx ≥ st.b_used then
    if st.ib + 1 < st.segs.length then
      ({ st with ib := st.ib + 1, b_used := (seg_at st.segs (st.ib + 1)).used, b_idx := 0 }, false)
    else (st, true)
  else (st, false)

/-- The loop `while ( ( end == NULL && b.seg != NULL ) || b.seg != end->seg ) { ... }`
of `fr_pack_range`, at most `fuel` iterations.  `b.seg` is not `NULL` when the
condition is evaluated. -/
def pack_loop (limit : Int) (endi : Option Int) : Nat → pack_s → pack_l
  | 0, _ => pack_l.out_of_fuel
  | fuel + 1, st =>
    if endi = some (st.ib : Int) then pack_l.done st
    else
      match pack_a_next limit (pack_copy st) with
      | none => pack_l.null_deref
      | some st1 =>
        if (pack_b_next st1).2 then pack_l.done (pack_b_next st1).1
        else pack_loop limit endi fuel (pack_b_next st1).1

/-- Iterations granted to the main loop of `fr_pack_range`: every segment
is drained in at most `size + 1` iterations. -/
def pack_fuel (pos : fr_s) : Nat := (pos.nexts.length + 1) * (pos.size.toNat + 1) + 1

/-- Pack Node segments together: `fr_pack_range( pos, end, limit )`.  `endp` is
`none` for `end == NULL`; a segment is identified by its number in the chain,
the number of segments before it.  The segments before `pos->seg` are not
touched.  After the loop every node after `a.seg` is unlinked and freed, with
`pos->ncnt--` for each.  `icnt / ncnt` is the truncating division of C; a chain
has at least one node, and for `ncnt = 0`, where the division of C is
undefined, `Int.tdiv` gives 0. -/
def fr_pack_range (pos : fr_s) (endp : Option fr_s) (limit : Int) : pack_r :=
  if limit ≤ Int.tdiv pos.icnt pos.ncnt ∨ limit > pos.size then pack_r.ret pos 0
  else
    match pack_skip limit
        (endp.map (fun e => (e.prevs.length : Int) - (pos.prevs.length : Int)))
        (pos.seg :: pos.nexts) 0 with
    | none => pack_r.ret pos 0
    | some ia =>
      if ia + 1 ≥ (pos.seg :: pos.nexts).length ∨
          endp.map (fun e => (e.prevs.length : Int) - (pos.prevs.length : Int)) = some (ia : Int)
      then pack_r.ret pos 0
      else if endp.map (fun e => (e.prevs.length : Int) - (pos.prevs.length : Int)) =
          some ((ia + 1 : Nat) : Int) then pack_r.ret pos 0
      else
        match pack_loop limit
            (endp.map (fun e => (e.prevs.length : Int) - (pos.prevs.length : Int)))
            (pack_fuel pos)
            { segs := pos.seg :: pos.nexts, ia := ia,
              a_idx := (seg_at (pos.seg :: pos.nexts) ia).used,
              ib := ia + 1, b_idx := 0,
              b_used := (seg_at (pos.seg :: pos.nexts) (ia + 1)).used } with
        | pack_l.done st =>
          pack_r.ret
            { pos with
              seg := seg_at st.segs 0,
              nexts := (st.segs.take (st.ia + 1)).drop 1,
              ncnt := pos.ncnt - ((st.segs.drop (st.ia + 1)).length : Int) } 1
        | pack_l.null_deref => pack_r.null_deref
        | pack_l.out_of_fuel => pack_r.out_of_fuel

/-- Capacity 8: `[1] - [2..8] - [10] - [11]`, the cursor on the first item. -/
def ex_pack_overtake : fr_s :=
  { prevs := [],
    seg := { used := 1, data := [1, 0, 0, 0, 0, 0, 0, 0] },
    nexts := [{ used := 7, data := [2, 3, 4, 5, 6, 7, 8, 0] },
              { used := 1, data := [10, 0, 0, 0, 0, 0, 0, 0] },
              { used := 1, data := [11, 0, 0, 0, 0, 0, 0, 0] }],
    idx := 0, size := 8, icnt := 10, ncnt := 4 }

/-- Capacity 8: `[1] - [2] - [3] - [4] - [5] - [6..13]`, the cursor on the item `5`
of the fifth segment. -/
def ex_pack_last_full : fr_s :=
  { prevs := [{ used := 1, data := [4, 0, 0, 0, 0, 0, 0, 0] },
              { used := 1, data := [3, 0, 0, 0, 0, 0, 0, 0] },
              { used := 1, data := [2, 0, 0, 0, 0, 0, 0, 0] },
              { used := 1, data := [1, 0, 0, 0, 0, 0, 0, 0] }],
    seg := { used := 1, data := [5, 0, 0, 0, 0, 0, 0, 0] },
    nexts := [{ used := 8, data := [6, 7, 8, 9, 10, 11, 12, 13] }],
    idx := 0, size := 8, icnt := 13, ncnt := 6 }

/-- Capacity 4: `[1,2] - [3,4] - [5,6] - [7]`, the cursor on the first item. -/
def ex_pack_pairs : fr_s :=
  { prevs := [],
    seg := { used := 2, data := [1, 2, 0, 0] },
    nexts := [{ used := 2, data := [3, 4, 0, 0] }, { used := 2, data := [5, 6, 0, 0] },
              { used := 1, data := [7, 0, 0, 0] }],
    idx := 0, size := 4, icnt := 7, ncnt := 4 }

/-- Invariant of the main loop of `fr_pack_range`, for the limit `limit` and the
capacity `S`: `a.seg` and `b.seg` are segments of the span, every segment
before `a.seg` holds at least `limit` items, no segment holds more than `S`,
`a.seg` holds less than `limit`, and `b_used` is at most `S`. -/
def PackInv (limit S : Int) (st : pack_s) : Prop :=
  st.ia < st.segs.length ∧ st.ib < st.segs.length ∧
  (∀ j, j < st.ia → limit ≤ (seg_at st.segs j).used) ∧
  (∀ j, j < st.segs.length → (seg_at st.segs j).used ≤ S) ∧
  (seg_at st.segs st.ia).used < limit ∧ st.b_used ≤ S

/-- Bound on the iterations the main loop of `fr_pack_range` still runs. -/
def pack_measure (S : Int) (st : pack_s) : Nat :=
  (st.segs.length - 1 - st.ib) * (S.toNat + 1) + max 1 (st.b_used - st.b_idx).toNat

/-- The chain of `ex_pack_pairs` with the cursor on the item `5` of the third
segment. -/
def ex_pack_pairs_at5 : fr_s :=
  { prevs := [{ used := 2, data := [3, 4, 0, 0] }, { used := 2, data := [1, 2, 0, 0] }],
    seg := { used := 2, data := [5, 6, 0, 0] },
    nexts := [{ used := 1, data := [7, 0, 0, 0] }],
    idx := 0, size := 4, icnt := 7, ncnt := 4 }

/-- Capacity 8: the chain `[1,2,3,4,5,6,7,8] - [9]` with the cursor on the item `9`. -/
def ex_full8_then_one : fr_s :=
  { prevs := [{ used := 8, data := [1, 2, 3, 4, 5, 6, 7, 8] }],
    seg := { used := 1, data := [9, 0, 0, 0, 0, 0, 0, 0] },
    nexts := [],
    idx := 0, size := 8, icnt := 9, ncnt := 2 }

/-- Result of a slot read `data[ i ]` that is checked against the slot array. -/
inductive slot_r where
  | item (v : Item)
  | out_of_bounds
deriving DecidableEq

/-- Slot read `a[i]`; a read outside the slot array is reported. -/
def rd_checked (a : List Item) (i : Int) : slot_r :=
  if 0 ≤ i ∧ i < (a.length : Int) then slot_r.item (rd a i) else slot_r.out_of_bounds

/-- Return item at current segment index: `if ( idx < pos->seg->used ) return
pos->seg->data[ idx ]; else return NULL;`, `idx` a signed `fr_size_t`. -/
def fr_item_at (pos : fr_s) (idx : Int) : slot_r :=
  if idx < pos.seg.used then rd_checked pos.seg.data idx else slot_r.item NULL

/-- Return item count of Framer tail, from the cursor (inclusive) to the end:
`cnt = tmp.seg->used - tmp.idx; while ( tmp.seg->next ) { tmp.seg = tmp.seg->next;
cnt += tmp.seg->used; }`. -/
def fr_tail_length (pos : fr_s) : Int :=
  pos.nexts.foldl (fun cnt s => cnt + s.used) (pos.seg.used - pos.idx)

/-- Move right and return the item there: `if ( fr_next( pos ) == 0 ) { pos->seg =
NULL; return NULL; } else return pos->seg->data[ pos->idx ];`.  The first
component is the position, `none` when its segment is set to `NULL`. -/
def fr_next_item (pos : fr_s) : Option fr_s × Item :=
  if (fr_next pos).2 = 0 then (none, NULL)
  else (some (fr_next pos).1, fr_item (fr_next pos).1)

/-- The loop of the macro `fr_each`, entered with the iterator and the item
just read: `for ( ...; ( iter )->seg; item = fr_next_item( iter ) ) body`.  The
result lists the items the body is run with; it is `none` when the loop has
not ended within `fuel` runs of the body. -/
def each_loop : Nat → Option fr_s → Item → Option (List Item)
  | _, none, _ => some []
  | 0, some _, _ => none
  | fuel + 1, some iter, item =>
    (each_loop fuel (fr_next_item iter).1 (fr_next_item iter).2).map (fun l => item :: l)

/-- Framer item iterator `fr_each( iter, item, cast )`: the loop starts with
`item = fr_item( iter )`. -/
def fr_each (fuel : Nat) (iter : fr_s) : Option (List Item) :=
  each_loop fuel (some iter) (fr_item iter)

/-- The cached node count minus the number of segments of the chain: 0 when
the counter is accurate. -/
def fr_s.ncntGap (pos : fr_s) : Int := pos.ncnt - (pos.chain.length : Int)

/-- The delete loop of the tests: `n` calls of `fr_delete`; the returned items
are listed first call first. -/
def delete_many : Nat → fr_s → fr_s × List Item
  | 0, pos => (pos, [])
  | n + 1, pos =>
    let r := fr_delete pos
    let rest := delete_many n r.1
    (rest.1, r.2 :: rest.2)

/-- Capacity 8: the chain `[1,2] - [3,4,5,6,7,8,9,10]` with the cursor on the item
`5` (index 2 of the full second segment). -/
def ex_two_then_full8 : fr_s :=
  { prevs := [{ used := 2, data := [1, 2, 0, 0, 0, 0, 0, 0] }],
    seg := { used := 8, data := [3, 4, 5, 6, 7, 8, 9, 10] },
    nexts := [],
    idx := 2, size := 8, icnt := 10, ncnt := 2 }

/-! ## Theorems -/

/-! ### Slot arrays -/

@[simp] theorem length_wr (a : List Item) (i : Int) (v : Item) : (wr a i v).length = a.length := by
  unfold wr; split <;> simp

theorem length_foldl_wr (f : Nat → Int) (g : Nat → Item) (l : List Nat) (acc : List Item) :
    (l.foldl (fun (acc : List Item) (k : Nat) => wr acc (f k) (g k)) acc).length = acc.length := by
  induction l generalizing acc with
  | nil => rfl
  | cons k l ih => simp [List.foldl_cons, ih]

@[simp] theorem length_memmove (dst src : List Item) (d s n : Int) :
    (memmove dst d src s n).length = dst.length := by
  unfold memmove; exact length_foldl_wr _ _ _ _

@[simp] theorem length_memcpy (dst src : List Item) (d s n : Int) :
    (memcpy dst d src s n).length = dst.length := by
  unfold memcpy; simp

theorem getElem?_wr (a : List Item) (j : Int) (v : Item) (i : Nat) :
    (wr a j v)[i]? = if j = (i : Int) ∧ i < a.length then some v else a[i]? := by
  unfold wr
  by_cases hj : 0 ≤ j
  · rw [if_pos hj, List.getElem?_set]
    by_cases h : j.toNat = i
    · have h1 : j = (i : Int) := by omega
      by_cases h2 : i < a.length
      · rw [if_pos h, if_pos (by omega), if_pos ⟨h1, h2⟩]
      · rw [if_pos h, if_neg (by omega), if_neg (by omega)]
        exact (List.getElem?_eq_none (by omega)).symm
    · have h1 : ¬ (j = (i : Int)) := by omega
      rw [if_neg h, if_neg (by omega)]
  · have h1 : ¬ (j = (i : Int)) := by omega
    rw [if_neg hj, if_neg (by omega)]

theorem getElem?_foldl_wr (src : List Item) (d s : Int) (m : Nat) (dst : List Item) (i : Nat) :
    ((List.range m).foldl
        (fun (acc : List Item) (k : Nat) => wr acc (d + (k : Int)) (rd src (s + (k : Int)))) dst)[i]? =
      if d ≤ (i : Int) ∧ (i : Int) < d + (m : Int) ∧ i < dst.length
      then some (rd src (s + ((i : Int) - d)))
      else dst[i]? := by
  induction m with
  | zero =>
    rw [if_neg (by omega)]; rfl
  | succ m ih =>
    rw [List.range_succ, List.foldl_append]
    simp only [List.foldl_cons, List.foldl_nil]
    rw [getElem?_wr, ih, length_foldl_wr]
    by_cases h1 : d + (m : Int) = (i : Int) ∧ i < dst.length
    · have h3 : s + (m : Int) = s + ((i : Int) - d) := by omega
      rw [if_pos h1, if_pos (by omega), h3]
    · rw [if_neg h1]
      by_cases h2 : d ≤ (i : Int) ∧ (i : Int) < d + (m : Int) ∧ i < dst.length
      · rw [if_pos h2, if_pos (by omega)]
      · rw [if_neg h2, if_neg (by omega)]

/-- Slot-wise description of `memmove`. -/
theorem getElem?_memmove (dst src : List Item) (d s n : Int) (i : Nat) :
    (memmove dst d src s n)[i]? =
      if d ≤ (i : Int) ∧ (i : Int) < d + n ∧ i < dst.length then some (rd src (s + ((i : Int) - d)))
      else dst[i]? := by
  unfold memmove
  rw [getElem?_foldl_wr]
  by_cases h : d ≤ (i : Int) ∧ (i : Int) < d + n ∧ i < dst.length
  · rw [if_pos h, if_pos (by omega)]
  · rw [if_neg h, if_neg (by omega)]

theorem getElem?_memcpy (dst src : List Item) (d s n : Int) (i : Nat) :
    (memcpy dst d src s n)[i]? =
      if d ≤ (i : Int) ∧ (i : Int) < d + n ∧ i < dst.length then some (rd src (s + ((i : Int) - d)))
      else dst[i]? := getElem?_memmove dst src d s n i

theorem some_rd (a : List Item) (j : Int) (i : Nat) (hj : j = (i : Int)) (h : i < a.length) :
    some (rd a j) = a[i]? := by
  subst hj
  simp [rd, h, List.getD_eq_getElem?_getD]

/-! ### Logical content -/

theorem length_items (s : fn_s) (h0 : 0 ≤ s.used) (h1 : s.used ≤ (s.data.length : Int)) :
    (s.items.length : Int) = s.used := by
  unfold fn_s.items
  rw [List.length_take]
  omega

theorem toList_eq (pos : fr_s) :
    pos.toList =
      pos.prevs.reverse.flatMap fn_s.items ++ (pos.seg.items ++ pos.nexts.flatMap fn_s.items) := by
  simp [fr_s.toList, fr_s.chain, List.flatMap_append, List.flatMap_cons]

theorem items_getElem? (s : fn_s) (i : Nat) (h : (i : Int) < s.used)
    (h1 : s.used ≤ (s.data.length : Int)) :
    s.items[i]? = some (rd s.data (i : Int)) := by
  unfold fn_s.items
  rw [List.getElem?_take, if_pos (by omega)]
  exact (some_rd _ _ i rfl (by omega)).symm

/-- Closing the gap left by the deleted slot. -/
theorem take_delete_shift (data : List Item) (idx used : Int) (h0 : 0 ≤ idx)
    (h1 : idx < used - 1) (h2 : used ≤ (data.length : Int)) :
    (memmove data idx data (idx + 1) (used - (idx + 1))).take (used - 1).toNat =
      (data.take used.toNat).eraseIdx idx.toNat := by
  apply List.ext_getElem?
  intro i
  rw [List.getElem?_take, List.getElem?_eraseIdx, getElem?_memmove, List.getElem?_take,
    List.getElem?_take]
  by_cases hi : i < (used - 1).toNat
  · rw [if_pos hi]
    by_cases hlt : i < idx.toNat
    · rw [if_pos hlt, if_neg (by omega), if_pos (by omega)]
    · rw [if_neg hlt, if_pos (by omega), if_pos (by omega)]
      exact some_rd _ _ (i + 1) (by omega) (by omega)
  · rw [if_neg hi]
    by_cases hlt : i < idx.toNat
    · omega
    · rw [if_neg hlt, if_neg (by omega)]

theorem take_pred_eq_eraseIdx (data : List Item) (used : Int) (h1 : 1 ≤ used) :
    data.take (used - 1).toNat = (data.take used.toNat).eraseIdx (used - 1).toNat := by
  apply List.ext_getElem?
  intro i
  rw [List.getElem?_take, List.getElem?_eraseIdx, List.getElem?_take, List.getElem?_take]
  by_cases hi : i < (used - 1).toNat
  · rw [if_pos hi, if_pos hi, if_pos (by omega)]
  · rw [if_neg hi, if_neg hi, if_neg (by omega)]


theorem eraseIdx_mid (A S B : List Item) (i : Nat) (h : i < S.length) :
    (A ++ (S ++ B)).eraseIdx (A.length + i) = A ++ (S.eraseIdx i ++ B) := by
  rw [List.eraseIdx_append_of_length_le (by omega), Nat.add_sub_cancel_left,
    List.eraseIdx_append_of_lt_length h]

theorem fr_delete_snd (pos : fr_s) : (fr_delete pos).2 = fr_item pos := by
  unfold fr_delete fr_item
  simp only []
  split
  · split
    · rfl
    · split <;> rfl
  · split
    · split <;> rfl
    · rfl

theorem toList_at_position (pos : fr_s) (hwf : WellFormed pos) (hcur : OnItem pos) :
    pos.toList[pos.position]? = some (fr_item pos) := by
  obtain ⟨h0, h1⟩ := hcur
  have hlen := length_items pos.seg hwf.used_nonneg (by have := hwf.data_len; have := hwf.used_le; omega)
  rw [toList_eq, fr_s.position, List.getElem?_append, if_neg (by omega), Nat.add_sub_cancel_left,
    List.getElem?_append, if_pos (by omega)]
  rw [items_getElem? pos.seg pos.idx.toNat (by omega) (by have := hwf.data_len; have := hwf.used_le; omega)]
  unfold fr_item
  congr 2
  omega

theorem fr_delete_toList (pos : fr_s) (hwf : WellFormed pos) (hcur : OnItem pos) :
    (fr_delete pos).1.toList = pos.toList.eraseIdx pos.position := by
  obtain ⟨h0, h1⟩ := hcur
  have hdl := hwf.data_len
  have hul := hwf.used_le
  have hlen := length_items pos.seg hwf.used_nonneg (by omega)
  rw [toList_eq pos, fr_s.position, eraseIdx_mid _ _ _ _ (by omega), toList_eq]
  obtain ⟨prevs, seg, nexts, idx, size, icnt, ncnt⟩ := pos
  simp only at h0 h1 hdl hul hlen ⊢
  unfold fr_delete
  simp only []
  by_cases hu : seg.used > 1
  · rw [if_pos hu]
    by_cases hi : idx < seg.used - 1
    · rw [if_pos hi]
      simp only [fn_s.items]
      rw [take_delete_shift seg.data idx seg.used h0 hi (by omega)]
    · rw [if_neg hi]
      have hidx : idx = seg.used - 1 := by omega
      subst hidx
      cases nexts with
      | nil =>
        simp only [fn_s.items]
        rw [take_pred_eq_eraseIdx seg.data seg.used (by omega)]
      | cons n ns =>
        simp only [List.reverse_cons, List.flatMap_append, List.flatMap_cons, List.flatMap_nil,
          List.append_nil, List.append_assoc, fn_s.items]
        rw [take_pred_eq_eraseIdx seg.data seg.used (by omega)]
  · rw [if_neg hu]
    have hu1 : seg.used = 1 := by omega
    have hidx : idx = 0 := by omega
    subst hidx
    rw [if_pos hu1]
    have hS : seg.items.eraseIdx (0 : Int).toNat = [] := by
      have hl1 : seg.items.length = 1 := by omega
      obtain ⟨x, hx⟩ := List.length_eq_one.mp hl1
      rw [hx]; rfl
    rw [hS]
    cases nexts with
    | nil =>
      cases prevs with
      | nil => simp [fn_s.items, hu1]
      | cons q qs =>
        simp [List.flatMap_append, List.flatMap_cons]
    | cons n ns =>
      simp [List.flatMap_cons]

/-- C2: on a well-formed chain with the cursor on an item, `fr_delete` returns
the item the cursor referenced, which is the item at the cursor's position of
the logical sequence, and the new logical sequence is the old one with exactly
that position removed. -/
theorem fr_delete_spec (pos : fr_s) (hwf : WellFormed pos) (hcur : OnItem pos) :
    (fr_delete pos).2 = fr_item pos ∧
    pos.toList[pos.position]? = some (fr_delete pos).2 ∧
    (fr_delete pos).1.toList = pos.toList.eraseIdx pos.position := by
  refine ⟨fr_delete_snd pos, ?_, fr_delete_toList pos hwf hcur⟩
  rw [fr_delete_snd]
  exact toList_at_position pos hwf hcur

theorem wf_ex_full_then_one : WellFormed ex_full_then_one :=
  ⟨by decide, by decide, by decide, by decide, by decide, by decide, by decide, by decide⟩

/-- Witness of `fr_delete_spec` on `[1,2,3,4] - [5]` with the cursor on `4`. -/
theorem fr_delete_spec_witness :
    WellFormed ex_full_then_one ∧ OnItem ex_full_then_one ∧
    (fr_delete ex_full_then_one).2 = 4 ∧
    (fr_delete ex_full_then_one).1.toList = [1, 2, 3, 5] :=
  ⟨wf_ex_full_then_one, by decide,
    by rw [(fr_delete_spec ex_full_then_one wf_ex_full_then_one (by decide)).1]; decide,
    by rw [(fr_delete_spec ex_full_then_one wf_ex_full_then_one (by decide)).2.2]; decide⟩

/-! ### Preservation of well-formedness -/

theorem sumUsed_eq (pos : fr_s) :
    pos.sumUsed = (pos.prevs.map fn_s.used).sum + pos.seg.used + (pos.nexts.map fn_s.used).sum := by
  simp [fr_s.sumUsed, fr_s.chain, List.sum_reverse]
  omega

theorem chain_length (pos : fr_s) :
    (pos.chain.length : Int) = pos.prevs.length + 1 + pos.nexts.length := by
  simp [fr_s.chain]
  omega

theorem half_seg_double (size : Int) (h : 0 ≤ size) :
    2 * half_seg size = size ∨ 2 * half_seg size = size + 1 := by
  unfold half_seg
  rw [Int.tdiv_eq_ediv h (by decide)]
  split <;> omega

theorem length_fn_new_sized (size : Int) (h : 0 ≤ size) :
    ((fn_new_sized size).data.length : Int) = size := by
  simp [fn_new_sized]
  omega

theorem WellFormed.intro {prevs : List fn_s} {seg : fn_s} {nexts : List fn_s}
    {idx size icnt ncnt : Int}
    (hp : ∀ s ∈ prevs, seg_ok size s) (hn : ∀ s ∈ nexts, seg_ok size s)
    (h0 : 0 ≤ seg.used) (h1 : seg.used ≤ size) (hl : (seg.data.length : Int) = size)
    (he : seg.used = 0 → prevs = [] ∧ nexts = [])
    (hi : icnt = (prevs.map fn_s.used).sum + seg.used + (nexts.map fn_s.used).sum)
    (hc : ncnt = (prevs.length : Int) + 1 + nexts.length) :
    WellFormed ⟨prevs, seg, nexts, idx, size, icnt, ncnt⟩ :=
  ⟨hp, hn, h0, h1, hl, he, by rw [sumUsed_eq]; exact hi, by rw [chain_length]; exact hc⟩

theorem insert_shift_settled (pos : fr_s) (item : Item) (h : InsertReady pos)
    (hroom : pos.seg.used < pos.size) : Settled pos (insert_shift pos item) := by
  obtain ⟨hp, hn, h0, h1, hl, he, hi, hc, hi0, hi1, hend, hsz⟩ := h
  rw [sumUsed_eq] at hi
  rw [chain_length] at hc
  obtain ⟨prevs, seg, nexts, idx, size, icnt, ncnt⟩ := pos
  simp only at hp hn h0 h1 hl he hi hc hi0 hi1 hend hsz hroom
  unfold insert_shift
  refine ⟨WellFormed.intro hp hn ?_ ?_ ?_ ?_ ?_ hc, ?_, rfl⟩
  · simp only; omega
  · simp only; omega
  · simp only [length_wr]; split
    · rw [length_memmove]; exact hl
    · exact hl
  · simp only; intro hh; omega
  · simp only; omega
  · constructor <;> simp only <;> omega

theorem insert_split_settled (pos : fr_s) (item : Item) (h : InsertReady pos)
    (hfull : pos.seg.used = pos.size) (hlt : pos.idx < pos.seg.used) :
    Settled pos (insert_split pos item) := by
  obtain ⟨hp, hn, h0, h1, hl, he, hi, hc, hi0, hi1, hend, hsz⟩ := h
  rw [sumUsed_eq] at hi
  rw [chain_length] at hc
  obtain ⟨prevs, seg, nexts, idx, size, icnt, ncnt⟩ := pos
  simp only at hp hn h0 h1 hl he hi hc hi0 hi1 hend hsz hfull hlt
  have hh := half_seg_double size (by omega)
  have hnew := length_fn_new_sized size (by omega)
  unfold insert_split fr_even
  simp only []
  split_ifs with c1 c2
  · omega
  · refine ⟨WellFormed.intro hp ?_ ?_ ?_ ?_ ?_ ?_ ?_, ?_, rfl⟩
    · refine List.forall_mem_cons.mpr ⟨⟨?_, ?_, ?_⟩, hn⟩
      · simp only; omega
      · simp only; omega
      · simp only [length_memmove, length_memcpy]; exact hnew
    · simp only; omega
    · simp only; omega
    · simp only [length_memcpy, length_wr]; exact hl
    · simp only; intro hh; omega
    · simp only [List.map_cons, List.sum_cons]; omega
    · simp only [List.length_cons]; push_cast; omega
    · constructor <;> simp only <;> omega
  · refine ⟨WellFormed.intro hp ?_ ?_ ?_ ?_ ?_ ?_ ?_, ?_, rfl⟩
    · refine List.forall_mem_cons.mpr ⟨⟨?_, ?_, ?_⟩, hn⟩
      · simp only; omega
      · simp only; omega
      · simp only [length_memcpy]; exact hnew
    · simp only; omega
    · simp only; omega
    · simp only [length_wr]; exact hl
    · simp only; intro hh; omega
    · simp only [List.map_cons, List.sum_cons]; omega
    · simp only [List.length_cons]; push_cast; omega
    · constructor <;> simp only <;> omega

theorem insert_full_settled (pos : fr_s) (item : Item) (h : InsertReady pos)
    (hfull : pos.seg.used = pos.size) : Settled pos (insert_full pos item) := by
  have hkeep := h
  obtain ⟨hp, hn, h0, h1, hl, he, hi, hc, hi0, hi1, hend, hsz⟩ := h
  rw [sumUsed_eq] at hi
  rw [chain_length] at hc
  obtain ⟨prevs, seg, nexts, idx, size, icnt, ncnt⟩ := pos
  simp only at hp hn h0 h1 hl he hi hc hi0 hi1 hend hsz hfull
  have hnew := length_fn_new_sized size (by omega)
  unfold insert_full
  simp only []
  by_cases c1 : idx ≥ seg.used
  · -- new trailing segment
    rw [if_pos c1]
    have hnx : nexts = [] := by
      rcases hend (by omega) with h | h
      · omega
      · exact h
    subst hnx
    refine ⟨WellFormed.intro ?_ hn ?_ ?_ ?_ ?_ ?_ ?_, ?_, rfl⟩
    · exact List.forall_mem_cons.mpr ⟨⟨by omega, by omega, hl⟩, hp⟩
    · simp [fn_new_sized]
    · simp [fn_new_sized]; omega
    · simp only [length_wr]; exact hnew
    · simp [fn_new_sized]
    · simp [fn_new_sized] at hi ⊢; omega
    · simp at hc ⊢; omega
    · constructor <;> simp [fn_new_sized]
  rw [if_neg c1]
  by_cases c2 : idx < half_seg size
  · -- left half
    rw [if_pos c2]
    cases prevs with
    | nil =>
      simp only []
      exact insert_split_settled _ item hkeep hfull (by simp only; omega)
    | cons prev ps =>
      simp only []
      obtain ⟨hq, hps⟩ := List.forall_mem_cons.mp hp
      obtain ⟨hq1, hq2, hq3⟩ := hq
      by_cases c3 : idx ≠ 0 ∧ idx ≤ size - prev.used
      · rw [if_pos c3]
        refine ⟨WellFormed.intro ?_ hn ?_ ?_ ?_ ?_ ?_ ?_, ?_, rfl⟩
        · refine List.forall_mem_cons.mpr ⟨⟨?_, ?_, ?_⟩, hps⟩
          · simp only; omega
          · simp only; omega
          · simp only [length_memcpy]; exact hq3
        · simp only; omega
        · simp only; omega
        · simp only [length_wr]; split
          · rw [length_memmove]; exact hl
          · exact hl
        · simp only; intro hh; omega
        · simp only [List.map_cons, List.sum_cons] at hi ⊢; omega
        · simp only [List.length_cons] at hc ⊢; exact hc
        · constructor <;> simp only <;> omega
      · rw [if_neg c3]
        exact insert_split_settled _ item hkeep hfull (by simp only; omega)
  · -- right half
    rw [if_neg c2]
    cases nexts with
    | nil =>
      simp only []
      exact insert_split_settled _ item hkeep hfull (by simp only; omega)
    | cons next ns =>
      simp only []
      obtain ⟨hq, hns⟩ := List.forall_mem_cons.mp hn
      obtain ⟨hq1, hq2, hq3⟩ := hq
      by_cases c3 : seg.used - idx ≤ size - next.used
      · rw [if_pos c3]
        refine ⟨WellFormed.intro hp ?_ ?_ ?_ ?_ ?_ ?_ ?_, ?_, rfl⟩
        · refine List.forall_mem_cons.mpr ⟨⟨?_, ?_, ?_⟩, hns⟩
          · simp only; omega
          · simp only; omega
          · simp only [length_memcpy, length_memmove]; exact hq3
        · simp only; omega
        · simp only; omega
        · simp only [length_wr]; exact hl
        · simp only; intro hh; omega
        · simp only [List.map_cons, List.sum_cons] at hi ⊢; omega
        · simp only [List.length_cons] at hc ⊢; exact hc
        · constructor <;> simp only <;> omega
      · rw [if_neg c3]
        exact insert_split_settled _ item hkeep hfull (by simp only; omega)
theorem insert_rest_settled (pos : fr_s) (item : Item) (h : InsertReady pos) :
    Settled pos (insert_rest pos item) := by
  unfold insert_rest
  by_cases c : pos.seg.used < pos.size
  · rw [if_pos c]; exact insert_shift_settled pos item h c
  · rw [if_neg c]; exact insert_full_settled pos item h (by have := h.used_le; omega)

theorem insertReady_of_wf (pos : fr_s) (hwf : WellFormed pos) (hsz : 0 < pos.size)
    (hcur : InsertCursor pos) : InsertReady { pos with icnt := pos.icnt + 1 } := by
  obtain ⟨hp, hn, h0, h1, hl, he, hi, hc⟩ := hwf
  obtain ⟨c0, c1, c2⟩ := hcur
  exact ⟨hp, hn, h0, h1, hl, he, by simp only; rw [hi]; rfl, hc, c0, c1, c2, hsz⟩

theorem insertCursor_of_valid (pos : fr_s) (hsz : 0 < pos.size)
    (hcur : ValidCursor pos) : InsertCursor pos := by
  rcases hcur with ⟨h0, h1⟩ | ⟨h0, h1⟩
  · exact ⟨h0, by omega, fun h => by omega⟩
  · exact ⟨by omega, by omega, fun _ => Or.inl (by omega)⟩

theorem fr_insert_settled (pos : fr_s) (item : Item) (hwf : WellFormed pos) (hsz : 0 < pos.size)
    (hcur : InsertCursor pos) : Settled pos (fr_insert pos item) := by
  have hr := insertReady_of_wf pos hwf hsz hcur
  have key : ∀ res, Settled { pos with icnt := pos.icnt + 1 } res → Settled pos res :=
    fun res h => ⟨h.wf, h.cur, h.size_eq⟩
  unfold fr_insert
  simp only []
  by_cases c1 : pos.idx > 0 ∧ pos.seg.used < pos.size
  · rw [if_pos c1]
    exact key _ (insert_shift_settled _ item hr c1.2)
  · rw [if_neg c1]
    split
    · rename_i prev ps hprevs
      by_cases c2 : pos.idx = 0 ∧ prev.used < pos.size
      · rw [if_pos c2]
        obtain ⟨hp, hn, h0, h1, hl, he, hi, hc⟩ := hwf
        rw [sumUsed_eq] at hi
        rw [chain_length] at hc
        obtain ⟨prevs, seg, nexts, idx, size, icnt, ncnt⟩ := pos
        simp only at hp hn h0 h1 hl he hi hc hsz c1 c2 hprevs
        subst hprevs
        obtain ⟨hq, hps⟩ := List.forall_mem_cons.mp hp
        obtain ⟨hq1, hq2, hq3⟩ := hq
        have hsu : 1 ≤ seg.used := by
          by_cases h : 0 < seg.used
          · omega
          · have := (he (by omega)).1
            simp at this
        refine ⟨WellFormed.intro hps ?_ ?_ ?_ ?_ ?_ ?_ ?_, ?_, rfl⟩
        · exact List.forall_mem_cons.mpr ⟨⟨hsu, h1, hl⟩, hn⟩
        · simp only; omega
        · simp only; omega
        · simp only [length_wr]; exact hq3
        · simp only; intro hh; omega
        · simp only [List.map_cons, List.sum_cons] at hi ⊢; omega
        · simp only [List.length_cons] at hc ⊢; push_cast at hc ⊢; omega
        · constructor <;> simp only <;> omega
      · rw [if_neg c2]
        exact key _ (insert_rest_settled _ item hr)
    · exact key _ (insert_rest_settled _ item hr)

theorem Settled.kept {pos res : fr_s} (h : Settled pos res) : Kept pos res :=
  ⟨h.wf, Or.inl h.cur, h.size_eq⟩

/-- A well-formed chain with a non-zero item counter has its cursor segment
non-empty: a valid cursor is then on an item. -/
theorem onItem_of_icnt_ne (pos : fr_s) (hwf : WellFormed pos) (hcur : ValidCursor pos)
    (hne : pos.icnt ≠ 0) : OnItem pos := by
  rcases hcur with h | ⟨h0, _⟩
  · exact h
  · exfalso
    obtain ⟨hp, hn⟩ := hwf.sole_if_empty h0
    apply hne
    rw [hwf.icnt_eq, sumUsed_eq, hp, hn, h0]
    rfl

theorem fr_next_settled (pos : fr_s) (hwf : WellFormed pos) (hcur : OnItem pos) :
    Settled pos (fr_next pos).1 := by
  obtain ⟨hp, hn, h0, h1, hl, he, hi, hc⟩ := hwf
  rw [sumUsed_eq] at hi
  rw [chain_length] at hc
  obtain ⟨c0, c1⟩ := hcur
  obtain ⟨prevs, seg, nexts, idx, size, icnt, ncnt⟩ := pos
  simp only at hp hn h0 h1 hl he hi hc c0 c1
  unfold fr_next
  simp only []
  by_cases c : idx < seg.used - 1
  · rw [if_pos c]
    exact ⟨WellFormed.intro hp hn h0 h1 hl he hi hc, ⟨by simp only; omega, by simp only; omega⟩, rfl⟩
  · rw [if_neg c]
    cases nexts with
    | nil => exact ⟨WellFormed.intro hp hn h0 h1 hl he hi hc, ⟨c0, c1⟩, rfl⟩
    | cons n ns =>
      obtain ⟨hq, hns⟩ := List.forall_mem_cons.mp hn
      obtain ⟨hq1, hq2, hq3⟩ := hq
      refine ⟨WellFormed.intro ?_ hns ?_ hq2 hq3 ?_ ?_ ?_, ?_, rfl⟩
      · exact List.forall_mem_cons.mpr ⟨⟨by omega, h1, hl⟩, hp⟩
      · omega
      · intro hh; omega
      · simp only [List.map_cons, List.sum_cons] at hi ⊢; omega
      · simp only [List.length_cons] at hc ⊢; push_cast at hc ⊢; omega
      · constructor <;> simp only <;> omega

theorem fr_append_settled (pos : fr_s) (item : Item) (hwf : WellFormed pos) (hsz : 0 < pos.size)
    (hcur : ValidCursor pos) : Settled pos (fr_append pos item) := by
  unfold fr_append
  by_cases c1 : pos.icnt ≠ 0 ∧ pos.idx = pos.seg.used - 1 ∧ pos.nexts = [] ∧ pos.seg.used < pos.size
  · rw [if_pos c1]
    obtain ⟨hp, hn, h0, h1, hl, he, hi, hc⟩ := hwf
    rw [sumUsed_eq] at hi
    rw [chain_length] at hc
    obtain ⟨prevs, seg, nexts, idx, size, icnt, ncnt⟩ := pos
    simp only at hp hn h0 h1 hl he hi hc c1 hsz
    obtain ⟨d1, d2, d3, d4⟩ := c1
    refine ⟨WellFormed.intro hp hn ?_ ?_ ?_ ?_ ?_ hc, ?_, rfl⟩
    · simp only; omega
    · simp only; omega
    · simp only [length_wr]; exact hl
    · simp only; intro hh; omega
    · simp only; omega
    · rcases hcur with ⟨e0, e1⟩ | ⟨e0, e1⟩
      · simp only at e0 e1; constructor <;> simp only <;> omega
      · simp only at e0 e1; omega
  · rw [if_neg c1]
    by_cases c2 : pos.icnt = 0
    · rw [if_pos c2]
      exact fr_insert_settled pos item hwf hsz (insertCursor_of_valid pos hsz hcur)
    · rw [if_neg c2]
      have hon := onItem_of_icnt_ne pos hwf hcur c2
      have hwf1 : WellFormed { pos with idx := pos.idx + 1 } :=
        ⟨hwf.prevs_ok, hwf.nexts_ok, hwf.used_nonneg, hwf.used_le, hwf.data_len,
          hwf.sole_if_empty, hwf.icnt_eq, hwf.ncnt_eq⟩
      have key : ∀ res, Settled { pos with idx := pos.idx + 1 } res → Settled pos res :=
        fun res h => ⟨h.wf, h.cur, h.size_eq⟩
      by_cases c3 : pos.seg.used < pos.size
      · rw [if_pos c3]
        refine key _ (fr_insert_settled _ item hwf1 hsz ⟨?_, ?_, ?_⟩)
        · have := hon.1; simp only; omega
        · have := hon.2; simp only; omega
        · intro _; exact Or.inl c3
      · rw [if_neg c3]
        by_cases c4 : pos.nexts = []
        · rw [if_pos c4]
          refine key _ (fr_insert_settled _ item hwf1 hsz ⟨?_, ?_, ?_⟩)
          · have := hon.1; simp only; omega
          · have := hon.2; simp only; omega
          · intro _; exact Or.inr c4
        · rw [if_neg c4]
          have hn := fr_next_settled pos hwf hon
          have hs := fr_insert_settled (fr_next pos).1 item hn.wf (by rw [hn.size_eq]; exact hsz)
            (insertCursor_of_valid _ (by rw [hn.size_eq]; exact hsz) (Or.inl hn.cur))
          exact ⟨hs.wf, hs.cur, by rw [hs.size_eq, hn.size_eq]⟩

theorem fr_push_settled (pos : fr_s) (item : Item) (hwf : WellFormed pos) (hsz : 0 < pos.size)
    (hcur : ValidCursor pos) : Settled pos (fr_push pos item) := by
  unfold fr_push
  by_cases c1 : pos.icnt ≠ 0 ∧ pos.seg.used < pos.size
  · rw [if_pos c1]
    have hon := onItem_of_icnt_ne pos hwf hcur c1.1
    obtain ⟨hp, hn, h0, h1, hl, he, hi, hc⟩ := hwf
    rw [sumUsed_eq] at hi
    rw [chain_length] at hc
    obtain ⟨e0, e1⟩ := hon
    obtain ⟨prevs, seg, nexts, idx, size, icnt, ncnt⟩ := pos
    simp only at hp hn h0 h1 hl he hi hc c1 hsz e0 e1
    refine ⟨WellFormed.intro hp hn ?_ ?_ ?_ ?_ ?_ hc, ?_, rfl⟩
    · simp only; omega
    · simp only; omega
    · simp only [length_wr]; exact hl
    · simp only; intro hh; omega
    · simp only; omega
    · constructor <;> simp only <;> omega
  · rw [if_neg c1]
    exact fr_append_settled pos item hwf hsz hcur

theorem fr_delete_kept (pos : fr_s) (hwf : WellFormed pos) (hcur : ValidCursor pos) :
    Kept pos (fr_delete pos).1 := by
  obtain ⟨hp, hn, h0, h1, hl, he, hi, hc⟩ := hwf
  rw [sumUsed_eq] at hi
  rw [chain_length] at hc
  obtain ⟨prevs, seg, nexts, idx, size, icnt, ncnt⟩ := pos
  simp only at hp hn h0 h1 hl he hi hc
  unfold fr_delete
  simp only []
  by_cases c1 : seg.used > 1
  · rw [if_pos c1]
    have hon : 0 ≤ idx ∧ idx < seg.used := by
      rcases hcur with h | ⟨h, _⟩
      · exact h
      · simp only at h; omega
    by_cases c2 : idx < seg.used - 1
    · rw [if_pos c2]
      refine ⟨WellFormed.intro hp hn ?_ ?_ ?_ ?_ ?_ hc, Or.inl ?_, rfl⟩
      · simp only; omega
      · simp only; omega
      · simp only [length_memmove]; exact hl
      · simp only; intro hh; omega
      · simp only; omega
      · constructor <;> simp only <;> omega
    · rw [if_neg c2]
      cases nexts with
      | nil =>
        refine ⟨WellFormed.intro hp hn ?_ ?_ hl ?_ ?_ hc, Or.inl ?_, rfl⟩
        · simp only; omega
        · simp only; omega
        · simp only; intro hh; omega
        · simp only; omega
        · constructor <;> simp only <;> omega
      | cons n ns =>
        obtain ⟨hq, hns⟩ := List.forall_mem_cons.mp hn
        obtain ⟨hq1, hq2, hq3⟩ := hq
        refine ⟨WellFormed.intro ?_ hns ?_ hq2 hq3 ?_ ?_ ?_, Or.inl ?_, rfl⟩
        · exact List.forall_mem_cons.mpr ⟨⟨by simp only; omega, by simp only; omega, hl⟩, hp⟩
        · omega
        · intro hh; omega
        · simp only [List.map_cons, List.sum_cons] at hi ⊢; omega
        · simp only [List.length_cons] at hc ⊢; push_cast at hc ⊢; omega
        · constructor <;> simp only <;> omega
  · rw [if_neg c1]
    by_cases c2 : seg.used = 1
    · rw [if_pos c2]
      cases nexts with
      | nil =>
        cases prevs with
        | nil =>
          refine ⟨WellFormed.intro hp hn ?_ ?_ ?_ ?_ ?_ hc, Or.inr ?_, rfl⟩
          · simp only; omega
          · simp only; omega
          · simp only [length_wr]; exact hl
          · intro _; exact ⟨rfl, rfl⟩
          · simp only; omega
          · exact ⟨by simp only; omega, rfl⟩
        | cons q qs =>
          obtain ⟨hq, hqs⟩ := List.forall_mem_cons.mp hp
          obtain ⟨hq1, hq2, hq3⟩ := hq
          refine ⟨WellFormed.intro hqs hn ?_ hq2 hq3 ?_ ?_ ?_, Or.inl ?_, rfl⟩
          · omega
          · intro hh; omega
          · simp only [List.map_cons, List.sum_cons] at hi ⊢; omega
          · simp only [List.length_cons] at hc ⊢; push_cast at hc ⊢; omega
          · constructor <;> simp only <;> omega
      | cons n ns =>
        obtain ⟨hq, hns⟩ := List.forall_mem_cons.mp hn
        obtain ⟨hq1, hq2, hq3⟩ := hq
        refine ⟨WellFormed.intro hp hns ?_ hq2 hq3 ?_ ?_ ?_, Or.inl ?_, rfl⟩
        · omega
        · intro hh; omega
        · simp only [List.map_cons, List.sum_cons] at hi ⊢; omega
        · simp only [List.length_cons] at hc ⊢; push_cast at hc ⊢; omega
        · constructor <;> simp only <;> omega
    · rw [if_neg c2]
      exact ⟨WellFormed.intro hp hn h0 h1 hl he hi hc, hcur, rfl⟩

theorem fr_pop_kept (pos : fr_s) (hwf : WellFormed pos) (hcur : ValidCursor pos) :
    Kept pos (fr_pop pos).1 := by
  unfold fr_pop
  by_cases c1 : pos.idx > 0
  · rw [if_pos c1]
    obtain ⟨hp, hn, h0, h1, hl, he, hi, hc⟩ := hwf
    rw [sumUsed_eq] at hi
    rw [chain_length] at hc
    obtain ⟨prevs, seg, nexts, idx, size, icnt, ncnt⟩ := pos
    simp only at hp hn h0 h1 hl he hi hc c1
    have hon : 0 ≤ idx ∧ idx < seg.used := by
      rcases hcur with h | ⟨_, h⟩
      · exact h
      · simp only at h; omega
    refine ⟨WellFormed.intro hp hn ?_ ?_ hl ?_ ?_ hc, Or.inl ?_, rfl⟩
    · simp only; omega
    · simp only; omega
    · simp only; intro hh; omega
    · simp only; omega
    · constructor <;> simp only <;> omega
  · rw [if_neg c1]
    exact fr_delete_kept pos hwf hcur

/-! ### Invariants of call sequences -/

theorem sum_used_ge (size : Int) (l : List fn_s) (h : ∀ s ∈ l, seg_ok size s) :
    (l.length : Int) ≤ (l.map fn_s.used).sum := by
  induction l with
  | nil => simp
  | cons a l ih =>
    obtain ⟨ha, hl⟩ := List.forall_mem_cons.mp h
    have := ih hl
    have := ha.1
    simp only [List.length_cons, List.map_cons, List.sum_cons]
    push_cast
    omega

theorem wf_fr_create_sized (C : Int) (hC : 0 ≤ C) : WellFormed (fr_create_sized C) := by
  unfold fr_create_sized
  refine WellFormed.intro ?_ ?_ ?_ ?_ ?_ ?_ ?_ ?_
  · intro s hs; simp at hs
  · intro s hs; simp at hs
  · simp [fn_new_sized]
  · simp [fn_new_sized]; exact hC
  · exact length_fn_new_sized C hC
  · intro _; exact ⟨rfl, rfl⟩
  · simp [fn_new_sized]
  · simp

theorem valid_fr_create_sized (C : Int) : ValidCursor (fr_create_sized C) :=
  Or.inr ⟨rfl, rfl⟩

theorem null_fr_create_sized (C : Int) : NullWhenEmpty (fr_create_sized C) := by
  intro _
  simp only [fr_create_sized, fn_new_sized, rd]
  cases C.toNat <;> simp [NULL]

theorem null_of_onItem (pos : fr_s) (h : OnItem pos) : NullWhenEmpty pos := by
  intro h0
  have := h.1
  have := h.2
  omega

theorem fr_delete_null (pos : fr_s) (hwf : WellFormed pos) (hcur : ValidCursor pos)
    (hnull : NullWhenEmpty pos) : NullWhenEmpty (fr_delete pos).1 := by
  have hk := fr_delete_kept pos hwf hcur
  rcases hk.cur with h | ⟨h0, _⟩
  · exact null_of_onItem _ h
  · intro _
    revert h0
    unfold fr_delete
    simp only []
    have hp := hwf.prevs_ok
    have hn := hwf.nexts_ok
    obtain ⟨prevs, seg, nexts, idx, size, icnt, ncnt⟩ := pos
    simp only at hp hn
    by_cases c1 : seg.used > 1
    · rw [if_pos c1]
      by_cases c2 : idx < seg.used - 1
      · rw [if_pos c2]; simp only; intro h; omega
      · rw [if_neg c2]
        cases nexts with
        | nil => simp only; intro h; omega
        | cons n ns =>
          have := (List.forall_mem_cons.mp hn).1.1
          simp only; intro h; omega
    · rw [if_neg c1]
      by_cases c2 : seg.used = 1
      · rw [if_pos c2]
        cases nexts with
        | nil =>
          cases prevs with
          | nil =>
            simp only
            intro _
            cases hd : seg.data with
            | nil => simp [wr, rd, NULL]
            | cons a l => simp [wr, rd, NULL]
          | cons q qs =>
            have := (List.forall_mem_cons.mp hp).1.1
            simp only; intro h; omega
        | cons n ns =>
          have := (List.forall_mem_cons.mp hn).1.1
          simp only; intro h; omega
      · rw [if_neg c2]
        simp only
        intro h
        exact hnull h

theorem fr_pop_null (pos : fr_s) (hwf : WellFormed pos) (hcur : ValidCursor pos)
    (hnull : NullWhenEmpty pos) : NullWhenEmpty (fr_pop pos).1 := by
  by_cases c1 : pos.idx > 0
  · have hk := fr_pop_kept pos hwf hcur
    rcases hk.cur with h | ⟨h0, _⟩
    · exact null_of_onItem _ h
    · exfalso
      revert h0
      unfold fr_pop
      rw [if_pos c1]
      simp only
      rcases hcur with h | ⟨_, h⟩
      · have := h.2; omega
      · omega
  · unfold fr_pop
    rw [if_neg c1]
    exact fr_delete_null pos hwf hcur hnull

/-- One call keeps the chain well formed, the cursor valid, the capacity, and
slot 0 of an empty container null. -/
theorem op_run_kept (o : Op) (pos : fr_s) (hwf : WellFormed pos) (hsz : 0 < pos.size)
    (hcur : ValidCursor pos) (hnull : NullWhenEmpty pos) :
    Kept pos (o.run pos) ∧ NullWhenEmpty (o.run pos) := by
  cases o with
  | insert item =>
    have h := fr_insert_settled pos item hwf hsz (insertCursor_of_valid pos hsz hcur)
    exact ⟨h.kept, null_of_onItem _ h.cur⟩
  | append item =>
    have h := fr_append_settled pos item hwf hsz hcur
    exact ⟨h.kept, null_of_onItem _ h.cur⟩
  | delete => exact ⟨fr_delete_kept pos hwf hcur, fr_delete_null pos hwf hcur hnull⟩
  | push item =>
    have h := fr_push_settled pos item hwf hsz hcur
    exact ⟨h.kept, null_of_onItem _ h.cur⟩
  | pop => exact ⟨fr_pop_kept pos hwf hcur, fr_pop_null pos hwf hcur hnull⟩

theorem run_ops_kept (ops : List Op) (pos : fr_s) (hwf : WellFormed pos) (hsz : 0 < pos.size)
    (hcur : ValidCursor pos) (hnull : NullWhenEmpty pos) :
    Kept pos (run_ops ops pos) ∧ NullWhenEmpty (run_ops ops pos) := by
  induction ops generalizing pos with
  | nil => exact ⟨⟨hwf, hcur, rfl⟩, hnull⟩
  | cons o ops ih =>
    obtain ⟨hk, hnl⟩ := op_run_kept o pos hwf hsz hcur hnull
    obtain ⟨hk2, hnl2⟩ := ih (o.run pos) hk.wf (by rw [hk.size_eq]; exact hsz) hk.cur hnl
    exact ⟨⟨hk2.wf, hk2.cur, hk2.size_eq.trans hk.size_eq⟩, hnl2⟩

theorem sumUsed_nonneg (pos : fr_s) (hwf : WellFormed pos) : 0 ≤ pos.sumUsed := by
  rw [sumUsed_eq]
  have h1 := sum_used_ge pos.size pos.prevs hwf.prevs_ok
  have h2 := sum_used_ge pos.size pos.nexts hwf.nexts_ok
  have h3 := hwf.used_nonneg
  omega

/-- C6: after every finite sequence of `fr_insert`, `fr_append`, `fr_delete`,
`fr_push` and `fr_pop` calls on a freshly created container (capacity at least
`FR_SEG_MIN`), the cached item count `fr_length` equals the sum of `used` over
all segments of the chain and is not negative. -/
theorem count_invariant (C : Int) (hC : FR_SEG_MIN ≤ C) (ops : List Op) :
    fr_length (run_ops ops (fr_create_sized C)) = (run_ops ops (fr_create_sized C)).sumUsed ∧
    0 ≤ fr_length (run_ops ops (fr_create_sized C)) := by
  have hC4 : (4 : Int) ≤ C := hC
  have h := (run_ops_kept ops (fr_create_sized C) (wf_fr_create_sized C (by omega))
    (by simp only [fr_create_sized]; omega) (valid_fr_create_sized C) (null_fr_create_sized C)).1
  unfold fr_length
  refine ⟨h.wf.icnt_eq, ?_⟩
  rw [h.wf.icnt_eq]
  exact sumUsed_nonneg _ h.wf

/-- Witness of `count_invariant`: capacity 4, six mixed calls, one of them a
pop on the empty container. -/
theorem count_invariant_witness :
    FR_SEG_MIN ≤ 4 ∧
    fr_length (run_ops [Op.pop, Op.push 1, Op.insert 2, Op.append 3, Op.delete, Op.pop]
      (fr_create_sized 4)) =
    (run_ops [Op.pop, Op.push 1, Op.insert 2, Op.append 3, Op.delete, Op.pop]
      (fr_create_sized 4)).sumUsed :=
  ⟨by decide, (count_invariant 4 (by decide) _).1⟩

/-- C8: after every sequence of `fr_insert`, `fr_append`, `fr_delete`, `fr_push`
and `fr_pop` calls on a fresh container, whenever the item count is 0 the chain
is exactly one segment with `used = 0` (no previous, no next segment, node count
1), the cursor index is 0, slot 0 of that segment is null and `fr_item` returns
null. -/
theorem empty_state_canonical (C : Int) (hC : FR_SEG_MIN ≤ C) (ops : List Op)
    (hzero : fr_length (run_ops ops (fr_create_sized C)) = 0) :
    (run_ops ops (fr_create_sized C)).prevs = [] ∧
    (run_ops ops (fr_create_sized C)).nexts = [] ∧
    (run_ops ops (fr_create_sized C)).seg.used = 0 ∧
    fr_node_count (run_ops ops (fr_create_sized C)) = 1 ∧
    (run_ops ops (fr_create_sized C)).idx = 0 ∧
    rd (run_ops ops (fr_create_sized C)).seg.data 0 = NULL ∧
    fr_item (run_ops ops (fr_create_sized C)) = NULL := by
  have hC4 : (4 : Int) ≤ C := hC
  obtain ⟨h, hnull⟩ := run_ops_kept ops (fr_create_sized C) (wf_fr_create_sized C (by omega))
    (by simp only [fr_create_sized]; omega) (valid_fr_create_sized C) (null_fr_create_sized C)
  generalize run_ops ops (fr_create_sized C) = p at h hnull hzero ⊢
  unfold fr_length at hzero
  have hsum := h.wf.icnt_eq
  rw [sumUsed_eq] at hsum
  have h1 := sum_used_ge p.size p.prevs h.wf.prevs_ok
  have h2 := sum_used_ge p.size p.nexts h.wf.nexts_ok
  have h3 := h.wf.used_nonneg
  have hu : p.seg.used = 0 := by omega
  obtain ⟨hp, hn⟩ := h.wf.sole_if_empty hu
  have hidx : p.idx = 0 := by
    rcases h.cur with ⟨e0, e1⟩ | ⟨_, e⟩
    · omega
    · exact e
  have hnc := h.wf.ncnt_eq
  rw [chain_length, hp, hn] at hnc
  refine ⟨hp, hn, hu, ?_, hidx, hnull hu, ?_⟩
  · unfold fr_node_count; rw [hnc]; rfl
  · unfold fr_item; rw [hidx]; exact hnull hu

/-- Witness of `empty_state_canonical`: push, push, pop, delete on capacity 4. -/
theorem empty_state_canonical_witness :
    FR_SEG_MIN ≤ 4 ∧
    fr_length (run_ops [Op.push 7, Op.push 8, Op.pop, Op.delete] (fr_create_sized 4)) = 0 ∧
    fr_node_count (run_ops [Op.push 7, Op.push 8, Op.pop, Op.delete] (fr_create_sized 4)) = 1 ∧
    fr_item (run_ops [Op.push 7, Op.push 8, Op.pop, Op.delete] (fr_create_sized 4)) = NULL :=
  ⟨by decide, by decide,
    (empty_state_canonical 4 (by decide) _ (by decide)).2.2.2.1,
    (empty_state_canonical 4 (by decide) _ (by decide)).2.2.2.2.2.2⟩

/-! ### Appending and pushing at the end -/

theorem valid_of_atEnd (pos : fr_s) (h : AtEnd pos) : ValidCursor pos := by
  rcases h.2 with ⟨h1, h2⟩ | h
  · exact Or.inl ⟨by omega, by omega⟩
  · exact Or.inr h

theorem icnt_pos_of_used (pos : fr_s) (hwf : WellFormed pos) (h : 1 ≤ pos.seg.used) :
    1 ≤ pos.icnt := by
  rw [hwf.icnt_eq, sumUsed_eq]
  have h1 := sum_used_ge pos.size pos.prevs hwf.prevs_ok
  have h2 := sum_used_ge pos.size pos.nexts hwf.nexts_ok
  omega

theorem icnt_zero_of_used (pos : fr_s) (hwf : WellFormed pos) (h : pos.seg.used = 0) :
    pos.icnt = 0 := by
  obtain ⟨hp, hn⟩ := hwf.sole_if_empty h
  rw [hwf.icnt_eq, sumUsed_eq, hp, hn, h]
  rfl

/-- At the end and with room in the last segment, `fr_append` stores the item
in the first free slot and leaves the cursor on it. -/
theorem fr_append_room (pos : fr_s) (item : Item) (hwf : WellFormed pos) (hend : AtEnd pos)
    (hroom : pos.seg.used < pos.size) :
    fr_append pos item =
      { pos with
          icnt := pos.icnt + 1,
          idx := pos.seg.used,
          seg := { used := pos.seg.used + 1, data := wr pos.seg.data pos.seg.used item } } := by
  obtain ⟨hnx, hc⟩ := hend
  rcases hc with ⟨h1, h2⟩ | ⟨h1, h2⟩
  · have hi := icnt_pos_of_used pos hwf h1
    unfold fr_append
    rw [if_pos ⟨by omega, h2, hnx, hroom⟩]
    have e : pos.idx + 1 = pos.seg.used := by omega
    rw [e]
  · have hi := icnt_zero_of_used pos hwf h1
    obtain ⟨hp, _⟩ := hwf.sole_if_empty h1
    unfold fr_append
    rw [if_neg (by omega), if_pos hi]
    unfold fr_insert
    simp only []
    rw [if_neg (by omega), hp]
    simp only []
    unfold insert_rest
    simp only []
    rw [if_pos hroom]
    unfold insert_shift
    simp only []
    rw [if_neg (by omega), h2, h1]

/-- At the end and with the last segment full, `fr_append` opens a new trailing
segment holding the item alone. -/
theorem fr_append_full (pos : fr_s) (item : Item) (hwf : WellFormed pos) (hend : AtEnd pos)
    (hsz : 0 < pos.size) (hfull : pos.seg.used = pos.size) :
    fr_append pos item =
      { pos with
          icnt := pos.icnt + 1,
          ncnt := pos.ncnt + 1,
          prevs := pos.seg :: pos.prevs,
          seg := { used := 1, data := wr (fn_new_sized pos.size).data 0 item },
          idx := 0 } := by
  obtain ⟨hnx, hc⟩ := hend
  have h1 : 1 ≤ pos.seg.used := by omega
  have h2 : pos.idx = pos.seg.used - 1 := by
    rcases hc with ⟨_, h⟩ | ⟨h, _⟩
    · exact h
    · omega
  have hi := icnt_pos_of_used pos hwf h1
  unfold fr_append
  rw [if_neg (by omega), if_neg (by omega), if_neg (by omega), if_pos hnx]
  unfold fr_insert
  simp only []
  rw [if_neg (by omega)]
  have hrest : insert_rest { pos with idx := pos.idx + 1, icnt := pos.icnt + 1 } item =
      { pos with
          icnt := pos.icnt + 1,
          ncnt := pos.ncnt + 1,
          prevs := pos.seg :: pos.prevs,
          seg := { used := 1, data := wr (fn_new_sized pos.size).data 0 item },
          idx := 0 } := by
    unfold insert_rest
    simp only []
    rw [if_neg (by omega)]
    unfold insert_full
    simp only []
    rw [if_pos (by omega)]
    simp [fn_new_sized]
  split
  · rw [if_neg (by omega)]
    exact hrest
  · exact hrest

/-- With the cursor at the end `fr_push` and `fr_append` are the same call. -/
theorem fr_push_eq_append (pos : fr_s) (item : Item) (hwf : WellFormed pos) (hend : AtEnd pos) :
    fr_push pos item = fr_append pos item := by
  unfold fr_push
  by_cases c : pos.icnt ≠ 0 ∧ pos.seg.used < pos.size
  · rw [if_pos c]
    have hon := onItem_of_icnt_ne pos hwf (valid_of_atEnd pos hend) c.1
    obtain ⟨hnx, hc⟩ := hend
    have h2 : pos.idx = pos.seg.used - 1 := by
      rcases hc with ⟨_, h⟩ | ⟨h, _⟩
      · exact h
      · have := hon.1; have := hon.2; omega
    unfold fr_append
    rw [if_pos ⟨c.1, h2, hnx, c.2⟩]
  · rw [if_neg c]

theorem take_extend (data : List Item) (used : Int) (x : Item) (h0 : 0 ≤ used)
    (h1 : used < (data.length : Int)) :
    (wr data used x).take (used + 1).toNat = data.take used.toNat ++ [x] := by
  apply List.ext_getElem?
  intro i
  rw [List.getElem?_take, getElem?_wr, List.getElem?_append, List.getElem?_take, List.length_take]
  by_cases hi : i < used.toNat
  · rw [if_pos (by omega), if_neg (by omega), if_pos (by omega), if_pos hi]
  · by_cases hi2 : i = used.toNat
    · rw [if_pos (by omega), if_pos (by omega), if_neg (by omega)]
      have : i - min used.toNat data.length = 0 := by omega
      rw [this]
      rfl
    · rw [if_neg (by omega), if_neg (by omega)]
      have : i - min used.toNat data.length = (i - used.toNat - 1) + 1 := by omega
      rw [this]
      rfl

theorem items_new_node (size : Int) (x : Item) (h : 0 < size) :
    ({ used := 1, data := wr (fn_new_sized size).data 0 x } : fn_s).items = [x] := by
  unfold fn_s.items
  have := take_extend (fn_new_sized size).data 0 x (by omega)
    (by rw [length_fn_new_sized size (by omega)]; exact h)
  simpa using this

/-- Appending with the cursor at the end: the item becomes the last item of the
sequence, the cursor is on it, and the segments before the cursor's segment
stay full if they were. -/
theorem fr_append_at_end (pos : fr_s) (item : Item) (hwf : WellFormed pos) (hsz : 0 < pos.size)
    (hend : AtEnd pos) :
    Settled pos (fr_append pos item) ∧ AtEnd (fr_append pos item) ∧
    (fr_append pos item).toList = pos.toList ++ [item] ∧
    (fr_append pos item).icnt = pos.icnt + 1 ∧
    ((∀ s ∈ pos.prevs, s.used = pos.size) →
      ∀ s ∈ (fr_append pos item).prevs, s.used = pos.size) := by
  have hs := fr_append_settled pos item hwf hsz (valid_of_atEnd pos hend)
  refine ⟨hs, ?_⟩
  have hnx := hend.1
  by_cases hroom : pos.seg.used < pos.size
  · rw [fr_append_room pos item hwf hend hroom]
    refine ⟨⟨hnx, Or.inl ⟨?_, ?_⟩⟩, ?_, rfl, fun h => h⟩
    · have := hwf.used_nonneg; simp only; omega
    · simp only; omega
    · rw [toList_eq, toList_eq]
      simp only [hnx, List.flatMap_nil, List.append_nil, fn_s.items]
      rw [take_extend _ _ _ hwf.used_nonneg (by have := hwf.data_len; omega), List.append_assoc]
  · have hfull : pos.seg.used = pos.size := by have := hwf.used_le; omega
    rw [fr_append_full pos item hwf hend hsz hfull]
    refine ⟨⟨hnx, Or.inl ⟨?_, ?_⟩⟩, ?_, rfl, ?_⟩
    · simp only; omega
    · simp only; omega
    · rw [toList_eq, toList_eq]
      simp only [hnx, List.flatMap_nil, List.append_nil, List.reverse_cons, List.flatMap_append,
        List.flatMap_cons, items_new_node pos.size item hsz, List.append_assoc]
    · intro h s hs
      rcases List.mem_cons.mp hs with e | e
      · rw [e]; exact hfull
      · exact h s e

theorem fr_push_at_end (pos : fr_s) (item : Item) (hwf : WellFormed pos) (hsz : 0 < pos.size)
    (hend : AtEnd pos) :
    Settled pos (fr_push pos item) ∧ AtEnd (fr_push pos item) ∧
    (fr_push pos item).toList = pos.toList ++ [item] ∧
    (fr_push pos item).icnt = pos.icnt + 1 ∧
    ((∀ s ∈ pos.prevs, s.used = pos.size) →
      ∀ s ∈ (fr_push pos item).prevs, s.used = pos.size) := by
  rw [fr_push_eq_append pos item hwf hend]
  exact fr_append_at_end pos item hwf hsz hend

/-- A chain filled by calls at the end: every segment before the cursor's is
full, the cursor is at the end. -/
theorem foldl_at_end (f : fr_s → Item → fr_s)
    (hf : ∀ (pos : fr_s) (item : Item), WellFormed pos → 0 < pos.size → AtEnd pos →
      Settled pos (f pos item) ∧ AtEnd (f pos item) ∧
      (f pos item).toList = pos.toList ++ [item] ∧
      (f pos item).icnt = pos.icnt + 1 ∧
      ((∀ s ∈ pos.prevs, s.used = pos.size) → ∀ s ∈ (f pos item).prevs, s.used = pos.size))
    (xs : List Item) (pos : fr_s) (hwf : WellFormed pos) (hsz : 0 < pos.size) (hend : AtEnd pos) :
    WellFormed (xs.foldl f pos) ∧ AtEnd (xs.foldl f pos) ∧
    (xs.foldl f pos).size = pos.size ∧
    (xs.foldl f pos).toList = pos.toList ++ xs ∧
    (xs.foldl f pos).icnt = pos.icnt + xs.length ∧
    ((∀ s ∈ pos.prevs, s.used = pos.size) → ∀ s ∈ (xs.foldl f pos).prevs, s.used = pos.size) := by
  induction xs generalizing pos with
  | nil => exact ⟨hwf, hend, rfl, by simp, by simp, fun h => h⟩
  | cons x xs ih =>
    obtain ⟨h1, h2, h3, h4, h5⟩ := hf pos x hwf hsz hend
    obtain ⟨k1, k2, k3, k4, k5, k6⟩ := ih (f pos x) h1.wf (by rw [h1.size_eq]; exact hsz) h2
    rw [List.foldl_cons]
    refine ⟨k1, k2, k3.trans h1.size_eq, ?_, ?_, ?_⟩
    · rw [k4, h3, List.append_assoc]; rfl
    · rw [k5, h4, List.length_cons]; push_cast; omega
    · intro h
      have := k6 (by rw [h1.size_eq]; exact h5 h)
      rw [h1.size_eq] at this
      exact this

/-! ### Reading the chain from the first position -/

theorem to_head_chain (prevs : List fn_s) (s : fn_s) (ns : List fn_s) :
    (to_head prevs s ns).1 :: (to_head prevs s ns).2 = prevs.reverse ++ s :: ns := by
  induction prevs generalizing s ns with
  | nil => rfl
  | cons q qs ih =>
    rw [to_head, ih q (s :: ns)]
    simp

theorem to_head_ok (size : Int) (prevs : List fn_s) (s : fn_s) (ns : List fn_s)
    (hp : ∀ q ∈ prevs, seg_ok size q) (hn : ∀ q ∈ ns, seg_ok size q)
    (h0 : 0 ≤ s.used) (h1 : s.used ≤ size) (hl : (s.data.length : Int) = size)
    (he : s.used = 0 → prevs = [] ∧ ns = []) :
    (∀ q ∈ (to_head prevs s ns).2, seg_ok size q) ∧ 0 ≤ (to_head prevs s ns).1.used ∧
    (to_head prevs s ns).1.used ≤ size ∧ (((to_head prevs s ns).1.data.length : Int) = size) ∧
    ((to_head prevs s ns).1.used = 0 → (to_head prevs s ns).2 = []) := by
  induction prevs generalizing s ns with
  | nil => exact ⟨hn, h0, h1, hl, fun h => (he h).2⟩
  | cons q qs ih =>
    obtain ⟨hq, hqs⟩ := List.forall_mem_cons.mp hp
    have hs1 : 1 ≤ s.used := by
      by_cases h : 0 < s.used
      · omega
      · have := (he (by omega)).1
        simp at this
    rw [to_head]
    refine ih q (s :: ns) hqs (List.forall_mem_cons.mpr ⟨⟨hs1, h1, hl⟩, hn⟩) (by have := hq.1; omega)
      hq.2.1 hq.2.2 ?_
    intro h
    have := hq.1
    omega

theorem fr_first_chain (pos : fr_s) : (fr_first pos).chain = pos.chain := by
  unfold fr_first fr_s.chain
  simp only [List.reverse_nil, List.nil_append]
  exact to_head_chain _ _ _

theorem fr_first_kept (pos : fr_s) (hwf : WellFormed pos) : Kept pos (fr_first pos) := by
  obtain ⟨h1, h2, h3, h4, h5⟩ :=
    to_head_ok pos.size pos.prevs pos.seg pos.nexts hwf.prevs_ok hwf.nexts_ok hwf.used_nonneg
      hwf.used_le hwf.data_len hwf.sole_if_empty
  have hc := fr_first_chain pos
  refine ⟨⟨?_, h1, h2, h3, h4, ?_, ?_, ?_⟩, ?_, rfl⟩
  · intro s hs; simp [fr_first] at hs
  · intro h; exact ⟨rfl, h5 h⟩
  · unfold fr_s.sumUsed; rw [hc]; exact hwf.icnt_eq
  · rw [hc]; exact hwf.ncnt_eq
  · by_cases h : 0 < (fr_first pos).seg.used
    · exact Or.inl ⟨by simp [fr_first], by simpa [fr_first] using h⟩
    · refine Or.inr ⟨?_, rfl⟩
      have : 0 ≤ (fr_first pos).seg.used := h2
      omega

theorem fr_first_tail (pos : fr_s) : (fr_first pos).tail = pos.toList := by
  have hc := fr_first_chain pos
  unfold fr_s.toList
  rw [← hc]
  simp [fr_s.tail, fr_s.chain, fr_first, List.flatMap_cons]

/-- The item under a cursor that is on an item heads the rest of the sequence. -/
theorem tail_cons (pos : fr_s) (hwf : WellFormed pos) (hcur : OnItem pos) :
    pos.tail = fr_item pos ::
      (pos.seg.items.drop (pos.idx.toNat + 1) ++ pos.nexts.flatMap fn_s.items) := by
  have hlen := length_items pos.seg hwf.used_nonneg (by have := hwf.data_len; have := hwf.used_le; omega)
  have hlt : pos.idx.toNat < pos.seg.items.length := by have := hcur.1; have := hcur.2; omega
  have hget := items_getElem? pos.seg pos.idx.toNat (by have := hcur.1; have := hcur.2; omega)
    (by have := hwf.data_len; have := hwf.used_le; omega)
  rw [List.getElem?_eq_getElem hlt] at hget
  have hitem : pos.seg.items[pos.idx.toNat] = fr_item pos := by
    have := Option.some.inj hget
    rw [this]
    unfold fr_item
    congr 1
    have := hcur.1
    omega
  unfold fr_s.tail
  rw [List.drop_eq_getElem_cons hlt, hitem]
  rfl

theorem read_fwd_tail (n : Nat) (pos : fr_s) (hwf : WellFormed pos) (hcur : ValidCursor pos)
    (hn : n = pos.tail.length) : read_fwd n pos = pos.tail := by
  induction n generalizing pos with
  | zero =>
    rw [read_fwd]
    exact (List.length_eq_zero.mp hn.symm).symm
  | succ n ih =>
    have hon : OnItem pos := by
      rcases hcur with h | ⟨h0, h1⟩
      · exact h
      · exfalso
        obtain ⟨_, hnx⟩ := hwf.sole_if_empty h0
        have : pos.tail = [] := by
          simp [fr_s.tail, fn_s.items, h0, hnx]
        rw [this] at hn
        simp at hn
    have hs := fr_next_settled pos hwf hon
    have hlen := length_items pos.seg hwf.used_nonneg
      (by have := hwf.data_len; have := hwf.used_le; omega)
    rw [read_fwd, tail_cons pos hwf hon]
    congr 1
    rw [tail_cons pos hwf hon] at hn
    have hn1 : n = (pos.seg.items.drop (pos.idx.toNat + 1) ++ pos.nexts.flatMap fn_s.items).length := by
      simpa using hn
    by_cases cend : ¬ pos.idx < pos.seg.used - 1 ∧ pos.nexts = []
    · -- the cursor is on the last item: nothing is left to read
      have hd : pos.seg.items.drop (pos.idx.toNat + 1) = [] := by
        apply List.drop_eq_nil_of_le
        have := hon.1; have := hon.2
        omega
      rw [hd, cend.2] at hn1 ⊢
      simp only [List.flatMap_nil, List.append_nil, List.length_nil] at hn1 ⊢
      rw [hn1, read_fwd]
    · have key : (fr_next pos).1.tail =
          pos.seg.items.drop (pos.idx.toNat + 1) ++ pos.nexts.flatMap fn_s.items := by
        unfold fr_next
        by_cases c : pos.idx < pos.seg.used - 1
        · rw [if_pos c]
          simp only [fr_s.tail]
          have : (pos.idx + 1).toNat = pos.idx.toNat + 1 := by have := hon.1; omega
          rw [this]
        · rw [if_neg c]
          have hd : pos.seg.items.drop (pos.idx.toNat + 1) = [] := by
            apply List.drop_eq_nil_of_le
            have := hon.1; have := hon.2
            omega
          rw [hd]
          split
          · rename_i hnx
            exact absurd ⟨c, hnx⟩ cend
          · rename_i m ms hnx
            simp [fr_s.tail, hnx, List.flatMap_cons]
      rw [← key]
      exact ih (fr_next pos).1 hs.wf (Or.inl hs.cur) (by rw [key]; exact hn1)

/-- Reading as many items as the chain holds, from the first position, yields
the logical item sequence. -/
theorem read_fwd_first (pos : fr_s) (hwf : WellFormed pos) :
    read_fwd pos.toList.length (fr_first pos) = pos.toList := by
  have hk := fr_first_kept pos hwf
  rw [read_fwd_tail _ (fr_first pos) hk.wf hk.cur (by rw [fr_first_tail]), fr_first_tail]

/-! ### Filling a fresh container at the end -/

theorem toList_fr_create_sized (C : Int) : (fr_create_sized C).toList = [] := by
  simp [fr_s.toList, fr_s.chain, fr_create_sized, fn_s.items, fn_new_sized]

theorem atEnd_fr_create_sized (C : Int) : AtEnd (fr_create_sized C) :=
  ⟨rfl, Or.inr ⟨rfl, rfl⟩⟩

theorem sum_used_full (C : Int) (l : List fn_s) (h : ∀ s ∈ l, s.used = C) :
    (l.map fn_s.used).sum = (l.length : Int) * C := by
  induction l with
  | nil => simp
  | cons a l ih =>
    obtain ⟨ha, hl⟩ := List.forall_mem_cons.mp h
    simp only [List.map_cons, List.sum_cons, List.length_cons, ih hl, ha]
    push_cast
    ring

/-- Counters and layout of a fresh container filled by `n ≥ 1` calls at the end. -/
theorem filled_counts (f : fr_s → Item → fr_s)
    (hf : ∀ (pos : fr_s) (item : Item), WellFormed pos → 0 < pos.size → AtEnd pos →
      Settled pos (f pos item) ∧ AtEnd (f pos item) ∧
      (f pos item).toList = pos.toList ++ [item] ∧
      (f pos item).icnt = pos.icnt + 1 ∧
      ((∀ s ∈ pos.prevs, s.used = pos.size) → ∀ s ∈ (f pos item).prevs, s.used = pos.size))
    (C : Int) (hC : 0 < C) (xs : List Item) (hne : xs ≠ []) :
    fr_length (xs.foldl f (fr_create_sized C)) = (xs.length : Int) ∧
    fr_node_count (xs.foldl f (fr_create_sized C)) = ((xs.length : Int) - 1) / C + 1 ∧
    (xs.foldl f (fr_create_sized C)).nexts = [] ∧
    (∀ s ∈ (xs.foldl f (fr_create_sized C)).prevs, s.used = C) := by
  obtain ⟨hwf, hend, hsize, _, hicnt, hfull⟩ :=
    foldl_at_end f hf xs (fr_create_sized C) (wf_fr_create_sized C (by omega)) hC
      (atEnd_fr_create_sized C)
  have hfull2 := hfull (by intro s hs; simp [fr_create_sized] at hs)
  generalize xs.foldl f (fr_create_sized C) = p at hwf hend hsize hicnt hfull2 ⊢
  have hi0 : (fr_create_sized C).icnt = 0 := rfl
  have hs0 : (fr_create_sized C).size = C := rfl
  rw [hi0] at hicnt
  rw [hs0] at hsize hfull2
  have hN : 1 ≤ (xs.length : Int) := by
    cases xs with
    | nil => exact absurd rfl hne
    | cons a l => simp only [List.length_cons]; push_cast; omega
  have hu1 : 1 ≤ p.seg.used := by
    rcases hend.2 with ⟨h, _⟩ | ⟨h, _⟩
    · exact h
    · have := icnt_zero_of_used p hwf h
      omega
  have hul := hwf.used_le
  have hsum := hwf.icnt_eq
  rw [sumUsed_eq, hend.1, sum_used_full C p.prevs hfull2] at hsum
  have hnc := hwf.ncnt_eq
  rw [chain_length, hend.1] at hnc
  simp only [List.map_nil, List.sum_nil, List.length_nil] at hsum hnc
  refine ⟨by unfold fr_length; omega, ?_, hend.1, hfull2⟩
  unfold fr_node_count
  have e : (xs.length : Int) - 1 = (p.seg.used - 1) + (p.prevs.length : Int) * C := by omega
  rw [e, Int.add_mul_ediv_right _ _ (by omega), Int.ediv_eq_zero_of_lt (by omega) (by omega), hnc]
  push_cast
  omega

/-- C3: for every capacity `C ≥ 4` and every list of items, appending the
items in order to a fresh container (the cursor left where each `fr_append`
puts it), then positioning at `fr_first` and reading with repeated `fr_next`,
yields exactly the items in their order. -/
theorem append_round_trip (C : Int) (hC : FR_SEG_MIN ≤ C) (xs : List Item) :
    read_fwd xs.length (fr_first (xs.foldl fr_append (fr_create_sized C))) = xs := by
  have hC4 : (4 : Int) ≤ C := hC
  obtain ⟨hwf, _, _, hl, _, _⟩ :=
    foldl_at_end fr_append fr_append_at_end xs (fr_create_sized C)
      (wf_fr_create_sized C (by omega)) (by show 0 < C; omega) (atEnd_fr_create_sized C)
  rw [toList_fr_create_sized, List.nil_append] at hl
  have := read_fwd_first _ hwf
  rw [hl] at this
  exact this

/-- Witness of `append_round_trip`: capacity 4, nine items. -/
theorem append_round_trip_witness :
    FR_SEG_MIN ≤ 4 ∧
    read_fwd 9 (fr_first ([10, 11, 12, 13, 14, 15, 16, 17, 18].foldl fr_append (fr_create_sized 4)))
      = [10, 11, 12, 13, 14, 15, 16, 17, 18] :=
  ⟨by decide, append_round_trip 4 (by decide) [10, 11, 12, 13, 14, 15, 16, 17, 18]⟩

/-- C10: for every capacity `C ≥ 4` and every `N ≥ 1`, after `N` calls of
`fr_push` (and likewise of `fr_append`) on a fresh container, `fr_length` is
`N`, `fr_node_count` is `(N - 1) / C + 1`, and every segment except the last
holds exactly `C` items (the cursor's segment is the last one). -/
theorem fill_counts (C : Int) (hC : FR_SEG_MIN ≤ C) (xs : List Item) (hne : xs ≠ []) :
    (fr_length (xs.foldl fr_push (fr_create_sized C)) = (xs.length : Int) ∧
      fr_node_count (xs.foldl fr_push (fr_create_sized C)) = ((xs.length : Int) - 1) / C + 1 ∧
      (xs.foldl fr_push (fr_create_sized C)).nexts = [] ∧
      (∀ s ∈ (xs.foldl fr_push (fr_create_sized C)).prevs, s.used = C)) ∧
    (fr_length (xs.foldl fr_append (fr_create_sized C)) = (xs.length : Int) ∧
      fr_node_count (xs.foldl fr_append (fr_create_sized C)) = ((xs.length : Int) - 1) / C + 1 ∧
      (xs.foldl fr_append (fr_create_sized C)).nexts = [] ∧
      (∀ s ∈ (xs.foldl fr_append (fr_create_sized C)).prevs, s.used = C)) := by
  have hC4 : (4 : Int) ≤ C := hC
  exact ⟨filled_counts fr_push fr_push_at_end C (by omega) xs hne,
    filled_counts fr_append fr_append_at_end C (by omega) xs hne⟩

/-- Witness of `fill_counts`: capacity 4, nine items, three segments. -/
theorem fill_counts_witness :
    FR_SEG_MIN ≤ 4 ∧ [1, 2, 3, 4, 5, 6, 7, 8, 9] ≠ ([] : List Item) ∧
    fr_length ([1, 2, 3, 4, 5, 6, 7, 8, 9].foldl fr_push (fr_create_sized 4)) = 9 ∧
    fr_node_count ([1, 2, 3, 4, 5, 6, 7, 8, 9].foldl fr_push (fr_create_sized 4)) = 3 :=
  ⟨by decide, by decide,
    (fill_counts 4 (by decide) [1, 2, 3, 4, 5, 6, 7, 8, 9] (by decide)).1.1,
    (fill_counts 4 (by decide) [1, 2, 3, 4, 5, 6, 7, 8, 9] (by decide)).1.2.1⟩

/-! ### Push and pop at the end -/

theorem rd_wr_same (data : List Item) (i : Int) (x : Item) (h0 : 0 ≤ i)
    (h1 : i < (data.length : Int)) : rd (wr data i x) i = x := by
  have h := getElem?_wr data i x i.toNat
  rw [if_pos ⟨by omega, by omega⟩] at h
  have h2 := some_rd (wr data i x) i i.toNat (by omega) (by rw [length_wr]; omega)
  rw [h] at h2
  exact Option.some.inj h2

theorem take_wr_ge (data : List Item) (i n : Int) (x : Item) (h : n ≤ i) :
    (wr data i x).take n.toNat = data.take n.toNat := by
  apply List.ext_getElem?
  intro k
  rw [List.getElem?_take, List.getElem?_take, getElem?_wr]
  by_cases hk : k < n.toNat
  · rw [if_pos hk, if_pos hk, if_neg (by omega)]
  · rw [if_neg hk, if_neg hk]

theorem take_succ_rd (data : List Item) (k : Int) (h0 : 0 ≤ k) (h1 : k < (data.length : Int)) :
    data.take (k + 1).toNat = data.take k.toNat ++ [rd data k] := by
  have e : (k + 1).toNat = k.toNat + 1 := by omega
  rw [e, List.take_succ, ← some_rd data k k.toNat (by omega) (by omega)]
  rfl

/-- Popping with the cursor on the last item: the returned item is the last
item of the sequence, the rest of the sequence is kept, the cursor is at the
end again. -/
theorem fr_pop_at_end (pos : fr_s) (hwf : WellFormed pos) (hend : AtEnd pos)
    (hne : 1 ≤ pos.seg.used) :
    WellFormed (fr_pop pos).1 ∧ AtEnd (fr_pop pos).1 ∧ (fr_pop pos).1.size = pos.size ∧
    pos.toList = (fr_pop pos).1.toList ++ [(fr_pop pos).2] := by
  have hk := fr_pop_kept pos hwf (valid_of_atEnd pos hend)
  refine ⟨hk.wf, ?_, hk.size_eq, ?_⟩ <;> clear hk
  all_goals
    obtain ⟨hnx, hc⟩ := hend
    have hidx : pos.idx = pos.seg.used - 1 := by
      rcases hc with ⟨_, h⟩ | ⟨h, _⟩
      · exact h
      · omega
    have hdl := hwf.data_len
    have hul := hwf.used_le
    have hp := hwf.prevs_ok
    try rw [toList_eq pos, toList_eq (fr_pop pos).1]
    obtain ⟨prevs, seg, nexts, idx, size, icnt, ncnt⟩ := pos
    simp only at hnx hidx hdl hul hne hp ⊢
    subst hnx hidx
    unfold fr_pop
    by_cases c : seg.used - 1 > 0
    · rw [if_pos c]
      first
        | exact ⟨rfl, Or.inl ⟨by simp only; omega, rfl⟩⟩
        | (simp only [List.flatMap_nil, List.append_nil, fn_s.items]
           have := take_succ_rd seg.data (seg.used - 1) (by omega) (by omega)
           rw [show seg.used - 1 + 1 = seg.used by omega] at this
           rw [this, List.append_assoc])
    · rw [if_neg c]
      have hu1 : seg.used = 1 := by omega
      unfold fr_delete
      simp only []
      rw [if_neg (by omega), if_pos hu1]
      have hitems : seg.items = [rd seg.data (seg.used - 1)] := by
        have := take_succ_rd seg.data 0 (by omega) (by omega)
        unfold fn_s.items
        rw [hu1]
        simpa using this
      cases prevs with
      | nil =>
        first
          | exact ⟨rfl, Or.inr ⟨by simp only; omega, rfl⟩⟩
          | (simp only [List.flatMap_nil, List.append_nil, List.reverse_nil, List.nil_append,
               hitems]
             simp [fn_s.items, hu1])
      | cons q qs =>
        have hq := (List.forall_mem_cons.mp hp).1.1
        first
          | exact ⟨rfl, Or.inl ⟨hq, rfl⟩⟩
          | simp only [List.flatMap_nil, List.append_nil, List.reverse_cons, List.flatMap_append,
               List.flatMap_cons, hitems]

/-- One `fr_push` at the end followed by `fr_pop`: the item comes back and the
position is as before, up to the content of unused slots. -/
theorem fr_pop_push (pos : fr_s) (x : Item) (hwf : WellFormed pos) (hsz : 0 < pos.size)
    (hend : AtEnd pos) :
    (fr_pop (fr_push pos x)).2 = x ∧
    (fr_pop (fr_push pos x)).1.prevs = pos.prevs ∧
    (fr_pop (fr_push pos x)).1.nexts = pos.nexts ∧
    (fr_pop (fr_push pos x)).1.seg.used = pos.seg.used ∧
    (fr_pop (fr_push pos x)).1.seg.items = pos.seg.items ∧
    (fr_pop (fr_push pos x)).1.idx = pos.idx ∧
    (fr_pop (fr_push pos x)).1.size = pos.size ∧
    (fr_pop (fr_push pos x)).1.icnt = pos.icnt ∧
    (fr_pop (fr_push pos x)).1.ncnt = pos.ncnt := by
  rw [fr_push_eq_append pos x hwf hend]
  have hdl := hwf.data_len
  have hul := hwf.used_le
  have hu0 := hwf.used_nonneg
  by_cases hroom : pos.seg.used < pos.size
  · rw [fr_append_room pos x hwf hend hroom]
    obtain ⟨hnx, hc⟩ := hend
    rcases hc with ⟨h1, h2⟩ | ⟨h1, h2⟩
    · -- the last segment has room
      unfold fr_pop
      rw [if_pos (by simp only; omega)]
      simp only []
      refine ⟨rd_wr_same _ _ _ (by omega) (by omega), trivial, trivial, (by omega), ?_, (by omega), trivial,
        (by omega), trivial⟩
      simp only [fn_s.items]
      rw [show pos.seg.used + 1 - 1 = pos.seg.used by omega]
      exact take_wr_ge _ _ _ _ (by omega)
    · -- the container is empty
      obtain ⟨hp, _⟩ := hwf.sole_if_empty h1
      unfold fr_pop
      rw [if_neg (by simp only; omega)]
      unfold fr_delete
      simp only []
      rw [if_neg (by omega), if_pos (by omega), hnx, hp]
      simp only []
      refine ⟨?_, trivial, trivial, (by omega), ?_, (by omega), trivial, (by omega), trivial⟩
      · exact rd_wr_same _ _ _ (by omega) (by omega)
      · simp [fn_s.items, h1]
  · -- the last segment is full
    have hfull : pos.seg.used = pos.size := by omega
    rw [fr_append_full pos x hwf hend hsz hfull]
    obtain ⟨hnx, hc⟩ := hend
    have h2 : pos.idx = pos.seg.used - 1 := by
      rcases hc with ⟨_, h⟩ | ⟨h, _⟩
      · exact h
      · omega
    unfold fr_pop
    rw [if_neg (by simp only; omega)]
    unfold fr_delete
    simp only []
    rw [if_neg (by omega), if_pos trivial, hnx]
    simp only []
    refine ⟨?_, trivial, trivial, trivial, trivial, (by omega), trivial, (by omega), (by omega)⟩
    exact rd_wr_same _ _ _ (by omega) (by rw [length_fn_new_sized pos.size (by omega)]; exact hsz)

theorem pop_many_at_end (n : Nat) (pos : fr_s) (hwf : WellFormed pos) (hend : AtEnd pos)
    (ys zs : List Item) (hl : pos.toList = ys ++ zs) (hn : zs.length = n) :
    (pop_many n pos).2 = zs.reverse ∧ (pop_many n pos).1.toList = ys := by
  induction n generalizing pos zs with
  | zero =>
    have : zs = [] := List.length_eq_zero.mp hn
    subst this
    exact ⟨rfl, by rw [pop_many, hl, List.append_nil]⟩
  | succ n ih =>
    have hzs : zs ≠ [] := by intro h; rw [h] at hn; simp at hn
    obtain ⟨zs1, z, hz⟩ : ∃ zs1 z, zs = zs1 ++ [z] :=
      ⟨zs.dropLast, zs.getLast hzs, (List.dropLast_append_getLast hzs).symm⟩
    subst hz
    have hne : 1 ≤ pos.seg.used := by
      rcases hend.2 with ⟨h, _⟩ | ⟨h, _⟩
      · exact h
      · exfalso
        obtain ⟨hp, hnx⟩ := hwf.sole_if_empty h
        have : pos.toList = [] := by
          rw [toList_eq, hp, hnx]
          simp [fn_s.items, h]
        rw [this] at hl
        simp at hl
    obtain ⟨k1, k2, _, k4⟩ := fr_pop_at_end pos hwf hend hne
    rw [hl, ← List.append_assoc] at k4
    have hinj := List.append_inj' k4 rfl
    have hz : (fr_pop pos).2 = z := by
      have := hinj.2
      simp at this
      exact this.symm
    obtain ⟨i1, i2⟩ := ih (fr_pop pos).1 k1 k2 zs1 hinj.1.symm (by simpa using hn)
    rw [pop_many]
    simp only []
    exact ⟨by rw [i1, hz]; simp, i2⟩

theorem wf_ex_one_after_full : WellFormed ex_one_after_full :=
  ⟨by decide, by decide, by decide, by decide, by decide, by decide, by decide, by decide⟩

/-- C9: push and pop are inverse at the end.  On a well-formed chain (capacity
at least `FR_SEG_MIN`) whose cursor is on the last item, or whose container is
empty, `fr_push` followed by `fr_pop` returns the pushed item and restores the
logical item sequence, the cursor (same segment position: the segments before
and after it are the same, and same index), the fill count and the items of the
cursor's segment, the item count and the node count, also when the push opened
a new trailing segment; and `n` pushes followed by `n` pops return the items in
reverse order and restore the logical item sequence. -/
theorem push_pop_inverse (pos : fr_s) (hwf : WellFormed pos) (hsz : FR_SEG_MIN ≤ pos.size)
    (hend : AtEnd pos) :
    (∀ x : Item,
      (fr_pop (fr_push pos x)).2 = x ∧
      (fr_pop (fr_push pos x)).1.toList = pos.toList ∧
      (fr_pop (fr_push pos x)).1.prevs = pos.prevs ∧
      (fr_pop (fr_push pos x)).1.nexts = pos.nexts ∧
      (fr_pop (fr_push pos x)).1.seg.used = pos.seg.used ∧
      (fr_pop (fr_push pos x)).1.seg.items = pos.seg.items ∧
      (fr_pop (fr_push pos x)).1.idx = pos.idx ∧
      fr_length (fr_pop (fr_push pos x)).1 = fr_length pos ∧
      fr_node_count (fr_pop (fr_push pos x)).1 = fr_node_count pos) ∧
    (∀ xs : List Item,
      (pop_many xs.length (xs.foldl fr_push pos)).2 = xs.reverse ∧
      (pop_many xs.length (xs.foldl fr_push pos)).1.toList = pos.toList) := by
  have hsz4 : (4 : Int) ≤ pos.size := hsz
  constructor
  · intro x
    obtain ⟨h1, h2, h3, h4, h5, h6, _, h8, h9⟩ := fr_pop_push pos x hwf (by omega) hend
    refine ⟨h1, ?_, h2, h3, h4, h5, h6, h8, h9⟩
    rw [toList_eq, toList_eq pos, h2, h3, h5]
  · intro xs
    obtain ⟨k1, k2, _, k4, _, _⟩ :=
      foldl_at_end fr_push fr_push_at_end xs pos hwf (by omega) hend
    exact pop_many_at_end xs.length _ k1 k2 pos.toList xs k4 rfl

/-- Witness of `push_pop_inverse` on `[1,2,3,4] - [5]` with the cursor on `5`. -/
theorem push_pop_inverse_witness :
    WellFormed ex_one_after_full ∧ FR_SEG_MIN ≤ ex_one_after_full.size ∧
    AtEnd ex_one_after_full ∧
    (fr_pop (fr_push ex_one_after_full 6)).2 = 6 ∧
    (pop_many 4 ([6, 7, 8, 9].foldl fr_push ex_one_after_full)).2 = [9, 8, 7, 6] :=
  ⟨wf_ex_one_after_full, by decide, by decide,
    ((push_pop_inverse ex_one_after_full wf_ex_one_after_full (by decide) (by decide)).1 6).1,
    ((push_pop_inverse ex_one_after_full wf_ex_one_after_full (by decide) (by decide)).2
      [6, 7, 8, 9]).1⟩

/-! ### Where the code departs from the specification -/

/-- C1 (fails on the code): `fr_insert` does not always insert the item into
the otherwise unchanged sequence.  Capacity 4.  Split branch: inserting `9` at
the head of the single full segment `[1,2,3,4]` yields `9,1,2,2,3` (the item
`4` is lost, `2` is duplicated) instead of `9,1,2,3,4`, because `fr_even` moves
only `cnt` items down in the next segment.  Fit-right branch: inserting `9`
before `4` in `[1,2,3,4] - [5,6]` yields `1,2,3,9,4,5,7` (the item `6` is lost,
a stale slot surfaces) instead of `1,2,3,9,4,5,6`, because only `cnt` items of
the next segment are moved up. -/
theorem fr_insert_corrupts_sequence :
    (WellFormed ex_single_full ∧ OnItem ex_single_full ∧
      ex_single_full.toList = [1, 2, 3, 4] ∧
      (fr_insert ex_single_full 9).toList = [9, 1, 2, 2, 3]) ∧
    (WellFormed ex_full_then_two ∧ OnItem ex_full_then_two ∧
      ex_full_then_two.toList = [1, 2, 3, 4, 5, 6] ∧
      (fr_insert ex_full_then_two 9).toList = [1, 2, 3, 9, 4, 5, 7]) :=
  ⟨⟨⟨by decide, by decide, by decide, by decide, by decide, by decide, by decide, by decide⟩,
      by decide, by decide, by decide⟩,
    ⟨⟨by decide, by decide, by decide, by decide, by decide, by decide, by decide, by decide⟩,
      by decide, by decide, by decide⟩⟩

/-- C4 (fails on the code): capacity 4, inserting `0,1,2,3,4` at the head of a
fresh container (the cursor never moved by the caller) leaves the sequence
`4,3,2,2,1`, not `4,3,2,1,0`: the fifth insert splits the full segment and the
following `fr_even` loses the last item. -/
theorem head_insert_not_reversed :
    ([0, 1, 2, 3, 4].foldl fr_insert (fr_create_sized 4)).toList = [4, 3, 2, 2, 1] ∧
    read_fwd 5 (fr_first ([0, 1, 2, 3, 4].foldl fr_insert (fr_create_sized 4))) =
      [4, 3, 2, 2, 1] :=
  ⟨by decide, by decide⟩

/-- C5 (fails on the code): capacity 4, chain `[1] - [2,3,4,5]`, cursor on the
item `1` (which is not the last item).  `fr_delete` returns `1` and leaves the
cursor on `2`; `fr_insert` of `1` at that cursor yields `1,2,3,3,4`, not
`1,2,3,4,5`. -/
theorem delete_reinsert_not_restored :
    WellFormed ex_one_then_full ∧ OnItem ex_one_then_full ∧
    ex_one_then_full.toList = [1, 2, 3, 4, 5] ∧
    (fr_delete ex_one_then_full).2 = 1 ∧
    (fr_insert (fr_delete ex_one_then_full).1 (fr_delete ex_one_then_full).2).toList =
      [1, 2, 3, 3, 4] :=
  ⟨⟨by decide, by decide, by decide, by decide, by decide, by decide, by decide, by decide⟩,
    by decide, by decide, by decide, by decide⟩

/-- C7 (fails on the code): capacity 8, chain `[1] - [2]`, cursor on `2`.
`fr_even` takes the fill-from-previous branch with `cnt = 3` although the
previous segment holds one item, returns 1 and leaves that segment with
`used = -2`. -/
theorem fr_even_underflows_prev :
    WellFormed ex_two_singletons ∧ OnItem ex_two_singletons ∧
    FR_SEG_MIN ≤ ex_two_singletons.size ∧
    (fr_even ex_two_singletons).2 = 1 ∧
    (fr_even ex_two_singletons).1.prevs.map fn_s.used = [-2] :=
  ⟨⟨by decide, by decide, by decide, by decide, by decide, by decide, by decide, by decide⟩,
    by decide, by decide, by decide, by decide⟩

/-! ### Single steps -/

theorem length_prefix_cons (seg : fn_s) (prevs : List fn_s) :
    ((seg :: prevs).reverse.flatMap fn_s.items).length =
      (prevs.reverse.flatMap fn_s.items).length + seg.items.length := by
  simp [List.flatMap_append, List.flatMap_cons]

theorem fr_next_at_end (pos : fr_s) (hend : AtEnd pos) : fr_next pos = (pos, 0) := by
  obtain ⟨hnx, hc⟩ := hend
  unfold fr_next
  rw [if_neg (by rcases hc with ⟨_, h⟩ | ⟨h, h2⟩ <;> omega), hnx]

theorem fr_next_step (pos : fr_s) (hwf : WellFormed pos) (hcur : ValidCursor pos)
    (hend : ¬ AtEnd pos) :
    (fr_next pos).2 = 1 ∧ (fr_next pos).1.chain = pos.chain ∧
    (fr_next pos).1.position = pos.position + 1 ∧ OnItem (fr_next pos).1 := by
  have hon : OnItem pos := by
    rcases hcur with h | ⟨h0, h1⟩
    · exact h
    · exfalso
      exact hend ⟨(hwf.sole_if_empty h0).2, Or.inr ⟨h0, h1⟩⟩
  have hs := fr_next_settled pos hwf hon
  refine ⟨?_, ?_, ?_, hs.cur⟩
  all_goals clear hs
  all_goals
    have hlen := length_items pos.seg hwf.used_nonneg
      (by have := hwf.data_len; have := hwf.used_le; omega)
    obtain ⟨c0, c1⟩ := hon
    obtain ⟨prevs, seg, nexts, idx, size, icnt, ncnt⟩ := pos
    simp only at hlen c0 c1
    unfold fr_next
    simp only []
  · by_cases c : idx < seg.used - 1
    · rw [if_pos c]
    · rw [if_neg c]
      cases nexts with
      | nil => exact absurd ⟨rfl, Or.inl ⟨by simp only; omega, by simp only; omega⟩⟩ hend
      | cons n ns => rfl
  · by_cases c : idx < seg.used - 1
    · rw [if_pos c]
      rfl
    · rw [if_neg c]
      cases nexts with
      | nil => exact absurd ⟨rfl, Or.inl ⟨by simp only; omega, by simp only; omega⟩⟩ hend
      | cons n ns =>
        simp only [fr_s.chain, List.reverse_cons, List.append_assoc, List.singleton_append]
  · by_cases c : idx < seg.used - 1
    · rw [if_pos c]
      simp only [fr_s.position]; omega
    · rw [if_neg c]
      cases nexts with
      | nil => exact absurd ⟨rfl, Or.inl ⟨by simp only; omega, by simp only; omega⟩⟩ hend
      | cons n ns =>
        simp only [fr_s.position, length_prefix_cons]; omega

theorem fr_prev_at_start (pos : fr_s) (hst : AtStart pos) : fr_prev pos = (pos, 0) := by
  obtain ⟨hp, hi⟩ := hst
  unfold fr_prev
  rw [if_neg (by omega), hp]

theorem fr_prev_step (pos : fr_s) (hwf : WellFormed pos) (hcur : ValidCursor pos)
    (hst : ¬ AtStart pos) :
    (fr_prev pos).2 = 1 ∧ (fr_prev pos).1.chain = pos.chain ∧
    (fr_prev pos).1.position + 1 = pos.position ∧ OnItem (fr_prev pos).1 ∧
    WellFormed (fr_prev pos).1 ∧ (fr_prev pos).1.size = pos.size := by
  have hon : OnItem pos := by
    rcases hcur with h | ⟨h0, h1⟩
    · exact h
    · exfalso
      exact hst ⟨(hwf.sole_if_empty h0).1, h1⟩
  obtain ⟨c0, c1⟩ := hon
  obtain ⟨hp, hn, h0, h1, hl, he, hi, hc⟩ := hwf
  rw [sumUsed_eq] at hi
  rw [chain_length] at hc
  obtain ⟨prevs, seg, nexts, idx, size, icnt, ncnt⟩ := pos
  simp only at hp hn h0 h1 hl he hi hc c0 c1
  unfold fr_prev
  simp only []
  by_cases c : idx > 0
  · rw [if_pos c]
    refine ⟨rfl, rfl, ?_, ⟨by simp only; omega, by simp only; omega⟩,
      WellFormed.intro hp hn h0 h1 hl he hi hc, rfl⟩
    simp only [fr_s.position]; omega
  · rw [if_neg c]
    cases prevs with
    | nil => exact absurd ⟨rfl, by simp only; omega⟩ hst
    | cons q qs =>
      obtain ⟨hq, hqs⟩ := List.forall_mem_cons.mp hp
      obtain ⟨hq1, hq2, hq3⟩ := hq
      have hlenq := length_items q (by omega) (by omega)
      refine ⟨rfl, ?_, ?_, ⟨by simp only; omega, by simp only; omega⟩, ?_, rfl⟩
      · simp only [fr_s.chain, List.reverse_cons, List.append_assoc, List.singleton_append]
      · simp only [fr_s.position, length_prefix_cons]; omega
      · refine WellFormed.intro hqs ?_ (by omega) hq2 hq3 ?_ ?_ ?_
        · exact List.forall_mem_cons.mpr ⟨⟨by omega, h1, hl⟩, hn⟩
        · intro hh; omega
        · simp only [List.map_cons, List.sum_cons] at hi ⊢; omega
        · simp only [List.length_cons] at hc ⊢; push_cast at hc ⊢; omega

/-- C13: boundary exhaustion of single steps.  On a well-formed chain with a
valid cursor: `fr_next` with the cursor on the last item (or on the empty
container) returns 0 and leaves the position unchanged, `fr_prev` with the
cursor on the first item returns 0 and leaves it unchanged; from every other
valid position each returns 1, keeps the chain, leaves the cursor on an item
and moves it by exactly one logical position in its direction. -/
theorem single_step_boundaries (pos : fr_s) (hwf : WellFormed pos) (hcur : ValidCursor pos) :
    (AtEnd pos → fr_next pos = (pos, 0)) ∧
    (¬ AtEnd pos →
      (fr_next pos).2 = 1 ∧ (fr_next pos).1.chain = pos.chain ∧
      (fr_next pos).1.position = pos.position + 1 ∧ OnItem (fr_next pos).1) ∧
    (AtStart pos → fr_prev pos = (pos, 0)) ∧
    (¬ AtStart pos →
      (fr_prev pos).2 = 1 ∧ (fr_prev pos).1.chain = pos.chain ∧
      (fr_prev pos).1.position + 1 = pos.position ∧ OnItem (fr_prev pos).1) := by
  refine ⟨fr_next_at_end pos, fr_next_step pos hwf hcur, fr_prev_at_start pos, ?_⟩
  intro hst
  obtain ⟨h1, h2, h3, h4, _, _⟩ := fr_prev_step pos hwf hcur hst
  exact ⟨h1, h2, h3, h4⟩

/-- Witness of `single_step_boundaries` on `[1,2,3,4] - [5]` with the cursor on
`4`: neither end, both steps succeed. -/
theorem single_step_boundaries_witness :
    WellFormed ex_full_then_one ∧ ValidCursor ex_full_then_one ∧
    (fr_next ex_full_then_one).2 = 1 ∧ (fr_prev ex_full_then_one).2 = 1 :=
  ⟨wf_ex_full_then_one, by decide,
    ((single_step_boundaries ex_full_then_one wf_ex_full_then_one (by decide)).2.1
      (by decide)).1,
    ((single_step_boundaries ex_full_then_one wf_ex_full_then_one (by decide)).2.2.2
      (by decide)).1⟩

/-! ### Outcome of `fr_even` -/

/-- C16: outcome codes of `fr_even`.  It returns 2 exactly when the cursor's
segment has a next segment and `used + next.used ≤ size`; it returns 1 exactly
when either a next segment exists, `used + next.used > size` and
`2 * used < size`, or no next segment exists, a previous one exists and
`2 * used < size`; in every other case it returns 0 and the position (chain,
counters, cursor) is unchanged. -/
theorem fr_even_codes (pos : fr_s) :
    ((fr_even pos).2 = 2 ↔
      ∃ next ns, pos.nexts = next :: ns ∧ pos.seg.used + next.used ≤ pos.size) ∧
    ((fr_even pos).2 = 1 ↔
      (∃ next ns, pos.nexts = next :: ns ∧ pos.seg.used + next.used > pos.size ∧
          pos.seg.used * 2 < pos.size) ∨
      (pos.nexts = [] ∧ pos.prevs ≠ [] ∧ pos.seg.used * 2 < pos.size)) ∧
    ((fr_even pos).2 ≠ 2 → (fr_even pos).2 ≠ 1 → (fr_even pos).2 = 0 ∧ (fr_even pos).1 = pos) := by
  obtain ⟨prevs, seg, nexts, idx, size, icnt, ncnt⟩ := pos
  unfold fr_even
  simp only []
  cases nexts with
  | cons next ns =>
    simp only []
    by_cases c1 : seg.used + next.used ≤ size
    · rw [if_pos c1]
      refine ⟨⟨fun _ => ⟨next, ns, rfl, c1⟩, fun _ => rfl⟩, ⟨fun h => by simp at h, ?_⟩,
        fun h => absurd rfl h⟩
      rintro (⟨n, m, hnm, h1, _⟩ | ⟨h, _⟩)
      · obtain ⟨rfl, rfl⟩ := List.cons.inj hnm
        omega
      · simp at h
    · rw [if_neg c1]
      by_cases c2 : seg.used * 2 < size
      · rw [if_pos c2]
        refine ⟨⟨fun h => by simp at h, ?_⟩,
          ⟨fun _ => Or.inl ⟨next, ns, rfl, by omega, c2⟩, fun _ => rfl⟩,
          fun _ h => absurd rfl h⟩
        rintro ⟨n, m, hnm, h1⟩
        obtain ⟨rfl, rfl⟩ := List.cons.inj hnm
        omega
      · rw [if_neg c2]
        refine ⟨⟨fun h => by simp at h, ?_⟩, ⟨fun h => by simp at h, ?_⟩, fun _ _ => ⟨rfl, rfl⟩⟩
        · rintro ⟨n, m, hnm, h1⟩
          obtain ⟨rfl, rfl⟩ := List.cons.inj hnm
          omega
        · rintro (⟨n, m, hnm, _, h2⟩ | ⟨h, _⟩)
          · omega
          · simp at h
  | nil =>
    simp only []
    cases prevs with
    | cons prev ps =>
      simp only []
      by_cases c2 : seg.used * 2 < size
      · rw [if_pos c2]
        refine ⟨⟨fun h => by simp at h, ?_⟩,
          ⟨fun _ => Or.inr ⟨trivial, by simp, c2⟩, fun _ => rfl⟩, fun _ h => absurd rfl h⟩
        rintro ⟨n, m, hnm, _⟩
        simp at hnm
      · rw [if_neg c2]
        refine ⟨⟨fun h => by simp at h, ?_⟩, ⟨fun h => by simp at h, ?_⟩, fun _ _ => by simp⟩
        · rintro ⟨n, m, hnm, _⟩
          simp at hnm
        · rintro (⟨n, m, hnm, _⟩ | ⟨_, _, h2⟩)
          · simp at hnm
          · omega
    | nil =>
      simp only []
      refine ⟨⟨fun h => by simp at h, ?_⟩, ⟨fun h => by simp at h, ?_⟩, fun _ _ => by simp⟩
      · rintro ⟨n, m, hnm, _⟩
        simp at hnm
      · rintro (⟨n, m, hnm, _⟩ | ⟨_, h, _⟩)
        · simp at hnm
        · exact absurd rfl h

/-- C17 as stated fails.  Merge: capacity 8, chain
`[1] - [2] - [3,4,5,6,7,8,9,10]`, cursor on `1`: `fr_even` returns 2 and the
merged segment holds 2 items, fewer than `ceil(8/2) = 4`, while another
segment remains.  Fill from the previous segment: capacity 4, chain
`[1,2] - [3]`, cursor on `3`: `fr_even` returns 1 and the previous segment is
left with 1 item, fewer than `ceil(4/2) = 2`. -/
theorem fr_even_leaves_under_half :
    (WellFormed ex_two_small_then_full ∧ ValidCursor ex_two_small_then_full ∧
      FR_SEG_MIN ≤ ex_two_small_then_full.size ∧
      (fr_even ex_two_small_then_full).2 = 2 ∧
      (fr_even ex_two_small_then_full).1.chain.length = 2 ∧
      (fr_even ex_two_small_then_full).1.seg.used = 2 ∧
      half_seg ex_two_small_then_full.size = 4) ∧
    (WellFormed ex_two_then_one ∧ ValidCursor ex_two_then_one ∧
      FR_SEG_MIN ≤ ex_two_then_one.size ∧
      (fr_even ex_two_then_one).2 = 1 ∧
      (fr_even ex_two_then_one).1.prevs.map fn_s.used = [1] ∧
      half_seg ex_two_then_one.size = 2) :=
  ⟨⟨⟨by decide, by decide, by decide, by decide, by decide, by decide, by decide, by decide⟩,
      by decide, by decide, by decide, by decide, by decide, by decide⟩,
    ⟨⟨by decide, by decide, by decide, by decide, by decide, by decide, by decide, by decide⟩,
      by decide, by decide, by decide, by decide, by decide⟩⟩

/-- C17 as amended: for every capacity `C ≥ 4`, when `fr_even` returns 1 the
cursor's segment ends with exactly `half_seg C = ceil(C/2)` items, and in the
fill-from-next case the next segment keeps at least `ceil(C/2)` items (and at
most the items it had); when it returns 2 the merged segment holds
`used + next.used ≤ C` items, for which no lower bound holds.  Nothing is said
about the previous segment in the fill-from-previous case. -/
theorem fr_even_half_bound (pos : fr_s) (hsz : FR_SEG_MIN ≤ pos.size) :
    ((fr_even pos).2 = 1 →
      (fr_even pos).1.seg.used = half_seg pos.size ∧
      pos.size ≤ 2 * (fr_even pos).1.seg.used ∧
      (∀ next ns, pos.nexts = next :: ns →
        ∃ next1, (fr_even pos).1.nexts = next1 :: ns ∧ pos.size ≤ 2 * next1.used ∧
          next1.used ≤ next.used)) ∧
    ((fr_even pos).2 = 2 →
      ∃ next ns, pos.nexts = next :: ns ∧ (fr_even pos).1.nexts = ns ∧
        (fr_even pos).1.seg.used = pos.seg.used + next.used ∧
        (fr_even pos).1.seg.used ≤ pos.size) := by
  have hsz4 : (4 : Int) ≤ pos.size := hsz
  have hh := half_seg_double pos.size (by omega)
  obtain ⟨prevs, seg, nexts, idx, size, icnt, ncnt⟩ := pos
  simp only at hsz4 hh
  unfold fr_even
  simp only []
  cases nexts with
  | cons next ns =>
    simp only []
    by_cases c1 : seg.used + next.used ≤ size
    · rw [if_pos c1]
      exact ⟨fun h => by simp at h, fun _ => ⟨next, ns, rfl, rfl, rfl, c1⟩⟩
    · rw [if_neg c1]
      by_cases c2 : seg.used * 2 < size
      · rw [if_pos c2]
        refine ⟨fun _ => ⟨by simp only; omega, by simp only; omega, ?_⟩, fun h => by simp at h⟩
        intro n m hnm
        obtain ⟨rfl, rfl⟩ := List.cons.inj hnm
        exact ⟨_, rfl, by simp only; omega, by simp only; omega⟩
      · rw [if_neg c2]
        exact ⟨fun h => by simp at h, fun h => by simp at h⟩
  | nil =>
    simp only []
    cases prevs with
    | cons prev ps =>
      simp only []
      by_cases c2 : seg.used * 2 < size
      · rw [if_pos c2]
        refine ⟨fun _ => ⟨by simp only; omega, by simp only; omega, ?_⟩, fun h => by simp at h⟩
        intro n m hnm
        simp at hnm
      · rw [if_neg c2]
        exact ⟨fun h => by simp at h, fun h => by simp at h⟩
    | nil =>
      simp only []
      exact ⟨fun h => by simp at h, fun h => by simp at h⟩

/-- Witness of `fr_even_half_bound` on `[1] - [2,3,4,5]` (capacity 4), cursor on
`1`: the segment is filled from the next one up to 2 items. -/
theorem fr_even_half_bound_witness :
    FR_SEG_MIN ≤ ex_one_then_full.size ∧ (fr_even ex_one_then_full).2 = 1 ∧
    (fr_even ex_one_then_full).1.seg.used = half_seg ex_one_then_full.size :=
  ⟨by decide, by decide,
    ((fr_even_half_bound ex_one_then_full (by decide)).1 (by decide)).1⟩

/-! ### Moving several steps right -/

theorem next_n_walk_eq (k : Nat) (p : fr_s) : next_n_walk k p = next_times k p := by
  induction k generalizing p with
  | zero => rfl
  | succ k ih =>
    rw [next_n_walk, next_times]
    unfold fr_next
    by_cases c : p.idx < p.seg.used - 1
    · rw [if_pos c, if_pos c, if_pos rfl]
      exact ih _
    · rw [if_neg c, if_neg c]
      cases hn : p.nexts with
      | nil => simp
      | cons n ns =>
        simp only []
        rw [if_pos trivial]
        exact ih _

theorem next_times_add (a b : Nat) (p : fr_s) :
    next_times (a + b) p = (next_times a p).bind (next_times b) := by
  induction a generalizing p with
  | zero => simp [next_times]
  | succ a ih =>
    rw [show a + 1 + b = (a + b) + 1 by omega, next_times, next_times]
    by_cases c : (fr_next p).2 = 1
    · rw [if_pos c, if_pos c]
      exact ih _
    · rw [if_neg c, if_neg c]
      rfl

/-- Steps that stay inside the segment. -/
theorem next_times_within (k : Nat) (p : fr_s) (h : p.idx + (k : Int) ≤ p.seg.used - 1) :
    next_times k p = some { p with idx := p.idx + (k : Int) } := by
  induction k generalizing p with
  | zero => simp [next_times]
  | succ k ih =>
    rw [next_times]
    have c : p.idx < p.seg.used - 1 := by push_cast at h; omega
    have e : fr_next p = ({ p with idx := p.idx + 1 }, 1) := by
      unfold fr_next; rw [if_pos c]
    rw [e, if_pos rfl, ih _ (by simp only; push_cast at h ⊢; omega)]
    simp only
    congr 2
    push_cast
    omega

theorem fr_next_cross (p : fr_s) (n : fn_s) (ns : List fn_s) (hn : p.nexts = n :: ns)
    (h : ¬ p.idx < p.seg.used - 1) :
    fr_next p =
      ({ p with prevs := p.seg :: p.prevs, seg := n, nexts := ns, idx := 0 }, 1) := by
  unfold fr_next
  rw [if_neg h, hn]

theorem fr_next_fail (p : fr_s) (hn : p.nexts = []) (h : ¬ p.idx < p.seg.used - 1) :
    fr_next p = (p, 0) := by
  unfold fr_next
  rw [if_neg h, hn]

/-- Steps that leave the segment continue from index 0 of the next one. -/
theorem next_times_cross (b : Nat) (p : fr_s) (n : fn_s) (ns : List fn_s)
    (hn : p.nexts = n :: ns) (h0 : p.idx ≤ p.seg.used - 1) :
    next_times ((p.seg.used - p.idx).toNat + b) p =
      next_times b { p with prevs := p.seg :: p.prevs, seg := n, nexts := ns, idx := 0 } := by
  have e : (p.seg.used - p.idx).toNat + b = (p.seg.used - 1 - p.idx).toNat + (1 + b) := by
    omega
  have e2 : p.idx + ((p.seg.used - 1 - p.idx).toNat : Int) = p.seg.used - 1 := by omega
  rw [e, next_times_add, next_times_within _ p (by omega), e2]
  simp only [Option.some_bind]
  rw [Nat.add_comm 1, next_times,
    fr_next_cross { p with idx := p.seg.used - 1 } n ns hn (by simp only; omega), if_pos rfl]

/-- Steps beyond the last item fail. -/
theorem next_times_overrun (b : Nat) (p : fr_s) (hn : p.nexts = [])
    (h0 : p.idx ≤ p.seg.used - 1) :
    next_times ((p.seg.used - p.idx).toNat + b) p = none := by
  have e : (p.seg.used - p.idx).toNat + b = (p.seg.used - 1 - p.idx).toNat + (1 + b) := by
    omega
  have e2 : p.idx + ((p.seg.used - 1 - p.idx).toNat : Int) = p.seg.used - 1 := by omega
  rw [e, next_times_add, next_times_within _ p (by omega), e2]
  simp only [Option.some_bind]
  rw [Nat.add_comm 1, next_times,
    fr_next_fail { p with idx := p.seg.used - 1 } hn (by simp only; omega), if_neg (by simp)]

/-- No step succeeds on the empty container. -/
theorem next_times_empty (b : Nat) (p : fr_s) (hn : p.nexts = []) (hu : p.seg.used = 0)
    (hi : p.idx = 0) : next_times (b + 1) p = none := by
  rw [next_times, fr_next_fail p hn (by omega), if_neg (by simp)]
theorem next_n_skip_spec (base : fr_s) (nexts : List fn_s) (prevs : List fn_s) (seg : fn_s)
    (steps : Int) (hs : 0 ≤ steps) (hseg : 1 ≤ seg.used) (hn : ∀ s ∈ nexts, 1 ≤ s.used) :
    next_times steps.toNat { base with prevs := prevs, seg := seg, nexts := nexts, idx := 0 } =
      next_times (next_n_skip base prevs seg nexts steps).2.toNat
        (next_n_skip base prevs seg nexts steps).1 ∧
    0 ≤ (next_n_skip base prevs seg nexts steps).2 ∧
    (next_n_skip base prevs seg nexts steps).1.idx = 0 ∧
    1 ≤ (next_n_skip base prevs seg nexts steps).1.seg.used ∧
    ((next_n_skip base prevs seg nexts steps).1.nexts = [] ∨
      (next_n_skip base prevs seg nexts steps).2 <
        (next_n_skip base prevs seg nexts steps).1.seg.used) := by
  induction nexts generalizing prevs seg steps with
  | nil =>
    rw [next_n_skip]
    exact ⟨rfl, hs, rfl, hseg, Or.inl rfl⟩
  | cons n ns ih =>
    rw [next_n_skip]
    by_cases c : steps ≥ seg.used
    · rw [if_pos c]
      obtain ⟨hn1, hns⟩ := List.forall_mem_cons.mp hn
      obtain ⟨k1, k2⟩ := ih (seg :: prevs) n (steps - seg.used) (by omega) hn1 hns
      refine ⟨?_, k2⟩
      rw [← k1]
      have e : steps.toNat = (seg.used - 0).toNat + (steps - seg.used).toNat := by omega
      rw [e]
      exact next_times_cross (steps - seg.used).toNat
        { base with prevs := prevs, seg := seg, nexts := n :: ns, idx := 0 } n ns rfl
        (by simp only; omega)
    · rw [if_neg c]
      exact ⟨rfl, hs, rfl, hseg, Or.inr (by simp only; omega)⟩

theorem next_n_slow_spec (pos : fr_s) (n : Int) :
    (∀ q, next_times n.toNat pos = some q → next_n_slow pos n = (q, n)) ∧
    (next_times n.toNat pos = none → next_n_slow pos n = (pos, 0)) := by
  unfold next_n_slow
  rw [next_n_walk_eq]
  constructor
  · intro q hq
    rw [hq]
  · intro hq
    rw [hq]

/-- C11: `fr_next_n` agrees with single stepping and fails atomically.  On a
well-formed chain with a valid cursor and `n ≥ 0`: if `n` successive `fr_next`
calls all succeed, `fr_next_n` returns `n` and the position those calls reach;
otherwise it returns 0 and the position is unchanged.  Both the one-by-one
path and the segment-skipping path (`n > size` with a next segment) are
covered. -/
theorem fr_next_n_refines (pos : fr_s) (hwf : WellFormed pos) (hcur : ValidCursor pos)
    (n : Int) (hn : 0 ≤ n) :
    (∀ q, next_times n.toNat pos = some q → fr_next_n pos n = (q, n)) ∧
    (next_times n.toNat pos = none → fr_next_n pos n = (pos, 0)) := by
  unfold fr_next_n
  cases hnx : pos.nexts with
  | nil => exact next_n_slow_spec pos n
  | cons next ns =>
    simp only []
    by_cases c : n > pos.size
    · rw [if_pos c]
      have hon : OnItem pos := by
        rcases hcur with h | ⟨h0, _⟩
        · exact h
        · have := (hwf.sole_if_empty h0).2
          rw [hnx] at this
          simp at this
      obtain ⟨c0, c1⟩ := hon
      have hul := hwf.used_le
      have hnok : ∀ s ∈ ns, 1 ≤ s.used := by
        intro s hs
        exact (hwf.nexts_ok s (by rw [hnx]; exact List.mem_cons_of_mem _ hs)).1
      have hnext : 1 ≤ next.used := (hwf.nexts_ok next (by rw [hnx]; simp)).1
      obtain ⟨k1, k2, k3, k4, k5⟩ :=
        next_n_skip_spec pos ns (pos.seg :: pos.prevs) next (n - (pos.seg.used - pos.idx))
          (by omega) hnext hnok
      have e : n.toNat = (pos.seg.used - pos.idx).toNat + (n - (pos.seg.used - pos.idx)).toNat := by
        omega
      have hstart : next_times n.toNat pos =
          next_times (next_n_skip pos (pos.seg :: pos.prevs) next ns
              (n - (pos.seg.used - pos.idx))).2.toNat
            (next_n_skip pos (pos.seg :: pos.prevs) next ns (n - (pos.seg.used - pos.idx))).1 := by
        rw [e, next_times_cross _ pos next ns hnx (by omega)]
        exact k1
      rw [hstart]
      generalize next_n_skip pos (pos.seg :: pos.prevs) next ns
        (n - (pos.seg.used - pos.idx)) = r at k2 k3 k4 k5 ⊢
      by_cases c2 : r.2 ≤ r.1.seg.used - 1
      · rw [if_pos c2]
        have := next_times_within r.2.toNat r.1 (by rw [k3]; omega)
        rw [this]
        have e3 : r.1.idx + (r.2.toNat : Int) = r.2 := by rw [k3]; omega
        rw [e3]
        constructor
        · intro q hq
          rw [← Option.some.inj hq]
        · intro hq
          simp at hq
      · rw [if_neg c2]
        have hnil : r.1.nexts = [] := by
          rcases k5 with h | h
          · exact h
          · omega
        have e4 : r.2.toNat = (r.1.seg.used - r.1.idx).toNat + (r.2 - r.1.seg.used).toNat := by
          rw [k3]; omega
        have := next_times_overrun (r.2 - r.1.seg.used).toNat r.1 hnil (by rw [k3]; omega)
        rw [e4, this]
        constructor
        · intro q hq
          simp at hq
        · intro _
          rfl
    · rw [if_neg c]
      exact next_n_slow_spec pos n
theorem wf_ex_three_full : WellFormed ex_three_full :=
  ⟨by decide, by decide, by decide, by decide, by decide, by decide, by decide, by decide⟩

theorem wf_ex_three_full_at6 : WellFormed ex_three_full_at6 :=
  ⟨by decide, by decide, by decide, by decide, by decide, by decide, by decide, by decide⟩

/-- Witness of `fr_next_n_refines`: five steps from the first item of three full
segments (capacity 4, the segment-skipping path) reach the item `6`. -/
theorem fr_next_n_refines_witness :
    WellFormed ex_three_full ∧ ValidCursor ex_three_full ∧ (0 : Int) ≤ 5 ∧
    fr_next_n ex_three_full 5 = (ex_three_full_at6, 5) :=
  ⟨wf_ex_three_full, by decide, by decide,
    (fr_next_n_refines ex_three_full wf_ex_three_full (by decide) 5 (by decide)).1
      ex_three_full_at6 (by decide)⟩

/-! ### Moving several steps left -/

theorem prev_n_walk_eq (k : Nat) (p : fr_s) : prev_n_walk k p = prev_times k p := by
  induction k generalizing p with
  | zero => rfl
  | succ k ih =>
    rw [prev_n_walk, prev_times]
    unfold fr_prev
    by_cases c : p.idx > 0
    · rw [if_pos c, if_pos c, if_pos rfl]
      exact ih _
    · rw [if_neg c, if_neg c]
      cases hn : p.prevs with
      | nil => simp
      | cons n ns =>
        simp only []
        rw [if_pos trivial]
        exact ih _

theorem prev_times_add (a b : Nat) (p : fr_s) :
    prev_times (a + b) p = (prev_times a p).bind (prev_times b) := by
  induction a generalizing p with
  | zero => simp [prev_times]
  | succ a ih =>
    rw [show a + 1 + b = (a + b) + 1 by omega, prev_times, prev_times]
    by_cases c : (fr_prev p).2 = 1
    · rw [if_pos c, if_pos c]
      exact ih _
    · rw [if_neg c, if_neg c]
      rfl

/-- Steps that stay inside the segment. -/
theorem prev_times_within (k : Nat) (p : fr_s) (h : (k : Int) ≤ p.idx) :
    prev_times k p = some { p with idx := p.idx - (k : Int) } := by
  induction k generalizing p with
  | zero => simp [prev_times]
  | succ k ih =>
    rw [prev_times]
    have c : p.idx > 0 := by push_cast at h; omega
    have e : fr_prev p = ({ p with idx := p.idx - 1 }, 1) := by
      unfold fr_prev; rw [if_pos c]
    rw [e, if_pos rfl, ih _ (by simp only; push_cast at h ⊢; omega)]
    simp only
    congr 2
    push_cast
    omega

theorem fr_prev_cross (p : fr_s) (q : fn_s) (qs : List fn_s) (hp : p.prevs = q :: qs)
    (h : ¬ p.idx > 0) :
    fr_prev p =
      ({ p with prevs := qs, seg := q, nexts := p.seg :: p.nexts, idx := q.used - 1 }, 1) := by
  unfold fr_prev
  rw [if_neg h, hp]

theorem fr_prev_fail (p : fr_s) (hp : p.prevs = []) (h : ¬ p.idx > 0) :
    fr_prev p = (p, 0) := by
  unfold fr_prev
  rw [if_neg h, hp]

/-- Steps that leave the segment continue from the last index of the previous
one. -/
theorem prev_times_cross (b : Nat) (p : fr_s) (q : fn_s) (qs : List fn_s)
    (hp : p.prevs = q :: qs) (h0 : 0 ≤ p.idx) :
    prev_times (p.idx.toNat + 1 + b) p =
      prev_times b
        { p with prevs := qs, seg := q, nexts := p.seg :: p.nexts, idx := q.used - 1 } := by
  have e : p.idx.toNat + 1 + b = p.idx.toNat + (1 + b) := by omega
  have e2 : p.idx - (p.idx.toNat : Int) = 0 := by omega
  rw [e, prev_times_add, prev_times_within _ p (by omega), e2]
  simp only [Option.some_bind]
  rw [Nat.add_comm 1, prev_times,
    fr_prev_cross { p with idx := 0 } q qs hp (by simp only; omega), if_pos rfl]

/-- Steps beyond the first item fail. -/
theorem prev_times_overrun (b : Nat) (p : fr_s) (hp : p.prevs = []) (h0 : 0 ≤ p.idx) :
    prev_times (p.idx.toNat + 1 + b) p = none := by
  have e : p.idx.toNat + 1 + b = p.idx.toNat + (1 + b) := by omega
  have e2 : p.idx - (p.idx.toNat : Int) = 0 := by omega
  rw [e, prev_times_add, prev_times_within _ p (by omega), e2]
  simp only [Option.some_bind]
  rw [Nat.add_comm 1, prev_times,
    fr_prev_fail { p with idx := 0 } hp (by simp only; omega), if_neg (by simp)]

/-- Going back over a whole previous segment. -/
theorem prev_times_over_seg (b : Nat) (base : fr_s) (q : fn_s) (qs : List fn_s) (seg : fn_s)
    (nexts : List fn_s) (hq : 1 ≤ q.used) :
    prev_times (q.used.toNat + b)
        { base with prevs := q :: qs, seg := seg, nexts := nexts, idx := 0 } =
      prev_times b { base with prevs := qs, seg := q, nexts := seg :: nexts, idx := 0 } := by
  have e : q.used.toNat + b = (0 : Int).toNat + 1 + ((q.used - 1).toNat + b) := by
    simp only [Int.toNat_zero]; omega
  rw [e]
  have h1 := prev_times_cross ((q.used - 1).toNat + b)
    { base with prevs := q :: qs, seg := seg, nexts := nexts, idx := 0 } q qs rfl
    (by simp only; omega)
  simp only at h1
  rw [h1, prev_times_add, prev_times_within _ _ (by simp only; omega)]
  simp only [Option.some_bind]
  congr 2
  omega

theorem prev_n_skip_spec (base : fr_s) (prevs : List fn_s) (seg : fn_s) (nexts : List fn_s)
    (steps : Int) (hs : 0 ≤ steps) (hp : ∀ s ∈ prevs, 1 ≤ s.used) :
    prev_times steps.toNat { base with prevs := prevs, seg := seg, nexts := nexts, idx := 0 } =
      prev_times (prev_n_skip base prevs seg nexts steps).2.toNat
        (prev_n_skip base prevs seg nexts steps).1 ∧
    0 ≤ (prev_n_skip base prevs seg nexts steps).2 ∧
    (prev_n_skip base prevs seg nexts steps).1.idx = 0 ∧
    (∀ s ∈ (prev_n_skip base prevs seg nexts steps).1.prevs, 1 ≤ s.used) ∧
    (∀ q qs, (prev_n_skip base prevs seg nexts steps).1.prevs = q :: qs →
      (prev_n_skip base prevs seg nexts steps).2 < q.used) := by
  induction prevs generalizing seg nexts steps with
  | nil =>
    rw [prev_n_skip]
    exact ⟨rfl, hs, rfl, hp, fun q qs h => by simp at h⟩
  | cons q qs ih =>
    rw [prev_n_skip]
    obtain ⟨hq1, hqs⟩ := List.forall_mem_cons.mp hp
    by_cases c : steps ≥ q.used
    · rw [if_pos c]
      obtain ⟨k1, k2⟩ := ih q (seg :: nexts) (steps - q.used) (by omega) hqs
      refine ⟨?_, k2⟩
      rw [← k1]
      have e : steps.toNat = q.used.toNat + (steps - q.used).toNat := by omega
      rw [e]
      exact prev_times_over_seg _ base q qs seg nexts hq1
    · rw [if_neg c]
      refine ⟨rfl, hs, rfl, hp, ?_⟩
      intro q1 qs1 h
      obtain ⟨rfl, rfl⟩ := List.cons.inj h
      simp only; omega
/-- C12: `fr_prev_n` agrees with single stepping and fails atomically.  On a
well-formed chain with a valid cursor and `n ≥ 0`: if `n` successive `fr_prev`
calls all succeed, `fr_prev_n` returns `n` and the position those calls reach;
otherwise it returns 0 and the position is unchanged.  Both the one-by-one
path (`n ≤ size`) and the segment-skipping path (`n > size`) are covered. -/
theorem fr_prev_n_refines (pos : fr_s) (hwf : WellFormed pos) (hcur : ValidCursor pos)
    (n : Int) (hn : 0 ≤ n) :
    (∀ q, prev_times n.toNat pos = some q → fr_prev_n pos n = (q, n)) ∧
    (prev_times n.toNat pos = none → fr_prev_n pos n = (pos, 0)) := by
  unfold fr_prev_n
  by_cases c : n > pos.size
  · rw [if_pos c]
    have hul := hwf.used_le
    have hidx : 0 ≤ pos.idx ∧ pos.idx ≤ pos.size := by
      rcases hcur with ⟨h0, h1⟩ | ⟨h0, h1⟩
      · exact ⟨h0, by omega⟩
      · have := hwf.used_nonneg
        exact ⟨by omega, by omega⟩
    have hpok : ∀ s ∈ pos.prevs, 1 ≤ s.used := fun s hs => (hwf.prevs_ok s hs).1
    obtain ⟨k1, k2, k3, k4, k5⟩ :=
      prev_n_skip_spec pos pos.prevs pos.seg pos.nexts (n - pos.idx) (by omega) hpok
    have e : n.toNat = pos.idx.toNat + (n - pos.idx).toNat := by omega
    have e2 : pos.idx - (pos.idx.toNat : Int) = 0 := by omega
    have hstart : prev_times n.toNat pos =
        prev_times (prev_n_skip pos pos.prevs pos.seg pos.nexts (n - pos.idx)).2.toNat
          (prev_n_skip pos pos.prevs pos.seg pos.nexts (n - pos.idx)).1 := by
      rw [e, prev_times_add, prev_times_within _ pos (by omega), e2]
      simp only [Option.some_bind]
      exact k1
    rw [hstart]
    simp only []
    generalize prev_n_skip pos pos.prevs pos.seg pos.nexts (n - pos.idx) = r at k2 k3 k4 k5 ⊢
    obtain ⟨r1, r2⟩ := r
    simp only at k2 k3 k4 k5 ⊢
    by_cases c2 : r2 = 0
    · rw [if_pos c2, c2]
      have e3 : ({ r1 with idx := 0 } : fr_s) = r1 := by
        obtain ⟨a1, a2, a3, a4, a5, a6, a7⟩ := r1
        simp only at k3
        rw [k3]
      rw [e3]
      constructor
      · intro q hq
        simp only [Int.toNat_zero, prev_times] at hq
        rw [← Option.some.inj hq]
      · intro hq
        simp [prev_times] at hq
    · rw [if_neg c2]
      have e4 : r2.toNat = r1.idx.toNat + 1 + (r2 - 1).toNat := by rw [k3]; simp; omega
      cases hp : r1.prevs with
      | nil =>
        simp only []
        rw [e4, prev_times_overrun _ r1 hp (by omega)]
        exact ⟨fun q hq => by simp at hq, fun _ => trivial⟩
      | cons q qs =>
        simp only []
        have hlt := k5 q qs hp
        rw [e4, prev_times_cross _ r1 q qs hp (by omega),
          prev_times_within _ _ (by simp only; omega)]
        simp only
        have e5 : q.used - 1 - (((r2 - 1).toNat : Nat) : Int) = q.used - r2 := by omega
        rw [e5]
        constructor
        · intro x hx
          rw [← Option.some.inj hx]
        · intro hx
          simp at hx
  · rw [if_neg c, prev_n_walk_eq]
    constructor
    · intro q hq
      rw [hq]
    · intro hq
      rw [hq]

/-- Witness of `fr_prev_n_refines`: five steps back from the item `6` of three
full segments (capacity 4, the segment-skipping path) reach the first item. -/
theorem fr_prev_n_refines_witness :
    WellFormed ex_three_full_at6 ∧ ValidCursor ex_three_full_at6 ∧ (0 : Int) ≤ 5 ∧
    fr_prev_n ex_three_full_at6 5 = (ex_three_full, 5) :=
  ⟨wf_ex_three_full_at6, by decide, by decide,
    (fr_prev_n_refines ex_three_full_at6 wf_ex_three_full_at6 (by decide) 5 (by decide)).1
      ex_three_full (by decide)⟩

/-! ### Linear search -/

theorem scan_seg_spec (hit : Item → Bool) (s : fn_s) (k : Nat) (idx : Int)
    (hk : k = (s.used - idx).toNat) :
    (∀ i, scan_seg hit s k idx = some i →
      idx ≤ i ∧ i < s.used ∧ hit (rd s.data i) = true ∧
      ∀ j, idx ≤ j → j < i → hit (rd s.data j) = false) ∧
    (scan_seg hit s k idx = none → ∀ j, idx ≤ j → j < s.used → hit (rd s.data j) = false) := by
  induction k generalizing idx with
  | zero =>
    rw [scan_seg]
    exact ⟨fun i h => by simp at h, fun _ j h1 h2 => by omega⟩
  | succ k ih =>
    rw [scan_seg]
    have c : idx < s.used := by omega
    rw [if_pos c]
    by_cases hh : hit (rd s.data idx) = true
    · rw [if_pos hh]
      constructor
      · intro i h
        have := Option.some.inj h
        subst this
        exact ⟨le_refl _, c, hh, fun j h1 h2 => by omega⟩
      · intro h
        simp at h
    · rw [if_neg hh]
      obtain ⟨k1, k2⟩ := ih (idx + 1) (by omega)
      have hf : hit (rd s.data idx) = false := by
        cases h : hit (rd s.data idx)
        · rfl
        · exact absurd h hh
      constructor
      · intro i h
        obtain ⟨a1, a2, a3, a4⟩ := k1 i h
        refine ⟨by omega, a2, a3, ?_⟩
        intro j h1 h2
        by_cases e : j = idx
        · rw [e]; exact hf
        · exact a4 j (by omega) h2
      · intro h j h1 h2
        by_cases e : j = idx
        · rw [e]; exact hf
        · exact k2 h j (by omega) h2

/-- The items of a segment in an index range are slots of that range. -/
theorem mem_items_range (s : fn_s) (lo hi : Int) (a : Item) (h0 : 0 ≤ lo)
    (h : a ∈ (s.items.take hi.toNat).drop lo.toNat) :
    ∃ j, lo ≤ j ∧ j < hi ∧ j < s.used ∧ a = rd s.data j := by
  obtain ⟨n, hn⟩ := List.mem_iff_getElem?.mp h
  rw [List.getElem?_drop, List.getElem?_take] at hn
  by_cases c : lo.toNat + n < hi.toNat
  · rw [if_pos c] at hn
    unfold fn_s.items at hn
    rw [List.getElem?_take] at hn
    by_cases c2 : lo.toNat + n < s.used.toNat
    · rw [if_pos c2] at hn
      refine ⟨((lo.toNat + n : Nat) : Int), by omega, by omega, by omega, ?_⟩
      have hlt : lo.toNat + n < s.data.length := by
        by_contra hc
        rw [List.getElem?_eq_none (by omega)] at hn
        simp at hn
      have := some_rd s.data ((lo.toNat + n : Nat) : Int) (lo.toNat + n) rfl hlt
      rw [hn] at this
      exact (Option.some.inj this).symm
    · rw [if_neg c2] at hn
      simp at hn
  · rw [if_neg c] at hn
    simp at hn

theorem drop_split (l : List Item) (a b : Nat) (h : a ≤ b) :
    l.drop a = (l.take b).drop a ++ l.drop b := by
  conv_lhs => rw [← List.take_append_drop b l]
  rw [List.drop_append_eq_append_drop]
  have : a - (List.take b l).length = 0 ∨ l.drop b = [] := by
    by_cases c : b ≤ l.length
    · left; rw [List.length_take]; omega
    · right; exact List.drop_eq_nil_of_le (by omega)
  rcases this with h1 | h1
  · rw [h1, List.drop_zero]
  · rw [h1]; simp
theorem mem_items_drop (s : fn_s) (lo : Int) (a : Item) (h0 : 0 ≤ lo)
    (h : a ∈ s.items.drop lo.toNat) :
    ∃ j, lo ≤ j ∧ j < s.used ∧ a = rd s.data j := by
  have e : s.items.take s.used.toNat = s.items := by
    unfold fn_s.items
    rw [List.take_take, Nat.min_self]
  rw [← e] at h
  obtain ⟨j, h1, _, h3, h4⟩ := mem_items_range s lo s.used a h0 h
  exact ⟨j, h1, h3, h4⟩

theorem find_scan_spec (hit : Item → Bool) (base : fr_s) (nexts : List fn_s)
    (prevs : List fn_s) (seg : fn_s) (idx : Int) (h0 : 0 ≤ idx) (hidx : idx ≤ seg.used)
    (hseg : seg.used ≤ (seg.data.length : Int))
    (hn : ∀ s ∈ nexts, 0 ≤ s.used ∧ s.used ≤ (s.data.length : Int)) :
    (∀ q, find_scan hit base prevs seg nexts idx = some q →
      q.chain = prevs.reverse ++ seg :: nexts ∧
      q.size = base.size ∧ q.icnt = base.icnt ∧ q.ncnt = base.ncnt ∧
      OnItem q ∧ q.seg.used ≤ (q.seg.data.length : Int) ∧ hit (fr_item q) = true ∧
      ∃ pre, seg.items.drop idx.toNat ++ nexts.flatMap fn_s.items = pre ++ q.tail ∧
        (∀ a ∈ pre, hit a = false) ∧
        q.position = (prevs.reverse.flatMap fn_s.items).length + idx.toNat + pre.length) ∧
    (find_scan hit base prevs seg nexts idx = none →
      ∀ a ∈ seg.items.drop idx.toNat ++ nexts.flatMap fn_s.items, hit a = false) := by
  induction nexts generalizing prevs seg idx with
  | nil =>
    rw [find_scan]
    obtain ⟨k1, k2⟩ := scan_seg_spec hit seg (seg.used - idx).toNat idx rfl
    cases hs : scan_seg hit seg (seg.used - idx).toNat idx with
    | some i =>
      simp only []
      obtain ⟨a1, a2, a3, a4⟩ := k1 i hs
      refine ⟨?_, fun h => by simp at h⟩
      intro q hq
      have := Option.some.inj hq
      subst this
      refine ⟨rfl, rfl, rfl, rfl, ⟨by simp only; omega, a2⟩, hseg, a3,
        (seg.items.take i.toNat).drop idx.toNat, ?_, ?_, ?_⟩
      · simp only [fr_s.tail, List.flatMap_nil, List.append_nil]
        exact drop_split _ _ _ (by omega)
      · intro a ha
        obtain ⟨j, j1, j2, _, j4⟩ := mem_items_range seg idx i a h0 ha
        rw [j4]
        exact a4 j j1 j2
      · simp only [fr_s.position, List.length_drop, List.length_take, fn_s.items]
        omega
    | none =>
      simp only []
      refine ⟨fun q h => by simp at h, ?_⟩
      intro _ a ha
      simp only [List.flatMap_nil, List.append_nil] at ha
      obtain ⟨j, j1, j2, j3⟩ := mem_items_drop seg idx a h0 ha
      rw [j3]
      exact k2 hs j j1 j2
  | cons n ns ih =>
    rw [find_scan]
    obtain ⟨k1, k2⟩ := scan_seg_spec hit seg (seg.used - idx).toNat idx rfl
    cases hs : scan_seg hit seg (seg.used - idx).toNat idx with
    | some i =>
      simp only []
      obtain ⟨a1, a2, a3, a4⟩ := k1 i hs
      refine ⟨?_, fun h => by simp at h⟩
      intro q hq
      have := Option.some.inj hq
      subst this
      refine ⟨rfl, rfl, rfl, rfl, ⟨by simp only; omega, a2⟩, hseg, a3,
        (seg.items.take i.toNat).drop idx.toNat, ?_, ?_, ?_⟩
      · simp only [fr_s.tail]
        rw [drop_split seg.items idx.toNat i.toNat (by omega), List.append_assoc]
      · intro a ha
        obtain ⟨j, j1, j2, _, j4⟩ := mem_items_range seg idx i a h0 ha
        rw [j4]
        exact a4 j j1 j2
      · simp only [fr_s.position, List.length_drop, List.length_take, fn_s.items]
        omega
    | none =>
      simp only []
      obtain ⟨hn1, hns⟩ := List.forall_mem_cons.mp hn
      obtain ⟨i1, i2⟩ := ih (seg :: prevs) n 0 (le_refl _) hn1.1 hn1.2 hns
      have hnone : ∀ a ∈ seg.items.drop idx.toNat, hit a = false := by
        intro a ha
        obtain ⟨j, j1, j2, j3⟩ := mem_items_drop seg idx a h0 ha
        rw [j3]
        exact k2 hs j j1 j2
      constructor
      · intro q hq
        obtain ⟨b1, b2, b3, b4, b5, b5a, b6, pre, b7, b8, b9⟩ := i1 q hq
        refine ⟨?_, b2, b3, b4, b5, b5a, b6, seg.items.drop idx.toNat ++ pre, ?_, ?_, ?_⟩
        · rw [b1]; simp
        · simp only [Int.toNat_zero, List.drop_zero] at b7
          rw [List.flatMap_cons, b7, List.append_assoc]
        · intro a ha
          rcases List.mem_append.mp ha with h | h
          · exact hnone a h
          · exact b8 a h
        · rw [b9, length_prefix_cons]
          simp only [Int.toNat_zero, List.length_append, List.length_drop, fn_s.items,
            List.length_take]
          omega
      · intro hq a ha
        rcases List.mem_append.mp ha with h | h
        · exact hnone a h
        · rw [List.flatMap_cons] at h
          have := i2 hq a
          simp only [Int.toNat_zero, List.drop_zero] at this
          exact this h

/-- The item under a cursor that is on an item heads the rest of the sequence. -/
theorem tail_head (q : fr_s) (hon : OnItem q) (hlen : q.seg.used ≤ (q.seg.data.length : Int)) :
    ∃ rest, q.tail = fr_item q :: rest := by
  obtain ⟨c0, c1⟩ := hon
  have hl : (q.seg.items.length : Int) = q.seg.used := length_items q.seg (by omega) hlen
  have hlt : q.idx.toNat < q.seg.items.length := by omega
  have hget := items_getElem? q.seg q.idx.toNat (by omega) hlen
  rw [List.getElem?_eq_getElem hlt] at hget
  have hitem : q.seg.items[q.idx.toNat] = fr_item q := by
    have := Option.some.inj hget
    rw [this]
    unfold fr_item
    congr 1
    omega
  refine ⟨q.seg.items.drop (q.idx.toNat + 1) ++ q.nexts.flatMap fn_s.items, ?_⟩
  unfold fr_s.tail
  rw [List.drop_eq_getElem_cons hlt, hitem]
  rfl

/-- What the scan of `fr_find` / `fr_find_with` returns, for a test `hit`. -/
theorem find_scan_first (hit : Item → Bool) (pos : fr_s) (hwf : WellFormed pos)
    (hcur : ValidCursor pos) :
    (∀ q, find_scan hit pos pos.prevs pos.seg pos.nexts pos.idx = some q →
      q.chain = pos.chain ∧ q.size = pos.size ∧ q.icnt = pos.icnt ∧ q.ncnt = pos.ncnt ∧
      OnItem q ∧ hit (fr_item q) = true ∧
      ∃ pre rest, pos.tail = pre ++ fr_item q :: rest ∧ q.tail = fr_item q :: rest ∧
        (∀ a ∈ pre, hit a = false) ∧ q.position = pos.position + pre.length) ∧
    (find_scan hit pos pos.prevs pos.seg pos.nexts pos.idx = none ↔
      ∀ a ∈ pos.tail, hit a = false) := by
  have hdl := hwf.data_len
  have hul := hwf.used_le
  have hu0 := hwf.used_nonneg
  have hidx : 0 ≤ pos.idx ∧ pos.idx ≤ pos.seg.used := by
    rcases hcur with ⟨h0, h1⟩ | ⟨h0, h1⟩
    · exact ⟨h0, by omega⟩
    · exact ⟨by omega, by omega⟩
  have hn : ∀ s ∈ pos.nexts, 0 ≤ s.used ∧ s.used ≤ (s.data.length : Int) := by
    intro s hs
    obtain ⟨a1, a2, a3⟩ := hwf.nexts_ok s hs
    exact ⟨by omega, by omega⟩
  obtain ⟨k1, k2⟩ := find_scan_spec hit pos pos.nexts pos.prevs pos.seg pos.idx hidx.1 hidx.2
    (by omega) hn
  have key : ∀ q, find_scan hit pos pos.prevs pos.seg pos.nexts pos.idx = some q →
      q.chain = pos.chain ∧ q.size = pos.size ∧ q.icnt = pos.icnt ∧ q.ncnt = pos.ncnt ∧
      OnItem q ∧ hit (fr_item q) = true ∧
      ∃ pre rest, pos.tail = pre ++ fr_item q :: rest ∧ q.tail = fr_item q :: rest ∧
        (∀ a ∈ pre, hit a = false) ∧ q.position = pos.position + pre.length := by
    intro q hq
    obtain ⟨b1, b2, b3, b4, b5, b5a, b6, pre, b7, b8, b9⟩ := k1 q hq
    obtain ⟨rest, hrest⟩ := tail_head q b5 b5a
    refine ⟨b1, b2, b3, b4, b5, b6, pre, rest, ?_, hrest, b8, b9⟩
    rw [← hrest]
    exact b7
  refine ⟨key, ⟨k2, ?_⟩⟩
  intro hall
  cases hf : find_scan hit pos pos.prevs pos.seg pos.nexts pos.idx with
  | none => rfl
  | some q =>
    exfalso
    obtain ⟨_, _, _, _, _, b6, pre, rest, b7, _⟩ := key q hf
    have := hall (fr_item q) (by rw [b7]; simp)
    rw [b6] at this
    exact absurd this (by decide)

/-- C14: linear search returns the first match or an invalid position.  On a
well-formed chain with a valid cursor: when `fr_find` returns a valid position
`q`, it is a position of the same chain (same counters) on an item identical
to `item`, and the items from the cursor up to `q` (exclusive) all differ from
`item`; it returns the position with a null segment exactly when no item from
the cursor to the end of the chain is identical to `item`.  The same holds for
`fr_find_with` with the test `comp a item = 0`.  The input position is a value
and is not modified. -/
theorem linear_search_first_match (pos : fr_s) (hwf : WellFormed pos) (hcur : ValidCursor pos)
    (item : Item) (comp : Item → Item → Int) :
    (∀ q, fr_find pos item = some q →
      q.chain = pos.chain ∧ q.size = pos.size ∧ q.icnt = pos.icnt ∧ q.ncnt = pos.ncnt ∧
      OnItem q ∧ fr_item q = item ∧
      ∃ pre rest, pos.tail = pre ++ fr_item q :: rest ∧ q.tail = fr_item q :: rest ∧
        (∀ a ∈ pre, a ≠ item) ∧ q.position = pos.position + pre.length) ∧
    (fr_is_valid (fr_find pos item) = 0 ↔ ∀ a ∈ pos.tail, a ≠ item) ∧
    (∀ q, fr_find_with pos item comp = some q →
      q.chain = pos.chain ∧ q.size = pos.size ∧ q.icnt = pos.icnt ∧ q.ncnt = pos.ncnt ∧
      OnItem q ∧ comp (fr_item q) item = 0 ∧
      ∃ pre rest, pos.tail = pre ++ fr_item q :: rest ∧ q.tail = fr_item q :: rest ∧
        (∀ a ∈ pre, comp a item ≠ 0) ∧ q.position = pos.position + pre.length) ∧
    (fr_is_valid (fr_find_with pos item comp) = 0 ↔ ∀ a ∈ pos.tail, comp a item ≠ 0) := by
  have hvalid : ∀ r : Option fr_s, fr_is_valid r = 0 ↔ r = none := by
    intro r
    cases r <;> simp [fr_is_valid]
  obtain ⟨f1, f2⟩ := find_scan_first (fun a => decide (a = item)) pos hwf hcur
  obtain ⟨g1, g2⟩ := find_scan_first (fun a => decide (comp a item = 0)) pos hwf hcur
  refine ⟨?_, ?_, ?_, ?_⟩
  · intro q hq
    obtain ⟨b1, b2, b3, b4, b5, b6, pre, rest, b7, b8, b9, b10⟩ := f1 q hq
    refine ⟨b1, b2, b3, b4, b5, of_decide_eq_true b6, pre, rest, b7, b8, ?_, b10⟩
    intro a ha
    exact of_decide_eq_false (b9 a ha)
  · rw [hvalid]
    unfold fr_find
    rw [f2]
    constructor
    · intro h a ha
      exact of_decide_eq_false (h a ha)
    · intro h a ha
      exact decide_eq_false (h a ha)
  · intro q hq
    obtain ⟨b1, b2, b3, b4, b5, b6, pre, rest, b7, b8, b9, b10⟩ := g1 q hq
    refine ⟨b1, b2, b3, b4, b5, of_decide_eq_true b6, pre, rest, b7, b8, ?_, b10⟩
    intro a ha
    exact of_decide_eq_false (b9 a ha)
  · rw [hvalid]
    unfold fr_find_with
    rw [g2]
    constructor
    · intro h a ha
      exact of_decide_eq_false (h a ha)
    · intro h a ha
      exact decide_eq_false (h a ha)
/-- Witness of `linear_search_first_match`: in three full segments (capacity 4)
the item `6` is found at its position from the first position. -/
theorem linear_search_first_match_witness :
    WellFormed ex_three_full ∧ ValidCursor ex_three_full ∧
    fr_find ex_three_full 6 = some ex_three_full_at6 ∧
    fr_item ex_three_full_at6 = 6 ∧
    fr_is_valid (fr_find_with ex_three_full 13 find_comp) = 0 :=
  ⟨wf_ex_three_full, by decide, by decide,
    ((linear_search_first_match ex_three_full wf_ex_three_full (by decide) 6 find_comp).1
      ex_three_full_at6 (by decide)).2.2.2.2.2.1,
    (linear_search_first_match ex_three_full wf_ex_three_full (by decide) 13
      find_comp).2.2.2.mpr (by decide)⟩

/-! ### Sorted search -/

theorem rd_mem_items (s : fn_s) (i : Int) (h0 : 0 ≤ i) (h1 : i < s.used)
    (h2 : s.used ≤ (s.data.length : Int)) : rd s.data i ∈ s.items := by
  have := items_getElem? s i.toNat (by omega) h2
  rw [show ((i.toNat : Nat) : Int) = i by omega] at this
  exact List.mem_iff_getElem?.mpr ⟨i.toNat, this⟩

/-- A segment without a hit is passed over by the scan. -/
theorem find_scan_pass (hit : Item → Bool) (base : fr_s) (qs : List fn_s) (q : fn_s)
    (seg : fn_s) (nexts : List fn_s) (hq : q.used ≤ (q.data.length : Int))
    (hno : ∀ a ∈ q.items, hit a = false) :
    find_scan hit base qs q (seg :: nexts) 0 = find_scan hit base (q :: qs) seg nexts 0 := by
  rw [find_scan]
  obtain ⟨k1, _⟩ := scan_seg_spec hit q (q.used - 0).toNat 0 rfl
  cases hs : scan_seg hit q (q.used - 0).toNat 0 with
  | none => rfl
  | some i =>
    exfalso
    obtain ⟨a1, a2, a3, _⟩ := k1 i hs
    have := hno _ (rd_mem_items q i a1 a2 hq)
    rw [a3] at this
    exact absurd this (by decide)

/-- Items not greater than an item that the key is greater than are not equal
to the key. -/
theorem comp_ne_zero_of_le_of_gt (comp : Item → Item → Int) (hc : TotalOrderComp comp)
    (a f key : Item) (h1 : comp a f ≤ 0) (h2 : comp key f > 0) : comp a key ≠ 0 := by
  intro h
  have hka : comp key a ≤ 0 := by
    by_contra hcon
    have := (hc.swap key a).mp (by omega)
    omega
  have := hc.trans key a f hka h1
  omega

/-- The jump of the sorted search, from a segment that has a previous one: the
scan from the position reached finds what the scan from the previous segment
finds. -/
theorem sorted_skip_find_prev (comp : Item → Item → Int) (hc : TotalOrderComp comp)
    (key : Item) (base : fr_s) (nexts : List fn_s) (qs : List fn_s) (q seg : fn_s)
    (hq : q.used ≤ (q.data.length : Int))
    (hseg : 1 ≤ seg.used ∧ seg.used ≤ (seg.data.length : Int))
    (hn : ∀ s ∈ nexts, 1 ≤ s.used ∧ s.used ≤ (s.data.length : Int))
    (hqs : ∀ a ∈ q.items, ∀ b ∈ seg.items, comp a b ≤ 0)
    (hsorted : (seg.items ++ nexts.flatMap fn_s.items).Pairwise (fun a b => comp a b ≤ 0)) :
    find_scan (fun a => decide (comp a key = 0)) base
        (sorted_skip comp key base
          (some { base with prevs := qs, seg := q, nexts := seg :: nexts, idx := 0 })
          (q :: qs) seg nexts 0).prevs
        (sorted_skip comp key base
          (some { base with prevs := qs, seg := q, nexts := seg :: nexts, idx := 0 })
          (q :: qs) seg nexts 0).seg
        (sorted_skip comp key base
          (some { base with prevs := qs, seg := q, nexts := seg :: nexts, idx := 0 })
          (q :: qs) seg nexts 0).nexts
        (sorted_skip comp key base
          (some { base with prevs := qs, seg := q, nexts := seg :: nexts, idx := 0 })
          (q :: qs) seg nexts 0).idx =
      find_scan (fun a => decide (comp a key = 0)) base qs q (seg :: nexts) 0 := by
  induction nexts generalizing qs q seg with
  | nil =>
    simp only [sorted_skip]
    by_cases c : comp key (rd seg.data 0) > 0
    · rw [if_pos c]
      symm
      apply find_scan_pass _ base qs q seg [] hq
      intro a ha
      have hfirst : rd seg.data 0 ∈ seg.items := rd_mem_items seg 0 (le_refl _) (by omega) hseg.2
      exact decide_eq_false (comp_ne_zero_of_le_of_gt comp hc a _ key (hqs a ha _ hfirst) c)
    · rw [if_neg c]
  | cons n ns ih =>
    simp only [sorted_skip]
    by_cases c : comp key (rd seg.data 0) > 0
    · rw [if_pos c]
      obtain ⟨hn1, hns⟩ := List.forall_mem_cons.mp hn
      rw [List.flatMap_cons] at hsorted
      obtain ⟨s1, s2, s3⟩ := List.pairwise_append.mp hsorted
      rw [ih (q :: qs) seg n (by omega) hn1 hns
        (fun a ha b hb => s3 a ha b (List.mem_append_left _ hb)) s2]
      symm
      apply find_scan_pass _ base qs q seg (n :: ns) hq
      intro a ha
      have hfirst : rd seg.data 0 ∈ seg.items := rd_mem_items seg 0 (le_refl _) (by omega) hseg.2
      exact decide_eq_false (comp_ne_zero_of_le_of_gt comp hc a _ key (hqs a ha _ hfirst) c)
    · rw [if_neg c]

/-- The jump of the sorted search from the first position of a sorted chain:
the scan from the position reached finds what the scan from the first
position finds. -/
theorem sorted_skip_find_first (comp : Item → Item → Int) (hc : TotalOrderComp comp)
    (key : Item) (base : fr_s) (nexts : List fn_s) (prevs : List fn_s) (seg : fn_s)
    (hseg : seg.used ≤ (seg.data.length : Int))
    (hn : ∀ s ∈ nexts, 1 ≤ s.used ∧ s.used ≤ (s.data.length : Int))
    (hsorted : (seg.items ++ nexts.flatMap fn_s.items).Pairwise (fun a b => comp a b ≤ 0)) :
    find_scan (fun a => decide (comp a key = 0)) base
        (sorted_skip comp key base none prevs seg nexts 0).prevs
        (sorted_skip comp key base none prevs seg nexts 0).seg
        (sorted_skip comp key base none prevs seg nexts 0).nexts
        (sorted_skip comp key base none prevs seg nexts 0).idx =
      find_scan (fun a => decide (comp a key = 0)) base prevs seg nexts 0 := by
  cases nexts with
  | nil =>
    simp only [sorted_skip]
    by_cases c : comp key (rd seg.data 0) > 0
    · rw [if_pos c]
    · rw [if_neg c]
  | cons n ns =>
    simp only [sorted_skip]
    by_cases c : comp key (rd seg.data 0) > 0
    · rw [if_pos c]
      obtain ⟨hn1, hns⟩ := List.forall_mem_cons.mp hn
      rw [List.flatMap_cons] at hsorted
      obtain ⟨s1, s2, s3⟩ := List.pairwise_append.mp hsorted
      exact sorted_skip_find_prev comp hc key base ns prevs seg n hseg hn1 hns
        (fun a ha b hb => s3 a ha b (List.mem_append_left _ hb)) s2
    · rw [if_neg c]

/-- The positions `find_scan` returns take only the allocation parameters and
the counters from the base position. -/
theorem find_scan_base (hit : Item → Bool) (base base2 : fr_s) (hs : base.size = base2.size)
    (hi : base.icnt = base2.icnt) (hn : base.ncnt = base2.ncnt) (nexts : List fn_s)
    (prevs : List fn_s) (seg : fn_s) (idx : Int) :
    find_scan hit base prevs seg nexts idx = find_scan hit base2 prevs seg nexts idx := by
  induction nexts generalizing prevs seg idx with
  | nil =>
    simp only [find_scan]
    cases scan_seg hit seg (seg.used - idx).toNat idx with
    | none => rfl
    | some i => simp only [hs, hi, hn]
  | cons n ns ih =>
    simp only [find_scan]
    cases scan_seg hit seg (seg.used - idx).toNat idx with
    | none => exact ih (seg :: prevs) n 0
    | some i => simp only [hs, hi, hn]

/-- The jump of the sorted search keeps the allocation parameters and the
counters of the base position. -/
theorem sorted_skip_counts (comp : Item → Item → Int) (key : Item) (base : fr_s)
    (nexts : List fn_s) (prev : Option fr_s) (prevs : List fn_s) (seg : fn_s) (idx : Int)
    (hprev : ∀ z, prev = some z → z.size = base.size ∧ z.icnt = base.icnt ∧ z.ncnt = base.ncnt) :
    (sorted_skip comp key base prev prevs seg nexts idx).size = base.size ∧
    (sorted_skip comp key base prev prevs seg nexts idx).icnt = base.icnt ∧
    (sorted_skip comp key base prev prevs seg nexts idx).ncnt = base.ncnt := by
  induction nexts generalizing prev prevs seg idx with
  | nil =>
    simp only [sorted_skip]
    by_cases c : comp key (rd seg.data idx) > 0
    · rw [if_pos c]
      exact ⟨rfl, rfl, rfl⟩
    · rw [if_neg c]
      cases prev with
      | none => exact ⟨rfl, rfl, rfl⟩
      | some z => exact hprev z rfl
  | cons n ns ih =>
    simp only [sorted_skip]
    by_cases c : comp key (rd seg.data idx) > 0
    · rw [if_pos c]
      apply ih
      intro z hz
      cases hz
      exact ⟨rfl, rfl, rfl⟩
    · rw [if_neg c]
      cases prev with
      | none => exact ⟨rfl, rfl, rfl⟩
      | some z => exact hprev z rfl

/-- C15: sorted search agrees with linear search.  On a well-formed chain whose
items are ascending under a three-way comparator of a total order, with the
cursor at the first position, `fr_find_sorted_with` returns what `fr_find_with`
returns, for every key: for a key present in the chain the same valid position
(on an item that compares equal to the key), for an absent key the position
with a null segment. -/
theorem sorted_search_agrees (pos : fr_s) (hwf : WellFormed pos) (hstart : AtStart pos)
    (comp : Item → Item → Int) (hc : TotalOrderComp comp) (hasc : Ascending comp pos)
    (key : Item) :
    fr_find_sorted_with pos key comp = fr_find_with pos key comp ∧
    ((∃ a ∈ pos.toList, comp a key = 0) →
      ∃ q, fr_find_sorted_with pos key comp = some q ∧ fr_find_with pos key comp = some q ∧
        q.chain = pos.chain ∧ OnItem q ∧ comp (fr_item q) key = 0) ∧
    ((∀ a ∈ pos.toList, comp a key ≠ 0) →
      fr_find_sorted_with pos key comp = none ∧
      fr_is_valid (fr_find_sorted_with pos key comp) = 0) := by
  obtain ⟨hp, hi⟩ := hstart
  have hdl := hwf.data_len
  have hul := hwf.used_le
  have hu0 := hwf.used_nonneg
  have hcur : ValidCursor pos := by
    by_cases h : 0 < pos.seg.used
    · exact Or.inl ⟨by omega, by omega⟩
    · exact Or.inr ⟨by omega, hi⟩
  have htail : pos.tail = pos.toList := by
    rw [toList_eq, hp, fr_s.tail, hi]
    simp
  have hn : ∀ s ∈ pos.nexts, 1 ≤ s.used ∧ s.used ≤ (s.data.length : Int) := by
    intro s hs
    obtain ⟨a1, a2, a3⟩ := hwf.nexts_ok s hs
    exact ⟨a1, by omega⟩
  have hsorted : (pos.seg.items ++ pos.nexts.flatMap fn_s.items).Pairwise
      (fun a b => comp a b ≤ 0) := by
    have := hasc
    unfold Ascending at this
    rw [toList_eq, hp] at this
    simpa using this
  have heq : fr_find_sorted_with pos key comp = fr_find_with pos key comp := by
    unfold fr_find_sorted_with fr_find_with
    rw [hi]
    obtain ⟨c1, c2, c3⟩ := sorted_skip_counts comp key pos pos.nexts none pos.prevs pos.seg 0
      (fun z hz => by cases hz)
    rw [find_scan_base _ _ pos c1 c2 c3]
    exact sorted_skip_find_first comp hc key pos pos.nexts pos.prevs pos.seg (by omega) hn hsorted
  obtain ⟨g1, g2⟩ := find_scan_first (fun a => decide (comp a key = 0)) pos hwf hcur
  rw [htail] at g2
  refine ⟨heq, ?_, ?_⟩
  · intro hex
    cases hf : fr_find_with pos key comp with
    | none =>
      exfalso
      obtain ⟨a, ha, hz⟩ := hex
      exact of_decide_eq_false (g2.mp hf a ha) hz
    | some q =>
      obtain ⟨b1, _, _, _, b5, b6, _⟩ := g1 q hf
      exact ⟨q, by rw [heq, hf], rfl, b1, b5, of_decide_eq_true b6⟩
  · intro hall
    have hnone : fr_find_with pos key comp = none :=
      g2.mpr (fun a ha => decide_eq_false (hall a ha))
    rw [heq, hnone]
    exact ⟨rfl, rfl⟩

theorem find_comp_pos (a b : Nat) : 0 < find_comp a b ↔ b < a := by
  unfold find_comp
  by_cases h1 : a > b
  · rw [if_pos h1]
    exact ⟨fun _ => h1, fun _ => by decide⟩
  · rw [if_neg h1]
    by_cases h2 : a < b
    · rw [if_pos h2]
      exact ⟨fun h => absurd h (by decide), fun h => absurd h h1⟩
    · rw [if_neg h2]
      exact ⟨fun h => absurd h (by decide), fun h => absurd h h1⟩

theorem find_comp_neg (a b : Nat) : find_comp a b < 0 ↔ a < b := by
  unfold find_comp
  by_cases h1 : a > b
  · rw [if_pos h1]
    exact ⟨fun h => absurd h (by decide), fun h => absurd h (by omega)⟩
  · rw [if_neg h1]
    by_cases h2 : a < b
    · rw [if_pos h2]
      exact ⟨fun _ => h2, fun _ => by decide⟩
    · rw [if_neg h2]
      exact ⟨fun h => absurd h (by decide), fun h => absurd h h2⟩

theorem totalOrderComp_find_comp : TotalOrderComp find_comp := by
  constructor
  · intro a b
    rw [find_comp_pos, find_comp_neg]
  · intro (a : Nat) (b : Nat) (c : Nat) hab hbc
    have h1 : ¬ b < a := fun h => absurd ((find_comp_pos a b).mpr h) (by omega)
    have h2 : ¬ c < b := fun h => absurd ((find_comp_pos b c).mpr h) (by omega)
    have h3 : ¬ c < a := by omega
    have h4 : ¬ 0 < find_comp a c := fun h => h3 ((find_comp_pos a c).mp h)
    omega

/-- Witness of `sorted_search_agrees`: three full segments `1..12` (capacity 4),
key `6`. -/
theorem sorted_search_agrees_witness :
    WellFormed ex_three_full ∧ AtStart ex_three_full ∧ TotalOrderComp find_comp ∧
    Ascending find_comp ex_three_full ∧
    fr_find_sorted_with ex_three_full 6 find_comp = fr_find_with ex_three_full 6 find_comp ∧
    fr_find_sorted_with ex_three_full 6 find_comp = some ex_three_full_at6 :=
  ⟨wf_ex_three_full, by decide, totalOrderComp_find_comp, by unfold Ascending; decide,
    (sorted_search_agrees ex_three_full wf_ex_three_full (by decide) find_comp
      totalOrderComp_find_comp (by unfold Ascending; decide) 6).1,
    by decide⟩

/-! ### Packing -/

theorem pack_skip_all_full (limit : Int) (segs : List fn_s) (i : Nat)
    (h : ∀ s ∈ segs, limit ≤ s.used) : pack_skip limit none segs i = none := by
  induction segs generalizing i with
  | nil => rfl
  | cons s rest ih =>
    simp only [pack_skip]
    rw [if_pos ⟨h s (List.mem_cons_self _ _), by simp⟩]
    exact ih (i + 1) (fun t ht => h t (List.mem_cons_of_mem _ ht))

theorem pack_skip_single (limit : Int) (endi : Option Int) (s : fn_s) (i : Nat) :
    pack_skip limit endi [s] i = none ∨ pack_skip limit endi [s] i = some i := by
  simp only [pack_skip]
  by_cases c : s.used ≥ limit ∧ endi ≠ some (i : Int)
  · rw [if_pos c]
    exact Or.inl rfl
  · rw [if_neg c]
    exact Or.inr rfl

/-- C18: pack rejection is a no-op.  `fr_pack_range` returns 0 with the position
(chain, segments, counters and cursor) unchanged whenever
`limit <= icnt / ncnt` (truncating division of the cached counters) or
`limit > size`; it does so too when the start segment is the last of the
chain, and, with a null `end`, when every segment from the start segment on
holds at least `limit` items; and every call that returns 0 returns the
position unchanged. -/
theorem pack_rejection_noop (pos : fr_s) (endp : Option fr_s) (limit : Int) :
    ((limit ≤ Int.tdiv pos.icnt pos.ncnt ∨ limit > pos.size) →
      fr_pack_range pos endp limit = pack_r.ret pos 0) ∧
    (pos.nexts = [] → fr_pack_range pos endp limit = pack_r.ret pos 0) ∧
    ((∀ s ∈ pos.seg :: pos.nexts, limit ≤ s.used) →
      fr_pack_range pos none limit = pack_r.ret pos 0) ∧
    (∀ r, fr_pack_range pos endp limit = pack_r.ret r 0 → r = pos) := by
  refine ⟨?_, ?_, ?_, ?_⟩
  · intro h
    unfold fr_pack_range
    rw [if_pos h]
  · intro h
    unfold fr_pack_range
    by_cases c : limit ≤ Int.tdiv pos.icnt pos.ncnt ∨ limit > pos.size
    · rw [if_pos c]
    · rw [if_neg c, h]
      rcases pack_skip_single limit
          (endp.map (fun e => (e.prevs.length : Int) - (pos.prevs.length : Int))) pos.seg 0
        with e | e
      · rw [e]
      · rw [e]
        simp
  · intro h
    unfold fr_pack_range
    by_cases c : limit ≤ Int.tdiv pos.icnt pos.ncnt ∨ limit > pos.size
    · rw [if_pos c]
    · rw [if_neg c]
      simp only [Option.map_none']
      rw [pack_skip_all_full limit _ 0 h]
  · intro r h
    unfold fr_pack_range at h
    by_cases c : limit ≤ Int.tdiv pos.icnt pos.ncnt ∨ limit > pos.size
    · rw [if_pos c] at h
      cases h
      rfl
    · rw [if_neg c] at h
      generalize endp.map (fun e => (e.prevs.length : Int) - (pos.prevs.length : Int)) = endi at h
      cases hs : pack_skip limit endi (pos.seg :: pos.nexts) 0 with
      | none =>
        rw [hs] at h
        cases h
        rfl
      | some ia =>
        rw [hs] at h
        simp only at h
        by_cases c1 : ia + 1 ≥ (pos.seg :: pos.nexts).length ∨ endi = some (ia : Int)
        · rw [if_pos c1] at h
          cases h
          rfl
        · rw [if_neg c1] at h
          by_cases c2 : endi = some ((ia + 1 : Nat) : Int)
          · rw [if_pos c2] at h
            cases h
            rfl
          · rw [if_neg c2] at h
            generalize pack_loop limit endi (pack_fuel pos) _ = res at h
            cases res with
            | done st =>
              simp only at h
              injection h with h1 h2
              exact absurd h2 (by decide)
            | null_deref => cases h
            | out_of_fuel => cases h

theorem wf_ex_pack_pairs : WellFormed ex_pack_pairs :=
  ⟨by decide, by decide, by decide, by decide, by decide, by decide, by decide, by decide⟩

/-- C20 (fails on the code), two calls `fr_pack_range( pos, NULL, 3 )` on
well-formed chains of capacity 8.  On `[1] - [2..8] - [10] - [11]` from the first
segment (average fill 10 / 4 = 2): the write position `a` fills the first
segment, enters the segment `b` is reading and overtakes it, zeroing the
`used` count of the segments `[10]` and `[11]` before they are read; the call
returns 1 and leaves `[1,2,3] - [4,5,6] - [7,8,7] - [8,8]`, eleven items for
`icnt = 10`.  On `[1] - [2] - [3] - [4] - [5] - [6..13]` from the fifth segment
(average fill 13 / 6 = 2): `a` fills the last segment to 3 while `b` still
reads it, steps to `a.seg->next = NULL` and stores to `a.seg->used`. -/
theorem fr_pack_range_loses_items :
    WellFormed ex_pack_overtake ∧
    ex_pack_overtake.toList = [1, 2, 3, 4, 5, 6, 7, 8, 10, 11] ∧
    fr_pack_range ex_pack_overtake none 3 =
      pack_r.ret
        { prevs := [],
          seg := { used := 3, data := [1, 2, 3, 0, 0, 0, 0, 0] },
          nexts := [{ used := 3, data := [4, 5, 6, 5, 6, 7, 8, 0] },
                    { used := 3, data := [7, 8, 7, 0, 0, 0, 0, 0] },
                    { used := 2, data := [8, 8, 0, 0, 0, 0, 0, 0] }],
          idx := 0, size := 8, icnt := 10, ncnt := 4 } 1 ∧
    (∀ r c, fr_pack_range ex_pack_overtake none 3 = pack_r.ret r c →
      r.toList = [1, 2, 3, 4, 5, 6, 7, 8, 7, 8, 8] ∧ r.sumUsed = 11 ∧ r.icnt = 10) ∧
    WellFormed ex_pack_last_full ∧ OnItem ex_pack_last_full ∧
    fr_pack_range ex_pack_last_full none 3 = pack_r.null_deref := by
  have e : fr_pack_range ex_pack_overtake none 3 =
      pack_r.ret
        { prevs := [],
          seg := { used := 3, data := [1, 2, 3, 0, 0, 0, 0, 0] },
          nexts := [{ used := 3, data := [4, 5, 6, 5, 6, 7, 8, 0] },
                    { used := 3, data := [7, 8, 7, 0, 0, 0, 0, 0] },
                    { used := 2, data := [8, 8, 0, 0, 0, 0, 0, 0] }],
          idx := 0, size := 8, icnt := 10, ncnt := 4 } 1 := by decide
  refine ⟨⟨by decide, by decide, by decide, by decide, by decide, by decide, by decide,
    by decide⟩, by decide, e, ?_,
    ⟨by decide, by decide, by decide, by decide, by decide, by decide, by decide, by decide⟩,
    by decide, by decide⟩
  intro r c h
  rw [e] at h
  injection h with h1 h2
  subst h1
  exact ⟨by decide, by decide, by decide⟩

theorem seg_at_set (segs : List fn_s) (i j : Nat) (v : fn_s) :
    seg_at (segs.set i v) j = if j = i ∧ i < segs.length then v else seg_at segs j := by
  unfold seg_at
  rw [List.getD_eq_getElem?_getD, List.getD_eq_getElem?_getD, List.getElem?_set]
  by_cases c : i = j
  · subst c
    by_cases c2 : i < segs.length
    · rw [if_pos rfl, if_pos c2, if_pos ⟨rfl, c2⟩]
      rfl
    · rw [if_pos rfl, if_neg c2, if_neg (fun h => c2 h.2)]
      rw [List.getElem?_eq_none (by omega)]
  · rw [if_neg c, if_neg (fun h => c h.1.symm)]

theorem pack_a_next_inv (limit S : Int) (hl : limit ≤ S) (h0 : 0 < limit) (st st1 : pack_s)
    (hinv : PackInv limit S st) (h : pack_a_next limit (pack_copy st) = some st1) :
    st1.segs.length = st.segs.length ∧ PackInv limit S st1 ∧
    st1.ib = st.ib ∧ st1.b_idx = st.b_idx + 1 ∧ st1.b_used = st.b_used := by
  obtain ⟨segs, ia, a_idx, ib, b_idx, b_used⟩ := st
  obtain ⟨i1, i2, i3, i4, i5, i6⟩ := hinv
  simp only at i1 i2 i3 i4 i5 i6
  unfold pack_a_next pack_copy at h
  simp only at h
  obtain ⟨v, hv⟩ : ∃ v : fn_s, v = fn_s.mk ((seg_at segs ia).used + 1)
      (wr (seg_at segs ia).data a_idx (rd (seg_at segs ib).data b_idx)) := ⟨_, rfl⟩
  rw [← hv] at h
  have hvu : v.used = (seg_at segs ia).used + 1 := by rw [hv]
  have e1 : seg_at (segs.set ia v) ia = v := by rw [seg_at_set, if_pos ⟨rfl, i1⟩]
  have e2 : ∀ j, j ≠ ia → seg_at (segs.set ia v) j = seg_at segs j := by
    intro j hj
    rw [seg_at_set, if_neg (fun c => hj c.1)]
  rw [e1] at h
  by_cases c : v.used ≥ limit
  · rw [if_pos c] at h
    by_cases c2 : ia + 1 < (segs.set ia v).length
    · rw [if_pos c2] at h
      injection h with h
      subst h
      rw [List.length_set] at c2
      refine ⟨by simp, ⟨?_, ?_, ?_, ?_, ?_, ?_⟩, rfl, rfl, rfl⟩
      · simpa using c2
      · simpa using i2
      · intro j hj
        simp only at hj ⊢
        rw [seg_at_set, if_neg (by omega)]
        by_cases cj : j = ia
        · rw [cj, e1]
          exact c
        · rw [e2 j cj]
          exact i3 j (by omega)
      · intro j hj
        simp only [List.length_set] at hj ⊢
        rw [seg_at_set]
        by_cases cj : j = ia + 1
        · rw [if_pos ⟨cj, by simpa using c2⟩]
          simp only
          omega
        · rw [if_neg (fun c => cj c.1)]
          by_cases cj2 : j = ia
          · rw [cj2, e1]
            omega
          · rw [e2 j cj2]
            exact i4 j hj
      · simp only
        rw [seg_at_set, if_pos ⟨rfl, by simpa using c2⟩]
        exact h0
      · exact i6
    · rw [if_neg c2] at h
      cases h
  · rw [if_neg c] at h
    injection h with h
    subst h
    refine ⟨by simp, ⟨?_, ?_, ?_, ?_, ?_, ?_⟩, rfl, rfl, rfl⟩
    · simpa using i1
    · simpa using i2
    · intro j hj
      simp only at hj ⊢
      rw [e2 j (by omega)]
      exact i3 j hj
    · intro j hj
      simp only [List.length_set] at hj ⊢
      by_cases cj2 : j = ia
      · rw [cj2, e1]
        omega
      · rw [e2 j cj2]
        exact i4 j hj
    · simp only
      rw [e1]
      omega
    · exact i6

theorem pack_b_next_inv (limit S : Int) (hS : 0 ≤ S) (st1 : pack_s)
    (hinv : PackInv limit S st1) :
    (pack_b_next st1).1.segs = st1.segs ∧ (pack_b_next st1).1.ia = st1.ia ∧
    PackInv limit S (pack_b_next st1).1 ∧
    ((pack_b_next st1).2 = false →
      pack_measure S (pack_b_next st1).1 + 1 ≤
        (st1.segs.length - 1 - st1.ib) * (S.toNat + 1) +
          max 1 (st1.b_used - st1.b_idx + 1).toNat) := by
  obtain ⟨segs, ia, a_idx, ib, b_idx, b_used⟩ := st1
  obtain ⟨i1, i2, i3, i4, i5, i6⟩ := hinv
  simp only at i1 i2 i3 i4 i5 i6
  unfold pack_b_next
  simp only
  by_cases c : b_idx ≥ b_used
  · rw [if_pos c]
    by_cases c2 : ib + 1 < segs.length
    · rw [if_pos c2]
      refine ⟨rfl, rfl, ⟨i1, c2, i3, i4, i5, i4 _ c2⟩, ?_⟩
      intro _
      unfold pack_measure
      simp only
      have hu := i4 _ c2
      obtain ⟨n, hn⟩ : ∃ n, segs.length - 1 - ib = n + 1 := ⟨segs.length - 1 - ib - 1, by omega⟩
      have hn2 : segs.length - 1 - (ib + 1) = n := by omega
      rw [hn, hn2, Nat.add_mul, Nat.one_mul]
      generalize n * (S.toNat + 1) = m
      omega
    · rw [if_neg c2]
      refine ⟨rfl, rfl, ⟨i1, i2, i3, i4, i5, i6⟩, ?_⟩
      intro h
      simp at h
  · rw [if_neg c]
    refine ⟨rfl, rfl, ⟨i1, i2, i3, i4, i5, i6⟩, ?_⟩
    intro _
    unfold pack_measure
    simp only
    generalize (segs.length - 1 - ib) * (S.toNat + 1) = m
    omega

theorem pack_loop_inv (limit S : Int) (hl : limit ≤ S) (h0 : 0 < limit) (endi : Option Int)
    (fuel : Nat) (st : pack_s) (hinv : PackInv limit S st) :
    (∀ st2, pack_loop limit endi fuel st = pack_l.done st2 →
      st2.segs.length = st.segs.length ∧ PackInv limit S st2) ∧
    (pack_measure S st < fuel → pack_loop limit endi fuel st ≠ pack_l.out_of_fuel) := by
  induction fuel generalizing st with
  | zero =>
    refine ⟨?_, ?_⟩
    · intro st2 h
      simp only [pack_loop] at h
      cases h
    · intro h
      omega
  | succ fuel ih =>
    simp only [pack_loop]
    by_cases c : endi = some (st.ib : Int)
    · rw [if_pos c]
      refine ⟨?_, ?_⟩
      · intro st2 h
        injection h with h
        subst h
        exact ⟨rfl, hinv⟩
      · intro _ h
        cases h
    · rw [if_neg c]
      cases ha : pack_a_next limit (pack_copy st) with
      | none =>
        simp only
        refine ⟨?_, ?_⟩
        · intro st2 h
          cases h
        · intro _ h
          cases h
      | some st1 =>
        simp only
        obtain ⟨a1, a2, a3, a4, a5⟩ := pack_a_next_inv limit S hl h0 st st1 hinv ha
        obtain ⟨b1, b2, b3, b4⟩ := pack_b_next_inv limit S (by omega) st1 a2
        by_cases cb : (pack_b_next st1).2 = true
        · rw [if_pos cb]
          refine ⟨?_, ?_⟩
          · intro st2 h
            injection h with h
            subst h
            exact ⟨by rw [b1, a1], b3⟩
          · intro _ h
            cases h
        · rw [if_neg cb]
          obtain ⟨r1, r2⟩ := ih (pack_b_next st1).1 b3
          refine ⟨?_, ?_⟩
          · intro st2 h
            obtain ⟨q1, q2⟩ := r1 st2 h
            exact ⟨by rw [q1, b1, a1], q2⟩
          · intro hm
            apply r2
            have hb := b4 (by simpa using cb)
            rw [a1, a3, a4, a5] at hb
            unfold pack_measure at hm
            have e : st.b_used - (st.b_idx + 1) + 1 = st.b_used - st.b_idx := by omega
            rw [e] at hb
            omega

theorem seg_at_cons_succ (s : fn_s) (rest : List fn_s) (j : Nat) :
    seg_at (s :: rest) (j + 1) = seg_at rest j := rfl

theorem pack_skip_spec (limit : Int) (endi : Option Int) (segs : List fn_s) (i k : Nat)
    (h : pack_skip limit endi segs i = some k) :
    i ≤ k ∧ k - i < segs.length ∧ (∀ j, j < k - i → limit ≤ (seg_at segs j).used) ∧
    ((seg_at segs (k - i)).used < limit ∨ endi = some (k : Int)) := by
  induction segs generalizing i with
  | nil =>
    simp only [pack_skip] at h
    cases h
  | cons s rest ih =>
    simp only [pack_skip] at h
    by_cases c : s.used ≥ limit ∧ endi ≠ some (i : Int)
    · rw [if_pos c] at h
      obtain ⟨q1, q2, q3, q4⟩ := ih (i + 1) h
      have e : k - i = (k - (i + 1)) + 1 := by omega
      refine ⟨by omega, by simp only [List.length_cons]; omega, ?_, ?_⟩
      · intro j hj
        cases j with
        | zero => exact c.1
        | succ j =>
          rw [seg_at_cons_succ]
          exact q3 j (by omega)
      · rw [e, seg_at_cons_succ]
        exact q4
    · rw [if_neg c] at h
      injection h with h
      subst h
      refine ⟨le_refl _, by simp, ?_, ?_⟩
      · intro j hj
        omega
      · rw [Nat.sub_self]
        by_cases c1 : s.used ≥ limit
        · right
          by_contra hne
          exact c ⟨c1, hne⟩
        · left
          show s.used < limit
          omega

theorem seg_at_mem (segs : List fn_s) (j : Nat) (h : j < segs.length) :
    seg_at segs j ∈ segs := by
  unfold seg_at
  rw [List.getD_eq_getElem?_getD, List.getElem?_eq_getElem h]
  exact List.getElem_mem h

theorem mem_take_seg_at (segs : List fn_s) (n : Nat) (s : fn_s) (h : s ∈ segs.take n) :
    ∃ j, j < n ∧ j < segs.length ∧ s = seg_at segs j := by
  obtain ⟨j, hj, e⟩ := List.getElem_of_mem h
  rw [List.length_take] at hj
  refine ⟨j, by omega, by omega, ?_⟩
  rw [← e, List.getElem_take]
  unfold seg_at
  rw [List.getD_eq_getElem?_getD, List.getElem?_eq_getElem (by omega)]
  rfl

theorem take_succ_seg_at (segs : List fn_s) (n : Nat) (h : n < segs.length) :
    segs.take (n + 1) = segs.take n ++ [seg_at segs n] := by
  rw [List.take_succ, List.getElem?_eq_getElem h]
  unfold seg_at
  rw [List.getD_eq_getElem?_getD, List.getElem?_eq_getElem h]
  rfl

theorem seg_at_zero_cons_take (segs : List fn_s) (n : Nat) (h : 0 < segs.length) :
    seg_at segs 0 :: (segs.take (n + 1)).drop 1 = segs.take (n + 1) := by
  cases segs with
  | nil => simp at h
  | cons s rest => rfl

theorem wf_icnt_nonneg (pos : fr_s) (hwf : WellFormed pos) : 0 ≤ pos.icnt ∧ 1 ≤ pos.ncnt := by
  have h1 := sum_used_ge pos.size pos.prevs hwf.prevs_ok
  have h2 := sum_used_ge pos.size pos.nexts hwf.nexts_ok
  have h3 := hwf.used_nonneg
  have h4 := hwf.icnt_eq
  have h5 := hwf.ncnt_eq
  rw [sumUsed_eq] at h4
  rw [chain_length] at h5
  constructor <;> omega

/-- The main loop of `fr_pack_range` as the call enters it on a well-formed
chain: it does not run out of iterations, and where it ends the loop
invariant holds. -/
theorem pack_loop_entry (pos : fr_s) (hwf : WellFormed pos) (endi : Option Int) (limit : Int)
    (hlim : ¬ (limit ≤ Int.tdiv pos.icnt pos.ncnt ∨ limit > pos.size)) (ia : Nat)
    (hs : pack_skip limit endi (pos.seg :: pos.nexts) 0 = some ia)
    (c1 : ¬ (ia + 1 ≥ (pos.seg :: pos.nexts).length ∨ endi = some (ia : Int))) :
    pack_loop limit endi (pack_fuel pos)
        { segs := pos.seg :: pos.nexts, ia := ia,
          a_idx := (seg_at (pos.seg :: pos.nexts) ia).used,
          ib := ia + 1, b_idx := 0,
          b_used := (seg_at (pos.seg :: pos.nexts) (ia + 1)).used } ≠ pack_l.out_of_fuel ∧
    ∀ st2, pack_loop limit endi (pack_fuel pos)
        { segs := pos.seg :: pos.nexts, ia := ia,
          a_idx := (seg_at (pos.seg :: pos.nexts) ia).used,
          ib := ia + 1, b_idx := 0,
          b_used := (seg_at (pos.seg :: pos.nexts) (ia + 1)).used } = pack_l.done st2 →
      st2.segs.length = (pos.seg :: pos.nexts).length ∧ PackInv limit pos.size st2 := by
  obtain ⟨hi0, hn1⟩ := wf_icnt_nonneg pos hwf
  have hdiv : 0 ≤ Int.tdiv pos.icnt pos.ncnt := Int.tdiv_nonneg hi0 (by omega)
  have hl : limit ≤ pos.size := by
    by_contra c
    exact hlim (Or.inr (by omega))
  have h0 : 0 < limit := by
    by_contra c
    exact hlim (Or.inl (by omega))
  obtain ⟨_, q2, q3, q4⟩ := pack_skip_spec limit endi _ 0 ia hs
  rw [Nat.sub_zero] at q2 q3 q4
  have hall : ∀ j, j < (pos.seg :: pos.nexts).length →
      (seg_at (pos.seg :: pos.nexts) j).used ≤ pos.size := by
    intro j hj
    have hm := seg_at_mem _ j hj
    rcases List.mem_cons.mp hm with e | e
    · rw [e]
      exact hwf.used_le
    · exact (hwf.nexts_ok _ e).2.1
  have hib : ia + 1 < (pos.seg :: pos.nexts).length := by
    by_contra c
    exact c1 (Or.inl (by omega))
  have hua : (seg_at (pos.seg :: pos.nexts) ia).used < limit := by
    rcases q4 with e | e
    · exact e
    · exact absurd (Or.inr e) c1
  have hinv : PackInv limit pos.size
      { segs := pos.seg :: pos.nexts, ia := ia,
        a_idx := (seg_at (pos.seg :: pos.nexts) ia).used,
        ib := ia + 1, b_idx := 0,
        b_used := (seg_at (pos.seg :: pos.nexts) (ia + 1)).used } :=
    ⟨q2, hib, q3, hall, hua, hall _ hib⟩
  obtain ⟨r1, r2⟩ := pack_loop_inv limit pos.size hl h0 endi (pack_fuel pos) _ hinv
  refine ⟨r2 ?_, r1⟩
  unfold pack_measure pack_fuel
  have hu := hall _ hib
  simp only [List.length_cons] at hib ⊢
  obtain ⟨n, hn⟩ : ∃ n, pos.nexts.length = n + (ia + 1) := ⟨pos.nexts.length - (ia + 1), by omega⟩
  have e1 : pos.nexts.length + 1 - 1 - (ia + 1) = n := by omega
  have e2 : (pos.nexts.length + 1) * (pos.size.toNat + 1) =
      n * (pos.size.toNat + 1) + (ia + 1) * (pos.size.toNat + 1) + (pos.size.toNat + 1) := by
    rw [hn, Nat.add_mul, Nat.add_mul, Nat.one_mul]
  rw [e1, e2]
  generalize n * (pos.size.toNat + 1) = m
  generalize (ia + 1) * (pos.size.toNat + 1) = m2
  omega

/-- C19: pack reduces fragmentation.  On a well-formed chain, for every `end`
(null or a position of the chain) and every limit, the call of `fr_pack_range`
ends (the loop of the model does not run out of iterations), and whenever it
returns 1 every segment from the segment of the start cursor to the last
segment it leaves in the chain, except possibly that last one, has
`used >= limit`, and no segment of the chain has `used` above the capacity;
the segments before the cursor, the cursor index and the item counter are as
before. -/
theorem pack_fills_to_limit (pos : fr_s) (hwf : WellFormed pos) (endp : Option fr_s)
    (limit : Int) :
    fr_pack_range pos endp limit ≠ pack_r.out_of_fuel ∧
    ∀ r, fr_pack_range pos endp limit = pack_r.ret r 1 →
      r.prevs = pos.prevs ∧ r.idx = pos.idx ∧ r.size = pos.size ∧ r.icnt = pos.icnt ∧
      (∀ s ∈ (r.seg :: r.nexts).dropLast, limit ≤ s.used) ∧
      (∀ s ∈ r.chain, s.used ≤ r.size) := by
  unfold fr_pack_range
  by_cases c : limit ≤ Int.tdiv pos.icnt pos.ncnt ∨ limit > pos.size
  · rw [if_pos c]
    refine ⟨fun h => (by cases h), ?_⟩
    intro r h
    injection h with h1 h2
    exact absurd h2 (by decide)
  · rw [if_neg c]
    generalize endp.map (fun e => (e.prevs.length : Int) - (pos.prevs.length : Int)) = endi
    cases hs : pack_skip limit endi (pos.seg :: pos.nexts) 0 with
    | none =>
      refine ⟨fun h => (by cases h), ?_⟩
      intro r h
      injection h with h1 h2
      exact absurd h2 (by decide)
    | some ia =>
      simp only
      by_cases c1 : ia + 1 ≥ (pos.seg :: pos.nexts).length ∨ endi = some (ia : Int)
      · rw [if_pos c1]
        refine ⟨fun h => (by cases h), ?_⟩
        intro r h
        injection h with h1 h2
        exact absurd h2 (by decide)
      · rw [if_neg c1]
        by_cases c2 : endi = some ((ia + 1 : Nat) : Int)
        · rw [if_pos c2]
          refine ⟨fun h => (by cases h), ?_⟩
          intro r h
          injection h with h1 h2
          exact absurd h2 (by decide)
        · rw [if_neg c2]
          obtain ⟨e1, e2⟩ := pack_loop_entry pos hwf endi limit c ia hs c1
          generalize pack_loop limit endi (pack_fuel pos) _ = res at e1 e2
          cases res with
          | out_of_fuel => exact absurd rfl e1
          | null_deref =>
            refine ⟨fun h => (by cases h), ?_⟩
            intro r h
            cases h
          | done st =>
            refine ⟨fun h => (by cases h), ?_⟩
            intro r h
            simp only at h
            injection h with h1 h2
            subst h1
            obtain ⟨hlen, i1, i2, i3, i4, i5, i6⟩ := e2 st rfl
            have hpos : 0 < st.segs.length := by omega
            have hsegs : seg_at st.segs 0 :: (st.segs.take (st.ia + 1)).drop 1 =
                st.segs.take (st.ia + 1) := seg_at_zero_cons_take _ _ hpos
            refine ⟨rfl, rfl, rfl, rfl, ?_, ?_⟩
            · intro s hs
              simp only at hs
              rw [hsegs, take_succ_seg_at _ _ i1, List.dropLast_concat] at hs
              obtain ⟨j, hj1, hj2, e⟩ := mem_take_seg_at _ _ _ hs
              rw [e]
              exact i3 j hj1
            · intro s hs
              unfold fr_s.chain at hs
              simp only at hs
              rw [hsegs] at hs
              rcases List.mem_append.mp hs with hp | hp
              · exact (hwf.prevs_ok s (List.mem_reverse.mp hp)).2.1
              · obtain ⟨j, hj1, hj2, e⟩ := mem_take_seg_at _ _ _ hp
                rw [e]
                exact i4 j hj2

/-- Witness of `pack_fills_to_limit`: `[1,2] - [3,4] - [5,6] - [7]` (capacity 4)
packed to the limit 3 is `[1,2,3] - [4,5,6] - [7]`. -/
theorem pack_fills_to_limit_witness :
    WellFormed ex_pack_pairs ∧
    fr_pack_range ex_pack_pairs none 3 =
      pack_r.ret
        { prevs := [],
          seg := { used := 3, data := [1, 2, 3, 0] },
          nexts := [{ used := 3, data := [4, 5, 6, 0] }, { used := 1, data := [7, 6, 0, 0] }],
          idx := 0, size := 4, icnt := 7, ncnt := 3 } 1 ∧
    ∀ s ∈ ([{ used := 3, data := [1, 2, 3, 0] }, { used := 3, data := [4, 5, 6, 0] },
        { used := 1, data := [7, 6, 0, 0] }] : List fn_s).dropLast, (3 : Int) ≤ s.used :=
  ⟨wf_ex_pack_pairs, by decide,
    ((pack_fills_to_limit ex_pack_pairs wf_ex_pack_pairs none 3).2
      { prevs := [],
        seg := { used := 3, data := [1, 2, 3, 0] },
        nexts := [{ used := 3, data := [4, 5, 6, 0] }, { used := 1, data := [7, 6, 0, 0] }],
        idx := 0, size := 4, icnt := 7, ncnt := 3 } (by decide)).2.2.2.2.1⟩

/-! ### Bounded packing, item access, scenarios and the branches of `fr_even` -/

/-- C21 (fails on the code): capacity 4, chain `[1,2] - [3,4] - [5,6] - [7]`,
`fr_pack_range( pos, end, 3 )` with `pos` at the first segment and `end` at the
third segment `[5,6]`.  The call returns 1; the loop stops when `b.seg` reaches
the segment of `end`, and the loop that removes the left-over nodes then frees
every node after `a.seg`: the segment of `end` and the segment after it are
unlinked with their items `5,6,7`, the chain left is `[1,2,3] - [4]`, with the
node counter 2 and the item counter still 7. -/
theorem fr_pack_range_frees_past_end :
    WellFormed ex_pack_pairs ∧ WellFormed ex_pack_pairs_at5 ∧
    ex_pack_pairs_at5.chain = ex_pack_pairs.chain ∧
    ex_pack_pairs.toList = [1, 2, 3, 4, 5, 6, 7] ∧
    fr_pack_range ex_pack_pairs (some ex_pack_pairs_at5) 3 =
      pack_r.ret
        { prevs := [],
          seg := { used := 3, data := [1, 2, 3, 0] },
          nexts := [{ used := 1, data := [4, 4, 0, 0] }],
          idx := 0, size := 4, icnt := 7, ncnt := 2 } 1 ∧
    (∀ r c, fr_pack_range ex_pack_pairs (some ex_pack_pairs_at5) 3 = pack_r.ret r c →
      r.toList = [1, 2, 3, 4] ∧ r.nexts.length = 1 ∧ r.icnt = 7) := by
  have e : fr_pack_range ex_pack_pairs (some ex_pack_pairs_at5) 3 =
      pack_r.ret
        { prevs := [],
          seg := { used := 3, data := [1, 2, 3, 0] },
          nexts := [{ used := 1, data := [4, 4, 0, 0] }],
          idx := 0, size := 4, icnt := 7, ncnt := 2 } 1 := by decide
  refine ⟨⟨by decide, by decide, by decide, by decide, by decide, by decide, by decide,
    by decide⟩,
    ⟨by decide, by decide, by decide, by decide, by decide, by decide, by decide, by decide⟩,
    by decide, by decide, e, ?_⟩
  intro r c h
  rw [e] at h
  injection h with h1 h2
  subst h1
  exact ⟨by decide, by decide, by decide⟩

/-- C24 (fails on the code): `fr_item_at` tests only `idx < pos->seg->used`, a
signed comparison.  On three full segments of capacity 4 it returns the item
of slot 0 for `idx = 0` and null for `idx = 10`, but for every negative index,
which is below `used`, it reads `pos->seg->data[ idx ]` outside the slot array. -/
theorem fr_item_at_reads_negative_slot :
    fr_item_at ex_three_full 0 = slot_r.item 1 ∧
    fr_item_at ex_three_full 3 = slot_r.item 4 ∧
    fr_item_at ex_three_full 4 = slot_r.item NULL ∧
    fr_item_at ex_three_full 10 = slot_r.item NULL ∧
    fr_item_at ex_three_full (-1) = slot_r.out_of_bounds ∧
    ∀ n : Nat, fr_item_at ex_three_full (-((n : Int) + 1)) = slot_r.out_of_bounds := by
  refine ⟨by decide, by decide, by decide, by decide, by decide, ?_⟩
  intro n
  unfold fr_item_at rd_checked
  have h : ex_three_full.seg.used = 4 := rfl
  rw [h, if_pos (by omega), if_neg (by omega)]

/-- The state after pushing five items onto a fresh container of capacity 4. -/
theorem push_five_state (a b c d e : Item) :
    [a, b, c, d, e].foldl fr_push (fr_create_sized 4) =
      { prevs := [{ used := 4, data := [a, b, c, d] }],
         seg := { used := 1, data := [e, NULL, NULL, NULL] }, nexts := [],
         idx := 0, size := 4, icnt := 5, ncnt := 2 } := by
  rfl

/-- C25: capacity 4, pushing five items `a, b, c, d, e` onto a fresh container
yields the two segments `[a,b,c,d]` and `[e]` with the cursor on `e` (index 0 of
the second segment); `fr_delete_even` there returns `e` and leaves the single
segment `[a,b,c,d]`, node count 1 and item count 4. -/
theorem push_five_delete_even (a b c d e : Item) :
    ([a, b, c, d, e].foldl fr_push (fr_create_sized 4)).chain.map fn_s.items =
      [[a, b, c, d], [e]] ∧
    ([a, b, c, d, e].foldl fr_push (fr_create_sized 4)).prevs.length = 1 ∧
    ([a, b, c, d, e].foldl fr_push (fr_create_sized 4)).nexts = [] ∧
    ([a, b, c, d, e].foldl fr_push (fr_create_sized 4)).idx = 0 ∧
    fr_item ([a, b, c, d, e].foldl fr_push (fr_create_sized 4)) = e ∧
    fr_node_count ([a, b, c, d, e].foldl fr_push (fr_create_sized 4)) = 2 ∧
    fr_length ([a, b, c, d, e].foldl fr_push (fr_create_sized 4)) = 5 ∧
    (fr_delete_even ([a, b, c, d, e].foldl fr_push (fr_create_sized 4))).2 = e ∧
    (fr_delete_even ([a, b, c, d, e].foldl fr_push (fr_create_sized 4))).1.chain.map
      fn_s.items = [[a, b, c, d]] ∧
    fr_node_count (fr_delete_even ([a, b, c, d, e].foldl fr_push (fr_create_sized 4))).1 = 1 ∧
    fr_length (fr_delete_even ([a, b, c, d, e].foldl fr_push (fr_create_sized 4))).1 = 4 := by
  rw [push_five_state]
  exact ⟨rfl, rfl, rfl, rfl, rfl, rfl, rfl, rfl, rfl, rfl, rfl⟩

/-- The state after thirteen calls of `fr_insert` on a fresh container of
capacity 4, the cursor never moved by the caller, call by call. -/
theorem head_inserts_state (a1 a2 a3 a4 a5 a6 a7 a8 a9 a10 a11 a12 a13 : Item) :
    [a1, a2, a3, a4, a5, a6, a7, a8, a9, a10, a11, a12, a13].foldl fr_insert
        (fr_create_sized 4) =
      ({ prevs := [],
         seg := { used := 4, data := [a13, a12, a11, a10] },
         nexts := [{ used := 3, data := [a9, a9, a8, a7] },
           { used := 3, data := [a6, a6, a5, a4] },
           { used := 3, data := [a3, a3, a2, a1] }],
         idx := 0, size := 4, icnt := 13, ncnt := 4 } : fr_s) := by
  simp only [List.foldl]
  have h1 : fr_insert
      (fr_create_sized 4) a1 =
      ({ prevs := [],
         seg := { used := 1, data := [a1, NULL, NULL, NULL] },
         nexts := [],
         idx := 0, size := 4, icnt := 1, ncnt := 1 } : fr_s) := rfl
  rw [h1]
  have h2 : fr_insert
      ({ prevs := [],
         seg := { used := 1, data := [a1, NULL, NULL, NULL] },
         nexts := [],
         idx := 0, size := 4, icnt := 1, ncnt := 1 } : fr_s) a2 =
      ({ prevs := [],
         seg := { used := 2, data := [a2, a1, NULL, NULL] },
         nexts := [],
         idx := 0, size := 4, icnt := 2, ncnt := 1 } : fr_s) := rfl
  rw [h2]
  have h3 : fr_insert
      ({ prevs := [],
         seg := { used := 2, data := [a2, a1, NULL, NULL] },
         nexts := [],
         idx := 0, size := 4, icnt := 2, ncnt := 1 } : fr_s) a3 =
      ({ prevs := [],
         seg := { used := 3, data := [a3, a2, a1, NULL] },
         nexts := [],
         idx := 0, size := 4, icnt := 3, ncnt := 1 } : fr_s) := rfl
  rw [h3]
  have h4 : fr_insert
      ({ prevs := [],
         seg := { used := 3, data := [a3, a2, a1, NULL] },
         nexts := [],
         idx := 0, size := 4, icnt := 3, ncnt := 1 } : fr_s) a4 =
      ({ prevs := [],
         seg := { used := 4, data := [a4, a3, a2, a1] },
         nexts := [],
         idx := 0, size := 4, icnt := 4, ncnt := 1 } : fr_s) := rfl
  rw [h4]
  have h5 : fr_insert
      ({ prevs := [],
         seg := { used := 4, data := [a4, a3, a2, a1] },
         nexts := [],
         idx := 0, size := 4, icnt := 4, ncnt := 1 } : fr_s) a5 =
      ({ prevs := [],
         seg := { used := 2, data := [a5, a4, a2, a1] },
         nexts := [{ used := 3, data := [a3, a3, a2, a1] }],
         idx := 0, size := 4, icnt := 5, ncnt := 2 } : fr_s) := rfl
  rw [h5]
  have h6 : fr_insert
      ({ prevs := [],
         seg := { used := 2, data := [a5, a4, a2, a1] },
         nexts := [{ used := 3, data := [a3, a3, a2, a1] }],
         idx := 0, size := 4, icnt := 5, ncnt := 2 } : fr_s) a6 =
      ({ prevs := [],
         seg := { used := 3, data := [a6, a5, a4, a1] },
         nexts := [{ used := 3, data := [a3, a3, a2, a1] }],
         idx := 0, size := 4, icnt := 6, ncnt := 2 } : fr_s) := rfl
  rw [h6]
  have h7 : fr_insert
      ({ prevs := [],
         seg := { used := 3, data := [a6, a5, a4, a1] },
         nexts := [{ used := 3, data := [a3, a3, a2, a1] }],
         idx := 0, size := 4, icnt := 6, ncnt := 2 } : fr_s) a7 =
      ({ prevs := [],
         seg := { used := 4, data := [a7, a6, a5, a4] },
         nexts := [{ used := 3, data := [a3, a3, a2, a1] }],
         idx := 0, size := 4, icnt := 7, ncnt := 2 } : fr_s) := rfl
  rw [h7]
  have h8 : fr_insert
      ({ prevs := [],
         seg := { used := 4, data := [a7, a6, a5, a4] },
         nexts := [{ used := 3, data := [a3, a3, a2, a1] }],
         idx := 0, size := 4, icnt := 7, ncnt := 2 } : fr_s) a8 =
      ({ prevs := [],
         seg := { used := 2, data := [a8, a7, a5, a4] },
         nexts := [{ used := 3, data := [a6, a6, a5, a4] },
           { used := 3, data := [a3, a3, a2, a1] }],
         idx := 0, size := 4, icnt := 8, ncnt := 3 } : fr_s) := rfl
  rw [h8]
  have h9 : fr_insert
      ({ prevs := [],
         seg := { used := 2, data := [a8, a7, a5, a4] },
         nexts := [{ used := 3, data := [a6, a6, a5, a4] },
           { used := 3, data := [a3, a3, a2, a1] }],
         idx := 0, size := 4, icnt := 8, ncnt := 3 } : fr_s) a9 =
      ({ prevs := [],
         seg := { used := 3, data := [a9, a8, a7, a4] },
         nexts := [{ used := 3, data := [a6, a6, a5, a4] },
           { used := 3, data := [a3, a3, a2, a1] }],
         idx := 0, size := 4, icnt := 9, ncnt := 3 } : fr_s) := rfl
  rw [h9]
  have h10 : fr_insert
      ({ prevs := [],
         seg := { used := 3, data := [a9, a8, a7, a4] },
         nexts := [{ used := 3, data := [a6, a6, a5, a4] },
           { used := 3, data := [a3, a3, a2, a1] }],
         idx := 0, size := 4, icnt := 9, ncnt := 3 } : fr_s) a10 =
      ({ prevs := [],
         seg := { used := 4, data := [a10, a9, a8, a7] },
         nexts := [{ used := 3, data := [a6, a6, a5, a4] },
           { used := 3, data := [a3, a3, a2, a1] }],
         idx := 0, size := 4, icnt := 10, ncnt := 3 } : fr_s) := rfl
  rw [h10]
  have h11 : fr_insert
      ({ prevs := [],
         seg := { used := 4, data := [a10, a9, a8, a7] },
         nexts := [{ used := 3, data := [a6, a6, a5, a4] },
           { used := 3, data := [a3, a3, a2, a1] }],
         idx := 0, size := 4, icnt := 10, ncnt := 3 } : fr_s) a11 =
      ({ prevs := [],
         seg := { used := 2, data := [a11, a10, a8, a7] },
         nexts := [{ used := 3, data := [a9, a9, a8, a7] },
           { used := 3, data := [a6, a6, a5, a4] },
           { used := 3, data := [a3, a3, a2, a1] }],
         idx := 0, size := 4, icnt := 11, ncnt := 4 } : fr_s) := rfl
  rw [h11]
  have h12 : fr_insert
      ({ prevs := [],
         seg := { used := 2, data := [a11, a10, a8, a7] },
         nexts := [{ used := 3, data := [a9, a9, a8, a7] },
           { used := 3, data := [a6, a6, a5, a4] },
           { used := 3, data := [a3, a3, a2, a1] }],
         idx := 0, size := 4, icnt := 11, ncnt := 4 } : fr_s) a12 =
      ({ prevs := [],
         seg := { used := 3, data := [a12, a11, a10, a7] },
         nexts := [{ used := 3, data := [a9, a9, a8, a7] },
           { used := 3, data := [a6, a6, a5, a4] },
           { used := 3, data := [a3, a3, a2, a1] }],
         idx := 0, size := 4, icnt := 12, ncnt := 4 } : fr_s) := rfl
  rw [h12]
  have h13 : fr_insert
      ({ prevs := [],
         seg := { used := 3, data := [a12, a11, a10, a7] },
         nexts := [{ used := 3, data := [a9, a9, a8, a7] },
           { used := 3, data := [a6, a6, a5, a4] },
           { used := 3, data := [a3, a3, a2, a1] }],
         idx := 0, size := 4, icnt := 12, ncnt := 4 } : fr_s) a13 =
      ({ prevs := [],
         seg := { used := 4, data := [a13, a12, a11, a10] },
         nexts := [{ used := 3, data := [a9, a9, a8, a7] },
           { used := 3, data := [a6, a6, a5, a4] },
           { used := 3, data := [a3, a3, a2, a1] }],
         idx := 0, size := 4, icnt := 13, ncnt := 4 } : fr_s) := rfl
  rw [h13]

/-- C26: capacity 4, thirteen calls of `fr_insert` on a fresh container, the
cursor never moved by the caller (whatever the items): `fr_node_count` returns
4 and `fr_length` returns 13. -/
theorem head_inserts_counts (a1 a2 a3 a4 a5 a6 a7 a8 a9 a10 a11 a12 a13 : Item) :
    fr_node_count ([a1, a2, a3, a4, a5, a6, a7, a8, a9, a10, a11, a12, a13].foldl fr_insert
      (fr_create_sized 4)) = 4 ∧
    fr_length ([a1, a2, a3, a4, a5, a6, a7, a8, a9, a10, a11, a12, a13].foldl fr_insert
      (fr_create_sized 4)) = 13 := by
  rw [head_inserts_state]
  exact ⟨rfl, rfl⟩

/-- C27 (fails on the code): capacity 4, chain `[1] - [2,3,4,5]`, cursor on `1`.
`fr_even` returns 1 with `cnt = 1`: the cursor's segment becomes `[1,2]`, but
`memmove( next->data, &next->data[ cnt ], cnt )` moves one item, not the three
that remain, so the next segment is left as `[3,3,4]` instead of `[3,4,5]` and
the sequence becomes `1,2,3,3,4`. -/
theorem fr_even_next_moves_cnt_only :
    WellFormed ex_one_then_full ∧ OnItem ex_one_then_full ∧
    ex_one_then_full.toList = [1, 2, 3, 4, 5] ∧
    (fr_even ex_one_then_full).2 = 1 ∧
    (fr_even ex_one_then_full).1.seg.items = [1, 2] ∧
    (fr_even ex_one_then_full).1.nexts.map fn_s.items = [[3, 3, 4]] ∧
    (fr_even ex_one_then_full).1.toList = [1, 2, 3, 3, 4] :=
  ⟨⟨by decide, by decide, by decide, by decide, by decide, by decide, by decide, by decide⟩,
    by decide, by decide, by decide, by decide, by decide, by decide⟩

/-- C28 (fails on the code): capacity 8, chain `[1,2,3,4,5,6,7,8] - [9]`, cursor
on `9`.  `fr_even` returns 1 with `cnt = 3`; the previous segment keeps
`1,2,3,4,5`, but `memmove( &data[ used ], data, cnt )` moves three slots up by
one instead of the one item up by three, and the copy of `6,7,8` then
overwrites the item `9`: the cursor's segment is left as `[6,7,8,NULL]`, the
sequence is `1,2,3,4,5,6,7,8,NULL`, and the cursor (index 3) references the
null slot. -/
theorem fr_even_prev_overwrites_items :
    WellFormed ex_full8_then_one ∧ OnItem ex_full8_then_one ∧
    fr_item ex_full8_then_one = 9 ∧
    ex_full8_then_one.toList = [1, 2, 3, 4, 5, 6, 7, 8, 9] ∧
    (fr_even ex_full8_then_one).2 = 1 ∧
    (fr_even ex_full8_then_one).1.prevs.map fn_s.items = [[1, 2, 3, 4, 5]] ∧
    (fr_even ex_full8_then_one).1.seg.items = [6, 7, 8, NULL] ∧
    (fr_even ex_full8_then_one).1.toList = [1, 2, 3, 4, 5, 6, 7, 8, NULL] ∧
    (fr_even ex_full8_then_one).1.idx = 3 ∧
    fr_item (fr_even ex_full8_then_one).1 = NULL :=
  ⟨⟨by decide, by decide, by decide, by decide, by decide, by decide, by decide, by decide⟩,
    by decide, by decide, by decide, by decide, by decide, by decide, by decide, by decide,
    by decide⟩

/-- C30 (fails on the code): capacity 4, chain `[1,2,3,4] - [5,6]` (the unused
slots of the second segment hold the stale references `7, 8`), cursor on `4`
(index 3, `cnt = 1`, two free slots in the next segment).  `fr_insert` of `9`
takes the fit-right branch without allocating; `memmove( &next->data[ cnt ],
next->data, cnt )` moves one item of the next segment up, not its two, so the
next segment is left as `[4,5,7]` instead of `[4,5,6]`: the item `6` is lost
and the sequence is `1,2,3,9,4,5,7`. -/
theorem fr_insert_fit_right_moves_cnt_only :
    WellFormed ex_full_then_two ∧ OnItem ex_full_then_two ∧
    half_seg ex_full_then_two.size ≤ ex_full_then_two.idx ∧
    fr_item ex_full_then_two = 4 ∧
    ex_full_then_two.nexts.map fn_s.items = [[5, 6]] ∧
    fr_node_count (fr_insert ex_full_then_two 9) = fr_node_count ex_full_then_two ∧
    (fr_insert ex_full_then_two 9).seg.items = [1, 2, 3, 9] ∧
    (fr_insert ex_full_then_two 9).nexts.map fn_s.items = [[4, 5, 7]] ∧
    (fr_insert ex_full_then_two 9).toList = [1, 2, 3, 9, 4, 5, 7] :=
  ⟨⟨by decide, by decide, by decide, by decide, by decide, by decide, by decide, by decide⟩,
    by decide, by decide, by decide, by decide, by decide, by decide, by decide, by decide⟩

/-! ### Tail length -/

theorem foldl_add_used (l : List fn_s) (c : Int) :
    l.foldl (fun cnt s => cnt + s.used) c = c + (l.map fn_s.used).sum := by
  induction l generalizing c with
  | nil => simp
  | cons a l ih =>
    simp only [List.foldl_cons, List.map_cons, List.sum_cons, ih]
    omega

theorem length_flatMap_items (size : Int) (l : List fn_s) (h : ∀ s ∈ l, seg_ok size s) :
    ((l.flatMap fn_s.items).length : Int) = (l.map fn_s.used).sum := by
  induction l with
  | nil => simp
  | cons a l ih =>
    obtain ⟨ha, hl⟩ := List.forall_mem_cons.mp h
    have h1 := length_items a (by have := ha.1; omega) (by have := ha.2.1; have := ha.2.2; omega)
    simp only [List.flatMap_cons, List.length_append, List.map_cons, List.sum_cons, Nat.cast_add,
      ih hl, h1]

theorem fr_tail_length_eq (pos : fr_s) :
    fr_tail_length pos = pos.seg.used - pos.idx + (pos.nexts.map fn_s.used).sum := by
  unfold fr_tail_length
  rw [foldl_add_used]

/-- C23: tail length.  On a well-formed chain with a valid cursor,
`fr_tail_length` returns the number of items of the chain minus the logical
position of the cursor, which is the number of items from the cursor to the
end; it equals `fr_length` at the first position, is 1 on the last item, and
is one less after every successful `fr_next`.  The position is a value and is
not modified. -/
theorem tail_length_spec (pos : fr_s) (hwf : WellFormed pos) (hcur : ValidCursor pos) :
    (pos.toList.length : Int) = fr_length pos ∧
    fr_tail_length pos = fr_length pos - (pos.position : Int) ∧
    fr_tail_length pos = (pos.tail.length : Int) ∧
    (AtStart pos → fr_tail_length pos = fr_length pos) ∧
    (OnItem pos → AtEnd pos → fr_tail_length pos = 1) ∧
    ((fr_next pos).2 = 1 → fr_tail_length (fr_next pos).1 = fr_tail_length pos - 1) := by
  have hp := length_flatMap_items pos.size pos.prevs hwf.prevs_ok
  have hn := length_flatMap_items pos.size pos.nexts hwf.nexts_ok
  have hs := length_items pos.seg hwf.used_nonneg (by have := hwf.used_le; have := hwf.data_len; omega)
  have hi := hwf.icnt_eq
  rw [sumUsed_eq] at hi
  have hidx : 0 ≤ pos.idx ∧ pos.idx ≤ pos.seg.used := by
    rcases hcur with ⟨h0, h1⟩ | ⟨h0, h1⟩
    · exact ⟨h0, by omega⟩
    · exact ⟨by omega, by omega⟩
  have hprev : ((pos.prevs.reverse.flatMap fn_s.items).length : Int) =
      (pos.prevs.map fn_s.used).sum := by
    rw [← hp]
    simp [List.flatMap, List.length_flatten, List.map_reverse, List.sum_reverse]
  have h1 : (pos.toList.length : Int) = fr_length pos := by
    rw [toList_eq]
    simp only [List.length_append, Nat.cast_add, hprev, hs, hn]
    unfold fr_length
    omega
  have h2 : fr_tail_length pos = fr_length pos - (pos.position : Int) := by
    rw [fr_tail_length_eq]
    unfold fr_length fr_s.position
    rw [Nat.cast_add, hprev, Int.toNat_of_nonneg hidx.1]
    omega
  have h3 : fr_tail_length pos = (pos.tail.length : Int) := by
    rw [fr_tail_length_eq]
    unfold fr_s.tail
    rw [List.length_append, List.length_drop, Nat.cast_add, hn]
    omega
  refine ⟨h1, h2, h3, ?_, ?_, ?_⟩
  · intro hst
    rw [h2]
    unfold fr_s.position
    rw [hst.1, hst.2]
    simp
  · intro hon hend
    rw [fr_tail_length_eq, hend.1]
    have := hon.2
    rcases hend.2 with ⟨_, e⟩ | ⟨e, _⟩
    · simp only [List.map_nil, List.sum_nil]
      omega
    · omega
  · intro hr
    rw [fr_tail_length_eq, fr_tail_length_eq]
    unfold fr_next at hr ⊢
    by_cases c : pos.idx < pos.seg.used - 1
    · rw [if_pos c]
      simp only
      omega
    · rw [if_neg c] at hr ⊢
      cases hnx : pos.nexts with
      | nil =>
        rw [hnx] at hr
        simp at hr
      | cons n ns =>
        simp only [List.map_cons, List.sum_cons]
        rcases hcur with ⟨h0, h1⟩ | ⟨h0, h1⟩
        · omega
        · have := (hwf.sole_if_empty h0).2
          rw [hnx] at this
          cases this

/-- Witness of `tail_length_spec`: three full segments `1..12` (capacity 4) with
the cursor on the item `6` (logical position 5): the tail length is 7, and 6
after `fr_next`. -/
theorem tail_length_spec_witness :
    WellFormed ex_three_full_at6 ∧ ValidCursor ex_three_full_at6 ∧
    fr_tail_length ex_three_full_at6 = 7 ∧ fr_length ex_three_full_at6 = 12 ∧
    ex_three_full_at6.position = 5 ∧
    fr_tail_length (fr_next ex_three_full_at6).1 = fr_tail_length ex_three_full_at6 - 1 :=
  ⟨wf_ex_three_full_at6, by decide, by decide, by decide, by decide,
    (tail_length_spec ex_three_full_at6 wf_ex_three_full_at6 (by decide)).2.2.2.2.2
      (by decide)⟩

/-! ### The merge branch of `fr_even` -/

theorem take_memcpy_append (d nd : List Item) (u n : Int) (hu : 0 ≤ u) (hn : 0 ≤ n)
    (hd : u + n ≤ (d.length : Int)) (hnd : n ≤ (nd.length : Int)) :
    (memcpy d u nd 0 n).take (u + n).toNat = d.take u.toNat ++ nd.take n.toNat := by
  apply List.ext_getElem?
  intro i
  rw [List.getElem?_take, getElem?_memcpy, List.getElem?_append, List.length_take,
    List.getElem?_take, List.getElem?_take]
  by_cases c1 : (i : Int) < u
  · rw [if_pos (by omega), if_neg (by omega), if_pos (by omega), if_pos (by omega)]
  · by_cases c2 : (i : Int) < u + n
    · rw [if_pos (by omega), if_pos ⟨by omega, by omega, by omega⟩, if_neg (by omega),
        if_pos (by omega)]
      exact some_rd nd _ _ (by omega) (by omega)
    · rw [if_neg (by omega), if_neg (by omega), if_neg (by omega)]

theorem rd_memcpy_below (d nd : List Item) (u s n i : Int) (h : i < u) :
    rd (memcpy d u nd s n) i = rd d i := by
  unfold rd
  by_cases c : 0 ≤ i
  · rw [if_pos c, if_pos c, List.getD_eq_getElem?_getD, List.getD_eq_getElem?_getD,
      getElem?_memcpy, if_neg (by omega)]
  · rw [if_neg c, if_neg c]

/-- C29: the merge branch of `fr_even`.  On a well-formed chain with a valid
cursor, whenever `fr_even` returns 2 the next segment is unlinked (the
segments after it follow the cursor's segment directly, those before are
untouched), the cursor's segment holds its own items followed by the items of
the former next segment, `used` is the sum of both, the node count is one
less, and the item count, the logical item sequence, the cursor index and the
item under the cursor are unchanged; the chain is still well formed. -/
theorem fr_even_merge (pos : fr_s) (hwf : WellFormed pos) (hcur : ValidCursor pos)
    (h : (fr_even pos).2 = 2) :
    ∃ next ns, pos.nexts = next :: ns ∧
      (fr_even pos).1.nexts = ns ∧ (fr_even pos).1.prevs = pos.prevs ∧
      (fr_even pos).1.seg.items = pos.seg.items ++ next.items ∧
      (fr_even pos).1.seg.used = pos.seg.used + next.used ∧
      fr_node_count (fr_even pos).1 = fr_node_count pos - 1 ∧
      fr_length (fr_even pos).1 = fr_length pos ∧
      (fr_even pos).1.toList = pos.toList ∧
      (fr_even pos).1.idx = pos.idx ∧
      fr_item (fr_even pos).1 = fr_item pos ∧
      WellFormed (fr_even pos).1 := by
  obtain ⟨hp, hn, h0, h1, hl, he, hi, hc⟩ := hwf
  rw [sumUsed_eq] at hi
  rw [chain_length] at hc
  obtain ⟨prevs, seg, nexts, idx, size, icnt, ncnt⟩ := pos
  simp only at hp hn h0 h1 hl he hi hc
  cases nexts with
  | nil =>
    exfalso
    unfold fr_even at h
    simp only at h
    cases prevs with
    | nil => simp at h
    | cons q qs =>
      simp only at h
      by_cases c : seg.used * 2 < size
      · rw [if_pos c] at h
        simp at h
      · rw [if_neg c] at h
        simp at h
  | cons next ns =>
    obtain ⟨hnx, hns⟩ := List.forall_mem_cons.mp hn
    obtain ⟨n1, n2, n3⟩ := hnx
    have hidx : idx < seg.used := by
      rcases hcur with ⟨_, c⟩ | ⟨c, _⟩
      · exact c
      · have := (he c).2
        cases this
    unfold fr_even at h ⊢
    simp only at h ⊢
    by_cases c : seg.used + next.used ≤ size
    · rw [if_pos c]
      have hitems : (fn_s.mk (seg.used + next.used)
          (memcpy seg.data seg.used next.data 0 next.used)).items =
          seg.items ++ next.items := by
        unfold fn_s.items
        exact take_memcpy_append seg.data next.data seg.used next.used h0 (by omega) (by omega)
          (by omega)
      refine ⟨next, ns, rfl, rfl, rfl, hitems, rfl, rfl, rfl, ?_, rfl, ?_, ?_⟩
      · rw [toList_eq, toList_eq]
        simp only [List.flatMap_cons]
        rw [hitems, List.append_assoc]
      · unfold fr_item
        exact rd_memcpy_below _ _ _ _ _ _ hidx
      · refine WellFormed.intro hp hns ?_ ?_ ?_ ?_ ?_ ?_
        · simp only; omega
        · simp only; omega
        · simp only [length_memcpy]; exact hl
        · simp only; intro hh; omega
        · simp only [List.map_cons, List.sum_cons] at hi ⊢; omega
        · simp only [List.length_cons] at hc ⊢; push_cast at hc ⊢; omega
    · rw [if_neg c] at h
      exfalso
      by_cases c2 : seg.used * 2 < size
      · rw [if_pos c2] at h
        simp at h
      · rw [if_neg c2] at h
        simp at h

/-- Witness of `fr_even_merge`: capacity 8, chain `[1] - [2] - [3..10]` with the
cursor on `1`; the first two segments are merged into `[1,2]`. -/
theorem fr_even_merge_witness :
    WellFormed ex_two_small_then_full ∧ ValidCursor ex_two_small_then_full ∧
    (fr_even ex_two_small_then_full).2 = 2 ∧
    (fr_even ex_two_small_then_full).1.seg.items = [1, 2] ∧
    ∃ next ns, ex_two_small_then_full.nexts = next :: ns ∧
      (fr_even ex_two_small_then_full).1.nexts = ns :=
  ⟨⟨by decide, by decide, by decide, by decide, by decide, by decide, by decide, by decide⟩,
    by decide, by decide, by decide,
    (fr_even_merge ex_two_small_then_full
      ⟨by decide, by decide, by decide, by decide, by decide, by decide, by decide, by decide⟩
      (by decide) (by decide)).imp
      (fun _ hx => hx.imp (fun _ hy => ⟨hy.1, hy.2.1⟩))⟩

/-! ### Iteration -/

/-- One step of the iteration from a cursor on an item: the item under the
cursor heads the rest of the sequence, and `fr_next` either fails, with
nothing left, or moves to a cursor on an item whose tail is the rest. -/
theorem fr_next_tail (pos : fr_s) (hwf : WellFormed pos) (hon : OnItem pos) :
    ((fr_next pos).2 = 0 ∧ pos.tail = [fr_item pos]) ∨
    ((fr_next pos).2 ≠ 0 ∧ WellFormed (fr_next pos).1 ∧ OnItem (fr_next pos).1 ∧
      pos.tail = fr_item pos :: (fr_next pos).1.tail) := by
  have hs := fr_next_settled pos hwf hon
  rw [tail_cons pos hwf hon]
  by_cases cend : ¬ pos.idx < pos.seg.used - 1 ∧ pos.nexts = []
  · left
    have hd : pos.seg.items.drop (pos.idx.toNat + 1) = [] := by
      apply List.drop_eq_nil_of_le
      have hlen := length_items pos.seg hwf.used_nonneg
        (by have := hwf.data_len; have := hwf.used_le; omega)
      have := hon.1
      have := hon.2
      omega
    refine ⟨?_, ?_⟩
    · unfold fr_next
      rw [if_neg cend.1, cend.2]
    · rw [hd, cend.2]
      rfl
  · right
    have hlen := length_items pos.seg hwf.used_nonneg
      (by have := hwf.data_len; have := hwf.used_le; omega)
    have key : (fr_next pos).2 ≠ 0 ∧ (fr_next pos).1.tail =
        pos.seg.items.drop (pos.idx.toNat + 1) ++ pos.nexts.flatMap fn_s.items := by
      unfold fr_next
      by_cases c : pos.idx < pos.seg.used - 1
      · rw [if_pos c]
        simp only [fr_s.tail]
        have : (pos.idx + 1).toNat = pos.idx.toNat + 1 := by have := hon.1; omega
        rw [this]
        exact ⟨by decide, rfl⟩
      · rw [if_neg c]
        have hd : pos.seg.items.drop (pos.idx.toNat + 1) = [] := by
          apply List.drop_eq_nil_of_le
          have := hon.1
          have := hon.2
          omega
        rw [hd]
        cases hnx : pos.nexts with
        | nil => exact absurd ⟨c, hnx⟩ cend
        | cons m ms =>
          simp only
          refine ⟨by decide, ?_⟩
          simp [fr_s.tail, List.flatMap_cons]
    exact ⟨key.1, hs.wf, hs.cur, by rw [key.2]⟩

/-- From a cursor on an item of a well-formed chain the `fr_each` loop runs its
body with the items from the cursor to the end of the chain, in order, and
ends, as soon as it is granted that many runs. -/
theorem fr_each_on_item (fuel : Nat) (pos : fr_s) (hwf : WellFormed pos) (hon : OnItem pos)
    (hfuel : pos.tail.length ≤ fuel) : fr_each fuel pos = some pos.tail := by
  unfold fr_each
  induction fuel generalizing pos with
  | zero =>
    exfalso
    rcases fr_next_tail pos hwf hon with ⟨_, e⟩ | ⟨_, _, _, e⟩ <;>
      · rw [e] at hfuel
        simp at hfuel
  | succ fuel ih =>
    rw [each_loop]
    unfold fr_next_item
    rcases fr_next_tail pos hwf hon with ⟨e0, e⟩ | ⟨e0, w, o, e⟩
    · rw [if_pos e0, e]
      simp only [each_loop]
      rfl
    · rw [if_neg e0]
      simp only
      rw [ih (fr_next pos).1 w o (by rw [e] at hfuel; simpa using hfuel), e]
      rfl

/-- C22 (fails on the code): on an empty container the body of `fr_each` runs
once.  Fresh container of capacity 4: the chain is well formed, the cursor is
valid, `fr_tail_length` is 0 and there is no item, but `( iter )->seg` is not
null when the loop is entered: the body is run with the content of slot 0 of
the empty segment (null), and only the following `fr_next_item` ends the
loop.  From a cursor on an item the loop visits the tail: three full segments
`1..12` from the item `6`. -/
theorem fr_each_runs_on_empty :
    WellFormed (fr_create_sized 4) ∧ ValidCursor (fr_create_sized 4) ∧
    (fr_create_sized 4).toList = [] ∧ fr_tail_length (fr_create_sized 4) = 0 ∧
    (∀ fuel : Nat, fr_each (fuel + 1) (fr_create_sized 4) = some [NULL]) ∧
    fr_tail_length ex_three_full_at6 = 7 ∧
    fr_each 7 ex_three_full_at6 = some [6, 7, 8, 9, 10, 11, 12] := by
  refine ⟨⟨by decide, by decide, by decide, by decide, by decide, by decide, by decide,
    by decide⟩, by decide, by decide, by decide, ?_, by decide, by decide⟩
  intro fuel
  cases fuel <;> rfl

/-! ### Relations between the basic calls -/

/-- C39: single steps are mutually inverse.  On a well-formed chain with a valid
cursor, if `fr_next` returns 1 then `fr_prev` on the position it leaves returns 1
and restores the position (segment and index), and if `fr_prev` returns 1 then
`fr_next` on the position it leaves returns 1 and restores the position. -/
theorem steps_inverse (pos : fr_s) (hwf : WellFormed pos) (hcur : ValidCursor pos) :
    ((fr_next pos).2 = 1 → fr_prev (fr_next pos).1 = (pos, 1)) ∧
    ((fr_prev pos).2 = 1 → fr_next (fr_prev pos).1 = (pos, 1)) := by
  obtain ⟨hp, hn, h0, h1, hl, he, hi, hc⟩ := hwf
  obtain ⟨prevs, seg, nexts, idx, size, icnt, ncnt⟩ := pos
  simp only at hp hn h0 h1 hl he hi hc
  have hidx : 0 ≤ idx ∧ idx ≤ seg.used := by
    rcases hcur with ⟨a, b⟩ | ⟨a, b⟩
    · simp only at a b
      omega
    · simp only at a b
      omega
  refine ⟨?_, ?_⟩
  · intro h
    unfold fr_next at h ⊢
    simp only at h ⊢
    by_cases c : idx < seg.used - 1
    · rw [if_pos c]
      unfold fr_prev
      simp only
      rw [if_pos (by omega)]
      have e : idx + 1 - 1 = idx := by omega
      rw [e]
    · rw [if_neg c] at h ⊢
      cases nexts with
      | nil => simp at h
      | cons n ns =>
        simp only
        unfold fr_prev
        simp only
        rw [if_neg (by omega)]
        have hu : seg.used ≠ 0 := by
          intro hz
          have := (he hz).2
          cases this
        have hon : idx < seg.used := by
          rcases hcur with ⟨a, b⟩ | ⟨a, b⟩
          · exact b
          · exact absurd a hu
        have e : seg.used - 1 = idx := by omega
        rw [e]
  · intro h
    unfold fr_prev at h ⊢
    simp only at h ⊢
    by_cases c : idx > 0
    · rw [if_pos c]
      unfold fr_next
      simp only
      have hon : idx < seg.used := by
        rcases hcur with ⟨a, b⟩ | ⟨a, b⟩
        · exact b
        · simp only at b
          omega
      rw [if_pos (by omega)]
      have e : idx - 1 + 1 = idx := by omega
      rw [e]
    · rw [if_neg c] at h ⊢
      cases prevs with
      | nil => simp at h
      | cons q qs =>
        simp only
        unfold fr_next
        simp only
        rw [if_neg (by omega)]
        have e : idx = 0 := by omega
        rw [e]

/-- Witness of `steps_inverse`: three full segments (capacity 4), the cursor on
the item `6`. -/
theorem steps_inverse_witness :
    WellFormed ex_three_full_at6 ∧ ValidCursor ex_three_full_at6 ∧
    (fr_next ex_three_full_at6).2 = 1 ∧
    fr_prev (fr_next ex_three_full_at6).1 = (ex_three_full_at6, 1) ∧
    (fr_prev ex_three_full_at6).2 = 1 ∧
    fr_next (fr_prev ex_three_full_at6).1 = (ex_three_full_at6, 1) :=
  ⟨wf_ex_three_full_at6, by decide, by decide,
    (steps_inverse ex_three_full_at6 wf_ex_three_full_at6 (by decide)).1 (by decide),
    by decide, by decide⟩

/-- C38: `fr_push` refines `fr_append` at the end.  On a well-formed chain whose
cursor is on the last item of the sequence, or whose container is empty, and
for every item, `fr_push` and `fr_append` leave the same position: the same
chain, counters and cursor. -/
theorem push_refines_append (pos : fr_s) (item : Item) (hwf : WellFormed pos)
    (hend : AtEnd pos) :
    fr_push pos item = fr_append pos item ∧
    (fr_push pos item).chain = (fr_append pos item).chain ∧
    fr_length (fr_push pos item) = fr_length (fr_append pos item) ∧
    fr_node_count (fr_push pos item) = fr_node_count (fr_append pos item) ∧
    (fr_push pos item).seg = (fr_append pos item).seg ∧
    (fr_push pos item).idx = (fr_append pos item).idx := by
  have e := fr_push_eq_append pos item hwf hend
  rw [e]
  exact ⟨rfl, rfl, rfl, rfl, rfl, rfl⟩

/-- Witness of `push_refines_append`: the chain `[1,2,3,4] - [5]` (capacity 4) with
the cursor on the last item `5`. -/
theorem push_refines_append_witness :
    WellFormed ex_one_after_full ∧ AtEnd ex_one_after_full ∧
    fr_push ex_one_after_full 6 = fr_append ex_one_after_full 6 :=
  ⟨wf_ex_one_after_full, by decide,
    (push_refines_append ex_one_after_full 6 wf_ex_one_after_full (by decide)).1⟩

/-- In a well-formed chain of more than one segment no segment is empty. -/
theorem wf_no_empty_segment (pos : fr_s) (hwf : WellFormed pos)
    (hmulti : pos.prevs ≠ [] ∨ pos.nexts ≠ []) : ∀ s ∈ pos.chain, 1 ≤ s.used := by
  intro s hs
  unfold fr_s.chain at hs
  rcases List.mem_append.mp hs with h | h
  · exact (hwf.prevs_ok s (List.mem_reverse.mp h)).1
  · rcases List.mem_cons.mp h with h | h
    · rw [h]
      by_contra c
      have h0 := hwf.used_nonneg
      have hz : pos.seg.used = 0 := by omega
      obtain ⟨a, b⟩ := hwf.sole_if_empty hz
      rcases hmulti with m | m
      · exact m a
      · exact m b
    · exact (hwf.nexts_ok s h).1

/-- C36: well-formedness is preserved by the basic mutators.  On a well-formed
chain of capacity at least `FR_SEG_MIN` with a valid cursor, `fr_insert`,
`fr_append`, `fr_delete`, `fr_push` and `fr_pop` (the last two are called with
the cursor on the last item; the proof does not need it) leave a well-formed
chain of the same capacity with a valid cursor: the cursor index is within
`[0, used)` of its segment, or 0 in the empty container, and no segment of a
chain of more than one segment has `used = 0`. -/
theorem mutators_keep_wellformed (o : Op) (pos : fr_s) (hwf : WellFormed pos)
    (hsz : FR_SEG_MIN ≤ pos.size) (hcur : ValidCursor pos) :
    WellFormed (o.run pos) ∧ ValidCursor (o.run pos) ∧ (o.run pos).size = pos.size ∧
    (OnItem (o.run pos) ∨ ((o.run pos).seg.used = 0 ∧ (o.run pos).idx = 0 ∧
      (o.run pos).prevs = [] ∧ (o.run pos).nexts = [])) ∧
    ((o.run pos).prevs ≠ [] ∨ (o.run pos).nexts ≠ [] → ∀ s ∈ (o.run pos).chain, 1 ≤ s.used) := by
  have hsz4 : (4 : Int) ≤ pos.size := hsz
  have hpos : 0 < pos.size := by omega
  have hk : Kept pos (o.run pos) := by
    cases o with
    | insert item =>
      exact (fr_insert_settled pos item hwf hpos (insertCursor_of_valid pos hpos hcur)).kept
    | append item => exact (fr_append_settled pos item hwf hpos hcur).kept
    | delete => exact fr_delete_kept pos hwf hcur
    | push item => exact (fr_push_settled pos item hwf hpos hcur).kept
    | pop => exact fr_pop_kept pos hwf hcur
  refine ⟨hk.wf, hk.cur, hk.size_eq, ?_, wf_no_empty_segment _ hk.wf⟩
  rcases hk.cur with h | ⟨h1, h2⟩
  · exact Or.inl h
  · obtain ⟨a, b⟩ := hk.wf.sole_if_empty h1
    exact Or.inr ⟨h1, h2, a, b⟩

/-- Witness of `mutators_keep_wellformed`: an insert at the cursor of the chain
`[1,2,3,4] - [5]` (capacity 4). -/
theorem mutators_keep_wellformed_witness :
    WellFormed ex_one_after_full ∧ FR_SEG_MIN ≤ ex_one_after_full.size ∧
    ValidCursor ex_one_after_full ∧ WellFormed (fr_insert ex_one_after_full 9) ∧
    WellFormed (fr_delete ex_one_after_full).1 :=
  ⟨wf_ex_one_after_full, by decide, by decide,
    (mutators_keep_wellformed (Op.insert 9) ex_one_after_full wf_ex_one_after_full (by decide)
      (by decide)).1,
    (fr_delete_kept ex_one_after_full wf_ex_one_after_full (by decide)).wf⟩

/-! ### The segment counter -/

theorem ncntGap_mk (prevs : List fn_s) (seg : fn_s) (nexts : List fn_s)
    (idx size icnt ncnt : Int) :
    (fr_s.mk prevs seg nexts idx size icnt ncnt).ncntGap =
      ncnt - ((prevs.length : Int) + 1 + (nexts.length : Int)) := by
  unfold fr_s.ncntGap
  rw [chain_length]

theorem fr_even_ncnt (pos : fr_s) : (fr_even pos).1.ncntGap = pos.ncntGap := by
  obtain ⟨prevs, seg, nexts, idx, size, icnt, ncnt⟩ := pos
  unfold fr_even
  simp only
  cases nexts with
  | nil =>
    cases prevs with
    | nil => rfl
    | cons q qs =>
      simp only
      by_cases c : seg.used * 2 < size
      · rw [if_pos c]
        simp only [ncntGap_mk, List.length_cons]
      · rw [if_neg c]
  | cons n ns =>
    simp only
    by_cases c : seg.used + n.used ≤ size
    · rw [if_pos c]
      simp only [ncntGap_mk, List.length_cons]
      push_cast
      omega
    · rw [if_neg c]
      by_cases c2 : seg.used * 2 < size
      · rw [if_pos c2]
        simp only [ncntGap_mk, List.length_cons]
      · rw [if_neg c2]

theorem insert_shift_ncnt (pos : fr_s) (item : Item) :
    (insert_shift pos item).ncntGap = pos.ncntGap := by
  obtain ⟨prevs, seg, nexts, idx, size, icnt, ncnt⟩ := pos
  unfold insert_shift
  simp only [ncntGap_mk]

theorem insert_split_ncnt (pos : fr_s) (item : Item) :
    (insert_split pos item).ncntGap = pos.ncntGap := by
  obtain ⟨prevs, seg, nexts, idx, size, icnt, ncnt⟩ := pos
  unfold insert_split
  simp only
  rw [fr_even_ncnt]
  simp only [ncntGap_mk, List.length_cons]
  push_cast
  omega

theorem insert_full_ncnt (pos : fr_s) (item : Item) :
    (insert_full pos item).ncntGap = pos.ncntGap := by
  unfold insert_full
  simp only
  by_cases c1 : pos.idx ≥ pos.seg.used
  · rw [if_pos c1]
    obtain ⟨prevs, seg, nexts, idx, size, icnt, ncnt⟩ := pos
    simp only [ncntGap_mk, List.length_cons]
    push_cast
    omega
  · rw [if_neg c1]
    by_cases c2 : pos.idx < half_seg pos.size
    · rw [if_pos c2]
      cases hp : pos.prevs with
      | nil => exact insert_split_ncnt pos item
      | cons prev ps =>
        simp only
        by_cases c3 : pos.idx ≠ 0 ∧ pos.idx ≤ pos.size - prev.used
        · rw [if_pos c3]
          obtain ⟨prevs, seg, nexts, idx, size, icnt, ncnt⟩ := pos
          simp only at hp
          subst hp
          simp only [ncntGap_mk, List.length_cons]
        · rw [if_neg c3]
          exact insert_split_ncnt pos item
    · rw [if_neg c2]
      cases hn : pos.nexts with
      | nil => exact insert_split_ncnt pos item
      | cons next ns =>
        simp only
        by_cases c3 : pos.seg.used - pos.idx ≤ pos.size - next.used
        · rw [if_pos c3]
          obtain ⟨prevs, seg, nexts, idx, size, icnt, ncnt⟩ := pos
          simp only at hn
          subst hn
          simp only [ncntGap_mk, List.length_cons]
        · rw [if_neg c3]
          exact insert_split_ncnt pos item

theorem insert_rest_ncnt (pos : fr_s) (item : Item) :
    (insert_rest pos item).ncntGap = pos.ncntGap := by
  unfold insert_rest
  by_cases c : pos.seg.used < pos.size
  · rw [if_pos c]
    exact insert_shift_ncnt pos item
  · rw [if_neg c]
    exact insert_full_ncnt pos item

theorem ncntGap_icnt (pos : fr_s) (k : Int) :
    ({ pos with icnt := k } : fr_s).ncntGap = pos.ncntGap := rfl

theorem ncntGap_idx (pos : fr_s) (k : Int) :
    ({ pos with idx := k } : fr_s).ncntGap = pos.ncntGap := rfl

theorem fr_insert_ncnt (pos : fr_s) (item : Item) :
    (fr_insert pos item).ncntGap = pos.ncntGap := by
  obtain ⟨prevs, seg, nexts, idx, size, icnt, ncnt⟩ := pos
  unfold fr_insert
  simp only
  by_cases c : idx > 0 ∧ seg.used < size
  · rw [if_pos c, insert_shift_ncnt]
    simp only [ncntGap_mk]
  · rw [if_neg c]
    cases prevs with
    | nil =>
      simp only
      rw [insert_rest_ncnt]
      simp only [ncntGap_mk]
    | cons prev ps =>
      simp only
      by_cases c2 : idx = 0 ∧ prev.used < size
      · rw [if_pos c2]
        simp only [ncntGap_mk, List.length_cons]
        push_cast
        omega
      · rw [if_neg c2, insert_rest_ncnt]
        simp only [ncntGap_mk]

theorem fr_next_ncnt (pos : fr_s) : (fr_next pos).1.ncntGap = pos.ncntGap := by
  unfold fr_next
  by_cases c : pos.idx < pos.seg.used - 1
  · rw [if_pos c]
    rfl
  · rw [if_neg c]
    cases hn : pos.nexts with
    | nil => rfl
    | cons n ns =>
      obtain ⟨prevs, seg, nexts, idx, size, icnt, ncnt⟩ := pos
      simp only at hn
      subst hn
      simp only [ncntGap_mk, List.length_cons]
      push_cast
      omega

theorem fr_append_ncnt (pos : fr_s) (item : Item) :
    (fr_append pos item).ncntGap = pos.ncntGap := by
  unfold fr_append
  by_cases c1 : pos.icnt ≠ 0 ∧ pos.idx = pos.seg.used - 1 ∧ pos.nexts = [] ∧
      pos.seg.used < pos.size
  · rw [if_pos c1]
    obtain ⟨prevs, seg, nexts, idx, size, icnt, ncnt⟩ := pos
    simp only [ncntGap_mk]
  · rw [if_neg c1]
    by_cases c2 : pos.icnt = 0
    · rw [if_pos c2, fr_insert_ncnt]
    · rw [if_neg c2]
      by_cases c3 : pos.seg.used < pos.size
      · rw [if_pos c3, fr_insert_ncnt, ncntGap_idx]
      · rw [if_neg c3]
        by_cases c4 : pos.nexts = []
        · rw [if_pos c4, fr_insert_ncnt, ncntGap_idx]
        · rw [if_neg c4, fr_insert_ncnt, fr_next_ncnt]

theorem fr_delete_ncnt (pos : fr_s) : (fr_delete pos).1.ncntGap = pos.ncntGap := by
  obtain ⟨prevs, seg, nexts, idx, size, icnt, ncnt⟩ := pos
  unfold fr_delete
  simp only
  by_cases c1 : seg.used > 1
  · rw [if_pos c1]
    by_cases c2 : idx < seg.used - 1
    · rw [if_pos c2]
      simp only [ncntGap_mk]
    · rw [if_neg c2]
      cases nexts with
      | nil => simp only [ncntGap_mk]
      | cons n ns =>
        simp only [ncntGap_mk, List.length_cons]
        push_cast
        omega
  · rw [if_neg c1]
    by_cases c2 : seg.used = 1
    · rw [if_pos c2]
      cases nexts with
      | nil =>
        cases prevs with
        | nil => simp only [ncntGap_mk]
        | cons q qs =>
          simp only [ncntGap_mk, List.length_cons, List.length_nil]
          push_cast
          omega
      | cons n ns =>
        simp only [ncntGap_mk, List.length_cons]
        push_cast
        omega
    · rw [if_neg c2]

theorem fr_push_ncnt (pos : fr_s) (item : Item) :
    (fr_push pos item).ncntGap = pos.ncntGap := by
  unfold fr_push
  by_cases c : pos.icnt ≠ 0 ∧ pos.seg.used < pos.size
  · rw [if_pos c]
    obtain ⟨prevs, seg, nexts, idx, size, icnt, ncnt⟩ := pos
    simp only [ncntGap_mk]
  · rw [if_neg c]
    exact fr_append_ncnt pos item

theorem fr_pop_ncnt (pos : fr_s) : (fr_pop pos).1.ncntGap = pos.ncntGap := by
  unfold fr_pop
  by_cases c : pos.idx > 0
  · rw [if_pos c]
    obtain ⟨prevs, seg, nexts, idx, size, icnt, ncnt⟩ := pos
    simp only [ncntGap_mk]
  · rw [if_neg c]
    exact fr_delete_ncnt pos

theorem pack_loop_len (limit : Int) (endi : Option Int) (fuel : Nat) (st : pack_s)
    (h : st.ia < st.segs.length) :
    ∀ st2, pack_loop limit endi fuel st = pack_l.done st2 →
      st2.segs.length = st.segs.length ∧ st2.ia < st2.segs.length := by
  induction fuel generalizing st with
  | zero =>
    intro st2 h2
    simp only [pack_loop] at h2
    cases h2
  | succ fuel ih =>
    intro st2 h2
    simp only [pack_loop] at h2
    by_cases c : endi = some (st.ib : Int)
    · rw [if_pos c] at h2
      injection h2 with h2
      subst h2
      exact ⟨rfl, h⟩
    · rw [if_neg c] at h2
      have ha : ∀ st1, pack_a_next limit (pack_copy st) = some st1 →
          st1.segs.length = st.segs.length ∧ st1.ia < st1.segs.length := by
        intro st1 h1
        unfold pack_a_next pack_copy at h1
        simp only at h1
        by_cases c1 : (seg_at (st.segs.set st.ia
            (fn_s.mk ((seg_at st.segs st.ia).used + 1)
              (wr (seg_at st.segs st.ia).data st.a_idx
                (rd (seg_at st.segs st.ib).data st.b_idx)))) st.ia).used ≥ limit
        · rw [if_pos c1] at h1
          by_cases c2 : st.ia + 1 < (st.segs.set st.ia
              (fn_s.mk ((seg_at st.segs st.ia).used + 1)
                (wr (seg_at st.segs st.ia).data st.a_idx
                  (rd (seg_at st.segs st.ib).data st.b_idx)))).length
          · rw [if_pos c2] at h1
            injection h1 with h1
            subst h1
            simp only [List.length_set] at c2 ⊢
            exact ⟨trivial, c2⟩
          · rw [if_neg c2] at h1
            cases h1
        · rw [if_neg c1] at h1
          injection h1 with h1
          subst h1
          simp only [List.length_set]
          exact ⟨trivial, h⟩
      have hb : ∀ st1 : pack_s, (pack_b_next st1).1.segs = st1.segs ∧
          (pack_b_next st1).1.ia = st1.ia := by
        intro st1
        unfold pack_b_next
        by_cases d1 : st1.b_idx ≥ st1.b_used
        · rw [if_pos d1]
          by_cases d2 : st1.ib + 1 < st1.segs.length
          · rw [if_pos d2]
            exact ⟨rfl, rfl⟩
          · rw [if_neg d2]
            exact ⟨rfl, rfl⟩
        · rw [if_neg d1]
          exact ⟨rfl, rfl⟩
      cases hn : pack_a_next limit (pack_copy st) with
      | none =>
        rw [hn] at h2
        cases h2
      | some st1 =>
        rw [hn] at h2
        simp only at h2
        obtain ⟨a1, a2⟩ := ha st1 hn
        obtain ⟨b1, b2⟩ := hb st1
        by_cases cb : (pack_b_next st1).2 = true
        · rw [if_pos cb] at h2
          injection h2 with h2
          subst h2
          rw [b1, b2]
          exact ⟨a1, a2⟩
        · rw [if_neg cb] at h2
          obtain ⟨q1, q2⟩ := ih (pack_b_next st1).1 (by rw [b1, b2]; exact a2) st2 h2
          rw [b1] at q1
          exact ⟨q1.trans a1, q2⟩

theorem fr_pack_range_ncnt (pos : fr_s) (endp : Option fr_s) (limit : Int) (r : fr_s) (c : Int)
    (h : fr_pack_range pos endp limit = pack_r.ret r c) : r.ncntGap = pos.ncntGap := by
  unfold fr_pack_range at h
  by_cases c0 : limit ≤ Int.tdiv pos.icnt pos.ncnt ∨ limit > pos.size
  · rw [if_pos c0] at h
    injection h with h1 h2
    rw [h1]
  · rw [if_neg c0] at h
    generalize endp.map (fun e => (e.prevs.length : Int) - (pos.prevs.length : Int)) = endi at h
    cases hs : pack_skip limit endi (pos.seg :: pos.nexts) 0 with
    | none =>
      rw [hs] at h
      injection h with h1 h2
      rw [h1]
    | some ia =>
      rw [hs] at h
      simp only at h
      by_cases c1 : ia + 1 ≥ (pos.seg :: pos.nexts).length ∨ endi = some (ia : Int)
      · rw [if_pos c1] at h
        injection h with h1 h2
        rw [h1]
      · rw [if_neg c1] at h
        by_cases c2 : endi = some ((ia + 1 : Nat) : Int)
        · rw [if_pos c2] at h
          injection h with h1 h2
          rw [h1]
        · rw [if_neg c2] at h
          obtain ⟨_, q2, _, _⟩ := pack_skip_spec limit endi _ 0 ia hs
          rw [Nat.sub_zero] at q2
          have hlen := pack_loop_len limit endi (pack_fuel pos)
            { segs := pos.seg :: pos.nexts, ia := ia,
              a_idx := (seg_at (pos.seg :: pos.nexts) ia).used,
              ib := ia + 1, b_idx := 0,
              b_used := (seg_at (pos.seg :: pos.nexts) (ia + 1)).used } q2
          generalize pack_loop limit endi (pack_fuel pos) _ = res at h hlen
          cases res with
          | out_of_fuel => cases h
          | null_deref => cases h
          | done st =>
            simp only at h
            injection h with h1 h2
            obtain ⟨l1, l2⟩ := hlen st rfl
            simp only [List.length_cons] at l1
            rw [← h1]
            obtain ⟨prevs, seg, nexts, idx, size, icnt, ncnt⟩ := pos
            simp only [ncntGap_mk, List.length_drop, List.length_take] at l1 ⊢
            rw [l1]
            have : min (st.ia + 1) (nexts.length + 1) = st.ia + 1 := by omega
            rw [this]
            push_cast
            omega

/-- C34: the segment counter.  For each of `fr_insert`, `fr_append`, `fr_delete`,
`fr_delete_even`, `fr_push`, `fr_pop`, `fr_even` and (whenever it returns)
`fr_pack_range`, the difference between the cached node count and the number
of segments of the chain is the same after the call as before: a counter that
is accurate before the call is accurate after it, and the counter changes by
exactly the number of segments linked minus the number unlinked. -/
theorem node_count_invariant (pos : fr_s) (item : Item) (endp : Option fr_s) (limit : Int) :
    (fr_insert pos item).ncntGap = pos.ncntGap ∧
    (fr_append pos item).ncntGap = pos.ncntGap ∧
    (fr_delete pos).1.ncntGap = pos.ncntGap ∧
    (fr_delete_even pos).1.ncntGap = pos.ncntGap ∧
    (fr_push pos item).ncntGap = pos.ncntGap ∧
    (fr_pop pos).1.ncntGap = pos.ncntGap ∧
    (fr_even pos).1.ncntGap = pos.ncntGap ∧
    (∀ r c, fr_pack_range pos endp limit = pack_r.ret r c → r.ncntGap = pos.ncntGap) ∧
    (fr_node_count pos = (pos.chain.length : Int) →
      fr_node_count (fr_insert pos item) = ((fr_insert pos item).chain.length : Int) ∧
      fr_node_count (fr_append pos item) = ((fr_append pos item).chain.length : Int) ∧
      fr_node_count (fr_delete pos).1 = ((fr_delete pos).1.chain.length : Int) ∧
      fr_node_count (fr_delete_even pos).1 = ((fr_delete_even pos).1.chain.length : Int) ∧
      fr_node_count (fr_push pos item) = ((fr_push pos item).chain.length : Int) ∧
      fr_node_count (fr_pop pos).1 = ((fr_pop pos).1.chain.length : Int) ∧
      fr_node_count (fr_even pos).1 = ((fr_even pos).1.chain.length : Int) ∧
      ∀ r c, fr_pack_range pos endp limit = pack_r.ret r c →
        fr_node_count r = (r.chain.length : Int)) := by
  have e1 := fr_insert_ncnt pos item
  have e2 := fr_append_ncnt pos item
  have e3 := fr_delete_ncnt pos
  have e4 : (fr_delete_even pos).1.ncntGap = pos.ncntGap := by
    unfold fr_delete_even
    simp only
    rw [fr_even_ncnt, fr_delete_ncnt]
  have e5 := fr_push_ncnt pos item
  have e6 := fr_pop_ncnt pos
  have e7 := fr_even_ncnt pos
  have e8 := fr_pack_range_ncnt pos endp limit
  refine ⟨e1, e2, e3, e4, e5, e6, e7, e8, ?_⟩
  intro h
  unfold fr_s.ncntGap at e1 e2 e3 e4 e5 e6 e7
  unfold fr_node_count at h ⊢
  refine ⟨by omega, by omega, by omega, by omega, by omega, by omega, by omega, ?_⟩
  intro r c hr
  have := e8 r c hr
  unfold fr_s.ncntGap at this
  omega

/-! ### Packing twice -/

/-- The chain a call of `fr_pack_range` that returns 1 leaves, on a well-formed
chain: the capacity is unchanged and every segment from the cursor's segment
on, except the last, holds at least `limit` items. -/
theorem pack_ret_one_shape (pos : fr_s) (hwf : WellFormed pos) (endp : Option fr_s)
    (limit : Int) (r : fr_s) (h : fr_pack_range pos endp limit = pack_r.ret r 1) :
    r.size = pos.size ∧ ∀ s ∈ (r.seg :: r.nexts).dropLast, limit ≤ s.used := by
  unfold fr_pack_range at h
  by_cases c : limit ≤ Int.tdiv pos.icnt pos.ncnt ∨ limit > pos.size
  · rw [if_pos c] at h
    injection h with h1 h2
    exact absurd h2 (by decide)
  · rw [if_neg c] at h
    generalize endp.map (fun e => (e.prevs.length : Int) - (pos.prevs.length : Int)) = endi at h
    cases hs : pack_skip limit endi (pos.seg :: pos.nexts) 0 with
    | none =>
      rw [hs] at h
      injection h with h1 h2
      exact absurd h2 (by decide)
    | some ia =>
      rw [hs] at h
      simp only at h
      by_cases c1 : ia + 1 ≥ (pos.seg :: pos.nexts).length ∨ endi = some (ia : Int)
      · rw [if_pos c1] at h
        injection h with h1 h2
        exact absurd h2 (by decide)
      · rw [if_neg c1] at h
        by_cases c2 : endi = some ((ia + 1 : Nat) : Int)
        · rw [if_pos c2] at h
          injection h with h1 h2
          exact absurd h2 (by decide)
        · rw [if_neg c2] at h
          obtain ⟨e1, e2⟩ := pack_loop_entry pos hwf endi limit c ia hs c1
          generalize pack_loop limit endi (pack_fuel pos) _ = res at h e1 e2
          cases res with
          | out_of_fuel => cases h
          | null_deref => cases h
          | done st =>
            simp only at h
            injection h with h1 h2
            subst h1
            obtain ⟨hlen, i1, i2, i3, i4, i5, i6⟩ := e2 st rfl
            have hpos : 0 < st.segs.length := by omega
            have hsegs : seg_at st.segs 0 :: (st.segs.take (st.ia + 1)).drop 1 =
                st.segs.take (st.ia + 1) := seg_at_zero_cons_take _ _ hpos
            refine ⟨rfl, ?_⟩
            intro s hs
            simp only at hs
            rw [hsegs, take_succ_seg_at _ _ i1, List.dropLast_concat] at hs
            obtain ⟨j, hj1, hj2, e⟩ := mem_take_seg_at _ _ _ hs
            rw [e]
            exact i3 j hj1

theorem pack_skip_full_prefix (limit : Int) (segs : List fn_s) (i : Nat)
    (h : ∀ s ∈ segs.dropLast, limit ≤ s.used) :
    pack_skip limit none segs i = none ∨
      ∃ k, pack_skip limit none segs i = some k ∧ k + 1 ≥ i + segs.length := by
  induction segs generalizing i with
  | nil => exact Or.inl rfl
  | cons s rest ih =>
    cases rest with
    | nil =>
      simp only [pack_skip]
      by_cases c : s.used ≥ limit ∧ (none : Option Int) ≠ some (i : Int)
      · rw [if_pos c]
        exact Or.inl rfl
      · rw [if_neg c]
        exact Or.inr ⟨i, rfl, by simp⟩
    | cons t rest2 =>
      rw [List.dropLast_cons₂] at h
      obtain ⟨hs, ht⟩ := List.forall_mem_cons.mp h
      rw [pack_skip, if_pos ⟨hs, by simp⟩]
      rcases ih (i + 1) ht with e | ⟨k, e, hk⟩
      · exact Or.inl e
      · refine Or.inr ⟨k, e, ?_⟩
        simp only [List.length_cons] at hk ⊢
        omega

/-- C35: pack is idempotent.  On a well-formed chain, if
`fr_pack_range( pos, NULL, limit )` returns 1, the same call repeated on the
position it leaves returns 0 and leaves that position (chain, counters and
cursor) unchanged. -/
theorem pack_idempotent (pos : fr_s) (hwf : WellFormed pos) (limit : Int) (r : fr_s)
    (h : fr_pack_range pos none limit = pack_r.ret r 1) :
    fr_pack_range r none limit = pack_r.ret r 0 := by
  obtain ⟨hsz, hfull⟩ := pack_ret_one_shape pos hwf none limit r h
  unfold fr_pack_range
  by_cases c : limit ≤ Int.tdiv r.icnt r.ncnt ∨ limit > r.size
  · rw [if_pos c]
  · rw [if_neg c]
    simp only [Option.map_none']
    rcases pack_skip_full_prefix limit (r.seg :: r.nexts) 0 hfull with e | ⟨k, e, hk⟩
    · rw [e]
    · rw [e]
      simp only
      rw [if_pos (Or.inl (by omega))]

/-- Witness of `pack_idempotent`: `[1,2] - [3,4] - [5,6] - [7]` (capacity 4) packed
to the limit 3; the second call returns 0. -/
theorem pack_idempotent_witness :
    WellFormed ex_pack_pairs ∧
    fr_pack_range ex_pack_pairs none 3 =
      pack_r.ret
        { prevs := [],
          seg := { used := 3, data := [1, 2, 3, 0] },
          nexts := [{ used := 3, data := [4, 5, 6, 0] }, { used := 1, data := [7, 6, 0, 0] }],
          idx := 0, size := 4, icnt := 7, ncnt := 3 } 1 ∧
    fr_pack_range
        { prevs := [],
          seg := { used := 3, data := [1, 2, 3, 0] },
          nexts := [{ used := 3, data := [4, 5, 6, 0] }, { used := 1, data := [7, 6, 0, 0] }],
          idx := 0, size := 4, icnt := 7, ncnt := 3 } none 3 =
      pack_r.ret
        { prevs := [],
          seg := { used := 3, data := [1, 2, 3, 0] },
          nexts := [{ used := 3, data := [4, 5, 6, 0] }, { used := 1, data := [7, 6, 0, 0] }],
          idx := 0, size := 4, icnt := 7, ncnt := 3 } 0 :=
  ⟨wf_ex_pack_pairs, by decide,
    pack_idempotent ex_pack_pairs wf_ex_pack_pairs 3 _ (by decide)⟩

/-! ### The cursor after a delete -/

/-- Where `fr_delete` leaves the cursor: at the same logical position when the
deleted item was not the last of the sequence, else one position back, on the
new last item. -/
theorem fr_delete_position (pos : fr_s) (hwf : WellFormed pos) (hcur : OnItem pos) :
    (¬ AtEnd pos → (fr_delete pos).1.position = pos.position) ∧
    (AtEnd pos → 2 ≤ pos.icnt →
      (fr_delete pos).1.position + 1 = pos.position ∧ AtEnd (fr_delete pos).1) := by
  obtain ⟨hp, hn, h0, h1, hl, he, hi, hc⟩ := hwf
  rw [sumUsed_eq] at hi
  obtain ⟨prevs, seg, nexts, idx, size, icnt, ncnt⟩ := pos
  simp only at hp hn h0 h1 hl he hi hc
  obtain ⟨o1, o2⟩ := hcur
  simp only at o1 o2
  unfold fr_delete AtEnd
  simp only
  by_cases c1 : seg.used > 1
  · rw [if_pos c1]
    by_cases c2 : idx < seg.used - 1
    · rw [if_pos c2]
      refine ⟨fun _ => rfl, ?_⟩
      intro hend
      exfalso
      omega
    · rw [if_neg c2]
      cases nexts with
      | nil =>
        simp only
        refine ⟨fun hne => absurd ⟨trivial, Or.inl ⟨by omega, by omega⟩⟩ hne, ?_⟩
        intro _ _
        refine ⟨?_, trivial, Or.inl ⟨by omega, by omega⟩⟩
        unfold fr_s.position
        simp only
        omega
      | cons n ns =>
        simp only
        refine ⟨?_, ?_⟩
        · intro _
          unfold fr_s.position
          simp only
          rw [length_prefix_cons]
          have hlen := length_items (fn_s.mk (seg.used - 1) seg.data) (by simp only; omega)
            (by simp only; omega)
          simp only at hlen
          omega
        · intro hend
          exact absurd hend.1 (by simp)
  · rw [if_neg c1]
    have hu : seg.used = 1 := by omega
    have hi0 : idx = 0 := by omega
    rw [if_pos hu]
    cases nexts with
    | nil =>
      cases prevs with
      | nil =>
        simp only
        refine ⟨fun hne => absurd ⟨trivial, Or.inl ⟨by omega, by omega⟩⟩ hne, ?_⟩
        intro _ h2
        exfalso
        simp only [List.map_nil, List.sum_nil] at hi
        omega
      | cons q qs =>
        simp only
        refine ⟨fun hne => absurd ⟨trivial, Or.inl ⟨by omega, by omega⟩⟩ hne, ?_⟩
        intro _ _
        obtain ⟨hq, _⟩ := List.forall_mem_cons.mp hp
        obtain ⟨q1, q2, q3⟩ := hq
        refine ⟨?_, trivial, Or.inl ⟨q1, trivial⟩⟩
        unfold fr_s.position
        simp only
        rw [length_prefix_cons]
        have hlen := length_items q (by omega) (by omega)
        omega
    | cons n ns =>
      simp only
      refine ⟨?_, ?_⟩
      · intro _
        unfold fr_s.position
        simp only
        rw [hi0]
      · intro hend
        exact absurd hend.1 (by simp)

/-- On a well-formed chain a cursor on an item is on the last item of the
sequence exactly when its logical position is the last one. -/
theorem atEnd_iff_last (pos : fr_s) (hwf : WellFormed pos) (hcur : OnItem pos) :
    AtEnd pos ↔ pos.position + 1 = pos.toList.length := by
  have hp := length_flatMap_items pos.size pos.nexts hwf.nexts_ok
  have hg := sum_used_ge pos.size pos.nexts hwf.nexts_ok
  have hs := length_items pos.seg hwf.used_nonneg
    (by have := hwf.used_le; have := hwf.data_len; omega)
  obtain ⟨o1, o2⟩ := hcur
  rw [toList_eq]
  unfold fr_s.position AtEnd
  simp only [List.length_append]
  constructor
  · rintro ⟨hn, hc⟩
    rw [hn]
    simp only [List.flatMap_nil, List.length_nil]
    omega
  · intro h
    have e1 : pos.idx.toNat + 1 =
        pos.seg.items.length + (pos.nexts.flatMap fn_s.items).length := by omega
    have e2 : (pos.idx.toNat : Int) = pos.idx := Int.toNat_of_nonneg o1
    have e3 : (pos.nexts.flatMap fn_s.items).length = 0 := by omega
    have hz : pos.nexts.length = 0 := by omega
    refine ⟨List.length_eq_zero.mp hz, Or.inl ⟨by omega, ?_⟩⟩
    rw [List.length_eq_zero.mp hz] at hp
    simp only [List.flatMap_nil, List.length_nil, List.map_nil, List.sum_nil] at hp h
    omega

theorem onItem_of_nonempty (pos : fr_s) (hwf : WellFormed pos) (hcur : ValidCursor pos)
    (hne : pos.toList ≠ []) : OnItem pos := by
  rcases hcur with h | ⟨h0, _⟩
  · exact h
  · exfalso
    obtain ⟨a, b⟩ := hwf.sole_if_empty h0
    apply hne
    rw [toList_eq, a, b]
    simp [fn_s.items, h0]

/-- Deleting as many items as the chain holds, from the first logical
position, returns the items in sequence order. -/
theorem delete_many_toList (n : Nat) (pos : fr_s) (hwf : WellFormed pos)
    (hcur : ValidCursor pos) (hpos : pos.position = 0) (hn : pos.toList.length = n) :
    (delete_many n pos).2 = pos.toList := by
  induction n generalizing pos with
  | zero =>
    rw [delete_many]
    exact (List.length_eq_zero.mp hn).symm
  | succ n ih =>
    have hne : pos.toList ≠ [] := by
      intro e
      rw [e] at hn
      simp at hn
    have hon := onItem_of_nonempty pos hwf hcur hne
    have hk := fr_delete_kept pos hwf hcur
    have hl := fr_delete_toList pos hwf hon
    have hat := toList_at_position pos hwf hon
    rw [hpos] at hl hat
    obtain ⟨a, rest, e⟩ := List.exists_cons_of_ne_nil hne
    rw [e] at hl hat hn
    simp only [List.eraseIdx_cons_zero] at hl
    simp only [List.getElem?_cons_zero, Option.some.injEq] at hat
    simp only [List.length_cons, Nat.add_right_cancel_iff] at hn
    rw [delete_many]
    simp only
    rw [fr_delete_snd, ← hat, e]
    congr 1
    cases n with
    | zero =>
      rw [delete_many]
      exact (List.length_eq_zero.mp hn).symm
    | succ m =>
      rw [← hl]
      apply ih (fr_delete pos).1 hk.wf hk.cur
      · have hnot : ¬ AtEnd pos := by
          rw [atEnd_iff_last pos hwf hon, hpos, e]
          simp only [List.length_cons]
          omega
        rw [(fr_delete_position pos hwf hon).1 hnot, hpos]
      · rw [hl]
        exact hn

/-- C33: the cursor after a delete.  On a well-formed chain holding at least two
items, with the cursor on an item, `fr_delete` leaves a well-formed chain with
the cursor on an item: when the deleted item was not the last of the sequence
the cursor keeps its logical position and references the item that followed
the deleted one; when it was the last, the cursor references the new last
item.  Consequently `fr_delete` repeated from the first position as often as
the chain holds items returns the items in sequence order. -/
theorem cursor_after_delete (pos : fr_s) (hwf : WellFormed pos) (hcur : OnItem pos)
    (h2 : 2 ≤ fr_length pos) :
    WellFormed (fr_delete pos).1 ∧ OnItem (fr_delete pos).1 ∧
    (fr_delete pos).1.toList = pos.toList.eraseIdx pos.position ∧
    (pos.position + 1 < pos.toList.length →
      (fr_delete pos).1.position = pos.position ∧
      pos.toList[pos.position + 1]? = some (fr_item (fr_delete pos).1)) ∧
    (pos.position + 1 = pos.toList.length →
      (fr_delete pos).1.position + 1 = (fr_delete pos).1.toList.length ∧
      (fr_delete pos).1.toList.getLast? = some (fr_item (fr_delete pos).1)) ∧
    (delete_many pos.toList.length (fr_first pos)).2 = pos.toList := by
  have hk := fr_delete_kept pos hwf (Or.inl hcur)
  have hl := fr_delete_toList pos hwf hcur
  have hlast := atEnd_iff_last pos hwf hcur
  obtain ⟨p1, p2⟩ := fr_delete_position pos hwf hcur
  have hlen : (pos.toList.length : Int) = pos.icnt := by
    have a := length_flatMap_items pos.size pos.prevs hwf.prevs_ok
    have b := length_flatMap_items pos.size pos.nexts hwf.nexts_ok
    have c := length_items pos.seg hwf.used_nonneg
      (by have := hwf.used_le; have := hwf.data_len; omega)
    have d := hwf.icnt_eq
    rw [sumUsed_eq] at d
    rw [toList_eq]
    simp only [List.length_append, Nat.cast_add, List.length_flatMap, List.map_reverse,
      List.sum_reverse] at a b ⊢
    omega
  have hlt : pos.position < pos.toList.length := by
    have := toList_at_position pos hwf hcur
    by_contra c
    rw [List.getElem?_eq_none (by omega)] at this
    cases this
  have hne : (fr_delete pos).1.toList ≠ [] := by
    intro e
    have : ((fr_delete pos).1.toList.length : Int) = 0 := by rw [e]; rfl
    rw [hl, List.length_eraseIdx, if_pos hlt] at this
    unfold fr_length at h2
    omega
  have hon := onItem_of_nonempty _ hk.wf hk.cur hne
  have hat := toList_at_position _ hk.wf hon
  refine ⟨hk.wf, hon, hl, ?_, ?_, ?_⟩
  · intro hnl
    have hnot : ¬ AtEnd pos := by
      rw [hlast]
      omega
    have e := p1 hnot
    refine ⟨e, ?_⟩
    rw [e, hl, List.getElem?_eraseIdx, if_neg (by omega)] at hat
    exact hat
  · intro hl2
    have hend : AtEnd pos := hlast.mpr hl2
    obtain ⟨q1, q2⟩ := p2 hend h2
    have e := (atEnd_iff_last _ hk.wf hon).mp q2
    refine ⟨e, ?_⟩
    rw [List.getLast?_eq_getElem?, ← hat]
    congr 1
    omega
  · have hf := fr_first_kept pos hwf
    have ht : (fr_first pos).toList = pos.toList := by
      unfold fr_s.toList
      rw [fr_first_chain]
    rw [delete_many_toList _ (fr_first pos) hf.wf hf.cur rfl (by rw [ht]), ht]

/-- Witness of `cursor_after_delete`: three full segments `1..12` (capacity 4),
the cursor on the item `6`; after the delete the cursor is on `7`. -/
theorem cursor_after_delete_witness :
    WellFormed ex_three_full_at6 ∧ OnItem ex_three_full_at6 ∧
    2 ≤ fr_length ex_three_full_at6 ∧
    (fr_delete ex_three_full_at6).2 = 6 ∧ fr_item (fr_delete ex_three_full_at6).1 = 7 ∧
    OnItem (fr_delete ex_three_full_at6).1 ∧
    (delete_many 12 (fr_first ex_three_full_at6)).2 = [1, 2, 3, 4, 5, 6, 7, 8, 9, 10, 11, 12] :=
  ⟨wf_ex_three_full_at6, by decide, by decide, by decide, by decide,
    (cursor_after_delete ex_three_full_at6 wf_ex_three_full_at6 (by decide) (by decide)).2.1,
    by decide⟩

/-! ### The item under the cursor after an insert -/

theorem fr_even_item_next (pos : fr_s) (hne : pos.nexts ≠ []) (hidx : pos.idx < pos.seg.used) :
    fr_item (fr_even pos).1 = fr_item pos := by
  obtain ⟨prevs, seg, nexts, idx, size, icnt, ncnt⟩ := pos
  simp only at hne hidx
  cases nexts with
  | nil => exact absurd rfl hne
  | cons n ns =>
    unfold fr_even fr_item
    simp only
    by_cases c : seg.used + n.used ≤ size
    · rw [if_pos c]
      exact rd_memcpy_below _ _ _ _ _ _ hidx
    · rw [if_neg c]
      by_cases c2 : seg.used * 2 < size
      · rw [if_pos c2]
        exact rd_memcpy_below _ _ _ _ _ _ hidx
      · rw [if_neg c2]

theorem insert_shift_item (pos : fr_s) (item : Item) (h : InsertReady pos)
    (hroom : pos.seg.used < pos.size) : fr_item (insert_shift pos item) = item := by
  obtain ⟨hp, hn, h0, h1, hl, he, hi, hc, hi0, hi1, hend, hsz⟩ := h
  obtain ⟨prevs, seg, nexts, idx, size, icnt, ncnt⟩ := pos
  simp only at hp hn h0 h1 hl he hi hc hi0 hi1 hend hsz hroom
  unfold insert_shift fr_item
  simp only
  apply rd_wr_same _ _ _ hi0
  by_cases c : idx < seg.used
  · rw [if_pos c, length_memmove]
    omega
  · rw [if_neg c]
    omega

theorem insert_split_item (pos : fr_s) (item : Item) (h : InsertReady pos)
    (hfull : pos.seg.used = pos.size) (hlt : pos.idx < pos.seg.used) :
    fr_item (insert_split pos item) = item := by
  obtain ⟨hp, hn, h0, h1, hl, he, hi, hc, hi0, hi1, hend, hsz⟩ := h
  obtain ⟨prevs, seg, nexts, idx, size, icnt, ncnt⟩ := pos
  simp only at hp hn h0 h1 hl he hi hc hi0 hi1 hend hsz hfull hlt
  unfold insert_split
  simp only
  rw [fr_even_item_next _ (by simp) (by simp only; omega)]
  unfold fr_item
  simp only
  exact rd_wr_same _ _ _ hi0 (by omega)

theorem insert_full_item (pos : fr_s) (item : Item) (h : InsertReady pos)
    (hfull : pos.seg.used = pos.size) : fr_item (insert_full pos item) = item := by
  have hkeep := h
  obtain ⟨hp, hn, h0, h1, hl, he, hi, hc, hi0, hi1, hend, hsz⟩ := h
  obtain ⟨prevs, seg, nexts, idx, size, icnt, ncnt⟩ := pos
  simp only at hp hn h0 h1 hl he hi hc hi0 hi1 hend hsz hfull
  have hnew := length_fn_new_sized size (by omega)
  unfold insert_full
  simp only []
  by_cases c1 : idx ≥ seg.used
  · rw [if_pos c1]
    unfold fr_item
    simp only
    exact rd_wr_same _ _ _ (le_refl _) (by omega)
  rw [if_neg c1]
  by_cases c2 : idx < half_seg size
  · rw [if_pos c2]
    cases prevs with
    | nil =>
      simp only []
      exact insert_split_item _ item hkeep hfull (by simp only; omega)
    | cons prev ps =>
      simp only []
      by_cases c3 : idx ≠ 0 ∧ idx ≤ size - prev.used
      · rw [if_pos c3]
        unfold fr_item
        simp only
        apply rd_wr_same _ _ _ (le_refl _)
        by_cases c4 : idx > 1
        · rw [if_pos c4, length_memmove]
          omega
        · rw [if_neg c4]
          omega
      · rw [if_neg c3]
        exact insert_split_item _ item hkeep hfull (by simp only; omega)
  · rw [if_neg c2]
    cases nexts with
    | nil =>
      simp only []
      exact insert_split_item _ item hkeep hfull (by simp only; omega)
    | cons next ns =>
      simp only []
      by_cases c3 : seg.used - idx ≤ size - next.used
      · rw [if_pos c3]
        unfold fr_item
        simp only
        exact rd_wr_same _ _ _ hi0 (by omega)
      · rw [if_neg c3]
        exact insert_split_item _ item hkeep hfull (by simp only; omega)

theorem insert_rest_item (pos : fr_s) (item : Item) (h : InsertReady pos) :
    fr_item (insert_rest pos item) = item := by
  unfold insert_rest
  by_cases c : pos.seg.used < pos.size
  · rw [if_pos c]
    exact insert_shift_item pos item h c
  · rw [if_neg c]
    exact insert_full_item pos item h (by have := h.used_le; omega)

theorem fr_insert_item (pos : fr_s) (item : Item) (hwf : WellFormed pos) (hsz : 0 < pos.size)
    (hcur : InsertCursor pos) : fr_item (fr_insert pos item) = item := by
  have hr := insertReady_of_wf pos hwf hsz hcur
  unfold fr_insert
  simp only []
  by_cases c1 : pos.idx > 0 ∧ pos.seg.used < pos.size
  · rw [if_pos c1]
    exact insert_shift_item _ item hr c1.2
  · rw [if_neg c1]
    split
    · rename_i prev ps hprevs
      by_cases c2 : pos.idx = 0 ∧ prev.used < pos.size
      · rw [if_pos c2]
        have hq := hwf.prevs_ok prev (by rw [hprevs]; exact List.mem_cons_self _ _)
        obtain ⟨hq1, hq2, hq3⟩ := hq
        unfold fr_item
        simp only
        have e : prev.used + 1 - 1 = prev.used := by omega
        rw [e]
        exact rd_wr_same _ _ _ (by omega) (by have := c2.2; omega)
      · rw [if_neg c2]
        exact insert_rest_item _ item hr
    · exact insert_rest_item _ item hr

theorem fr_append_item (pos : fr_s) (item : Item) (hwf : WellFormed pos) (hsz : 0 < pos.size)
    (hcur : ValidCursor pos) : fr_item (fr_append pos item) = item := by
  unfold fr_append
  by_cases c1 : pos.icnt ≠ 0 ∧ pos.idx = pos.seg.used - 1 ∧ pos.nexts = [] ∧
      pos.seg.used < pos.size
  · rw [if_pos c1]
    have hon := onItem_of_icnt_ne pos hwf hcur c1.1
    unfold fr_item
    simp only
    exact rd_wr_same _ _ _ (by have := hon.1; omega)
      (by have := hwf.data_len; have := c1.2.1; have := c1.2.2.2; omega)
  · rw [if_neg c1]
    by_cases c2 : pos.icnt = 0
    · rw [if_pos c2]
      exact fr_insert_item pos item hwf hsz (insertCursor_of_valid pos hsz hcur)
    · rw [if_neg c2]
      have hon := onItem_of_icnt_ne pos hwf hcur c2
      have hwf1 : WellFormed { pos with idx := pos.idx + 1 } :=
        ⟨hwf.prevs_ok, hwf.nexts_ok, hwf.used_nonneg, hwf.used_le, hwf.data_len,
          hwf.sole_if_empty, hwf.icnt_eq, hwf.ncnt_eq⟩
      by_cases c3 : pos.seg.used < pos.size
      · rw [if_pos c3]
        refine fr_insert_item _ item hwf1 hsz ⟨?_, ?_, ?_⟩
        · have := hon.1
          simp only
          omega
        · have := hon.2
          simp only
          omega
        · intro _
          exact Or.inl c3
      · rw [if_neg c3]
        by_cases c4 : pos.nexts = []
        · rw [if_pos c4]
          refine fr_insert_item _ item hwf1 hsz ⟨?_, ?_, ?_⟩
          · have := hon.1
            simp only
            omega
          · have := hon.2
            simp only
            omega
          · intro _
            exact Or.inr c4
        · rw [if_neg c4]
          have hn := fr_next_settled pos hwf hon
          exact fr_insert_item (fr_next pos).1 item hn.wf (by rw [hn.size_eq]; exact hsz)
            (insertCursor_of_valid _ (by rw [hn.size_eq]; exact hsz) (Or.inl hn.cur))

/-- C37: the cursor follows the new item.  On a well-formed chain of capacity at
least `FR_SEG_MIN` with a valid cursor, after `fr_insert` and after `fr_append`
the item under the cursor is the item just stored, on every branch (in-place
shift, tail of the previous segment, fit-left, fit-right, new trailing
segment, split followed by `fr_even`), and the cursor is on an item. -/
theorem cursor_follows_item (pos : fr_s) (item : Item) (hwf : WellFormed pos)
    (hsz : FR_SEG_MIN ≤ pos.size) (hcur : ValidCursor pos) :
    fr_item (fr_insert pos item) = item ∧ OnItem (fr_insert pos item) ∧
    fr_item (fr_append pos item) = item ∧ OnItem (fr_append pos item) := by
  have hsz4 : (4 : Int) ≤ pos.size := hsz
  have hpos : 0 < pos.size := by omega
  exact ⟨fr_insert_item pos item hwf hpos (insertCursor_of_valid pos hpos hcur),
    (fr_insert_settled pos item hwf hpos (insertCursor_of_valid pos hpos hcur)).cur,
    fr_append_item pos item hwf hpos hcur,
    (fr_append_settled pos item hwf hpos hcur).cur⟩

/-- Witness of `cursor_follows_item`: an insert into the full first segment of
`[1,2,3,4] - [5]` (capacity 4), the cursor on `4`. -/
theorem cursor_follows_item_witness :
    WellFormed ex_full_then_one ∧ FR_SEG_MIN ≤ ex_full_then_one.size ∧
    ValidCursor ex_full_then_one ∧ fr_item (fr_insert ex_full_then_one 9) = 9 :=
  ⟨wf_ex_full_then_one, by decide, by decide,
    (cursor_follows_item ex_full_then_one 9 wf_ex_full_then_one (by decide) (by decide)).1⟩

/-! ### Inserting without overflow -/

theorem take_drop_at (A B : List Item) (x : Item) (p : Nat) (hp : p = A.length) :
    (A ++ B).take p ++ x :: (A ++ B).drop p = A ++ x :: B := by
  subst hp
  rw [List.take_left, List.drop_left]

theorem insert_mid (A S B : List Item) (x : Item) (i p : Nat) (h : i ≤ S.length)
    (hp : p = A.length + i) :
    (A ++ (S ++ B)).take p ++ x :: (A ++ (S ++ B)).drop p =
      A ++ ((S.take i ++ x :: S.drop i) ++ B) := by
  have e : A ++ (S ++ B) = (A ++ S.take i) ++ (S.drop i ++ B) := by
    rw [List.append_assoc, ← List.append_assoc (S.take i), List.take_append_drop]
  rw [e, take_drop_at _ _ x p (by rw [List.length_append, List.length_take]; omega)]
  simp only [List.append_assoc, List.cons_append]

/-- Opening a slot at the cursor and storing the item there. -/
theorem take_insert_shift_lt (data : List Item) (idx used : Int) (item : Item) (h0 : 0 ≤ idx)
    (h1 : idx < used) (h2 : used < (data.length : Int)) :
    (wr (memmove data (idx + 1) data idx (used - idx)) idx item).take (used + 1).toNat =
      (data.take used.toNat).take idx.toNat ++ item :: (data.take used.toNat).drop idx.toNat := by
  have hlen : ((data.take used.toNat).take idx.toNat).length = idx.toNat := by
    rw [List.length_take, List.length_take]
    omega
  apply List.ext_getElem?
  intro i
  rw [List.getElem?_take, getElem?_wr, length_memmove, getElem?_memmove]
  by_cases c1 : i < idx.toNat
  · have a1 : i < (used + 1).toNat := by omega
    have a2 : ¬ (idx = (i : Int) ∧ i < data.length) := by omega
    have a3 : ¬ (idx + 1 ≤ (i : Int) ∧ (i : Int) < idx + 1 + (used - idx) ∧ i < data.length) := by
      omega
    have a4 : i < used.toNat := by omega
    rw [if_pos a1, if_neg a2, if_neg a3, List.getElem?_append_left (by omega),
      List.getElem?_take, List.getElem?_take, if_pos c1, if_pos a4]
  · rw [List.getElem?_append_right (by omega), hlen]
    by_cases c2 : i = idx.toNat
    · have a1 : i < (used + 1).toNat := by omega
      have a2 : idx = (i : Int) ∧ i < data.length := by omega
      rw [if_pos a1, if_pos a2, c2, Nat.sub_self, List.getElem?_cons_zero]
    · obtain ⟨k, hk⟩ : ∃ k, i - idx.toNat = k + 1 := ⟨i - idx.toNat - 1, by omega⟩
      have a2 : ¬ (idx = (i : Int) ∧ i < data.length) := by omega
      rw [hk, List.getElem?_cons_succ, List.getElem?_drop, List.getElem?_take, if_neg a2]
      by_cases c3 : i < (used + 1).toNat
      · have a3 : idx + 1 ≤ (i : Int) ∧ (i : Int) < idx + 1 + (used - idx) ∧ i < data.length := by
          omega
        have a4 : idx.toNat + k < used.toNat := by omega
        rw [if_pos c3, if_pos a3, if_pos a4]
        exact some_rd _ _ _ (by omega) (by omega)
      · have a4 : ¬ idx.toNat + k < used.toNat := by omega
        rw [if_neg c3, if_neg a4]

theorem take_insert_shift (data : List Item) (idx used : Int) (item : Item) (h0 : 0 ≤ idx)
    (h1 : idx ≤ used) (h2 : used < (data.length : Int)) :
    (wr (if idx < used then memmove data (idx + 1) data idx (used - idx) else data) idx
        item).take (used + 1).toNat =
      (data.take used.toNat).take idx.toNat ++ item :: (data.take used.toNat).drop idx.toNat := by
  by_cases c : idx < used
  · rw [if_pos c]
    exact take_insert_shift_lt data idx used item h0 c h2
  · rw [if_neg c]
    have e : idx = used := by omega
    subst e
    have e1 : (data.take idx.toNat).take idx.toNat = data.take idx.toNat :=
      List.take_of_length_le (by rw [List.length_take]; omega)
    have e2 : (data.take idx.toNat).drop idx.toNat = [] :=
      List.drop_eq_nil_of_le (by rw [List.length_take]; omega)
    rw [take_extend data idx item h0 h2, e1, e2]

theorem items_insert_shift (pos : fr_s) (item : Item) (h0 : 0 ≤ pos.idx)
    (h1 : pos.idx ≤ pos.seg.used) (h2 : pos.seg.used < (pos.seg.data.length : Int)) :
    (insert_shift pos item).seg.items =
      pos.seg.items.take pos.idx.toNat ++ item :: pos.seg.items.drop pos.idx.toNat := by
  unfold insert_shift fn_s.items
  simp only
  exact take_insert_shift pos.seg.data pos.idx pos.seg.used item h0 h1 h2

/-- The in-place branches of `fr_insert`: the item is inserted into the
sequence at the logical position of the cursor, and only the cursor's segment
changes, its `used` growing by 1. -/
theorem insert_shift_toList (pos : fr_s) (item : Item) (h0 : 0 ≤ pos.idx)
    (h1 : pos.idx ≤ pos.seg.used) (h2 : pos.seg.used < (pos.seg.data.length : Int)) :
    (insert_shift pos item).toList =
      pos.toList.take pos.position ++ item :: pos.toList.drop pos.position ∧
    (insert_shift pos item).prevs = pos.prevs ∧ (insert_shift pos item).nexts = pos.nexts ∧
    (insert_shift pos item).seg.used = pos.seg.used + 1 ∧
    (insert_shift pos item).ncnt = pos.ncnt ∧ (insert_shift pos item).icnt = pos.icnt := by
  have hi := items_insert_shift pos item h0 h1 h2
  have hlen := length_items pos.seg (by omega) (by omega)
  refine ⟨?_, rfl, rfl, rfl, rfl, rfl⟩
  rw [toList_eq, toList_eq, hi]
  have hp : (insert_shift pos item).prevs = pos.prevs := rfl
  have hn : (insert_shift pos item).nexts = pos.nexts := rfl
  rw [hp, hn]
  exact (insert_mid _ _ _ item pos.idx.toNat pos.position (by omega) rfl).symm

theorem insert_shift_used (pos : fr_s) (item : Item) :
    pos.chain = pos.prevs.reverse ++ pos.seg :: pos.nexts ∧
    (insert_shift pos item).chain.map fn_s.used =
      pos.prevs.reverse.map fn_s.used ++ (pos.seg.used + 1) :: pos.nexts.map fn_s.used := by
  refine ⟨rfl, ?_⟩
  unfold insert_shift fr_s.chain
  simp only [List.map_append, List.map_cons]

/-- C32: `fr_insert` without overflow.  On a well-formed chain with a valid
cursor, whenever the cursor's segment has spare room, or the cursor is at
index 0 and the previous segment has spare room (the first three branches of
`fr_insert`), the call allocates no segment (node count and number of
segments unchanged), the `used` count of exactly one segment of the chain
grows by 1 and no other changes, the item count grows by 1, and the logical
item sequence is the old one with `item` inserted at the logical position of
the cursor, immediately before the item the cursor was on. -/
theorem fr_insert_no_overflow (pos : fr_s) (item : Item) (hwf : WellFormed pos)
    (hcur : ValidCursor pos)
    (hroom : pos.seg.used < pos.size ∨
      (pos.idx = 0 ∧ ∃ prev ps, pos.prevs = prev :: ps ∧ prev.used < pos.size)) :
    fr_node_count (fr_insert pos item) = fr_node_count pos ∧
    (fr_insert pos item).chain.length = pos.chain.length ∧
    (∃ A s B, pos.chain = A ++ s :: B ∧
      (fr_insert pos item).chain.map fn_s.used =
        A.map fn_s.used ++ (s.used + 1) :: B.map fn_s.used) ∧
    (fr_insert pos item).toList =
      pos.toList.take pos.position ++ item :: pos.toList.drop pos.position ∧
    fr_length (fr_insert pos item) = fr_length pos + 1 := by
  unfold fr_node_count fr_length
  have hidx : 0 ≤ pos.idx ∧ pos.idx ≤ pos.seg.used := by
    rcases hcur with ⟨a, b⟩ | ⟨a, b⟩
    · exact ⟨a, by omega⟩
    · exact ⟨by omega, by omega⟩
  have hdl := hwf.data_len
  have shift : pos.seg.used < pos.size →
      (insert_shift { pos with icnt := pos.icnt + 1 } item).ncnt = pos.ncnt ∧
      (insert_shift { pos with icnt := pos.icnt + 1 } item).chain.length = pos.chain.length ∧
      (∃ A s B, pos.chain = A ++ s :: B ∧
        (insert_shift { pos with icnt := pos.icnt + 1 } item).chain.map fn_s.used =
          A.map fn_s.used ++ (s.used + 1) :: B.map fn_s.used) ∧
      (insert_shift { pos with icnt := pos.icnt + 1 } item).toList =
        pos.toList.take pos.position ++ item :: pos.toList.drop pos.position ∧
      (insert_shift { pos with icnt := pos.icnt + 1 } item).icnt = pos.icnt + 1 := by
    intro hlt
    obtain ⟨t1, _, _, _, _, _⟩ := insert_shift_toList { pos with icnt := pos.icnt + 1 } item
      hidx.1 hidx.2 (by simp only; omega)
    obtain ⟨u1, u2⟩ := insert_shift_used { pos with icnt := pos.icnt + 1 } item
    refine ⟨rfl, ?_, ⟨pos.prevs.reverse, pos.seg, pos.nexts, rfl, u2⟩, t1, rfl⟩
    have := congrArg List.length u2
    simp only [List.length_map, List.length_append, List.length_cons, List.length_reverse]
      at this
    rw [this]
    simp [fr_s.chain]
  unfold fr_insert
  simp only []
  by_cases c1 : pos.idx > 0 ∧ pos.seg.used < pos.size
  · rw [if_pos c1]
    exact shift c1.2
  · rw [if_neg c1]
    cases hp : pos.prevs with
    | nil =>
      simp only
      rcases hroom with hr | ⟨_, prev, ps, e, _⟩
      · unfold insert_rest
        simp only
        rw [if_pos hr]
        have := shift hr
        rw [hp] at this
        exact this
      · rw [hp] at e
        cases e
    | cons prev ps =>
      simp only
      by_cases c2 : pos.idx = 0 ∧ prev.used < pos.size
      · rw [if_pos c2]
        have hq := hwf.prevs_ok prev (by rw [hp]; exact List.mem_cons_self _ _)
        obtain ⟨hq1, hq2, hq3⟩ := hq
        have hitems : (fn_s.mk (prev.used + 1) (wr prev.data prev.used item)).items =
            prev.items ++ [item] := by
          unfold fn_s.items
          exact take_extend prev.data prev.used item (by omega) (by have := c2.2; omega)
        refine ⟨rfl, ?_, ⟨ps.reverse, prev, pos.seg :: pos.nexts, ?_, ?_⟩, ?_, rfl⟩
        · simp [fr_s.chain, hp]
        · simp [fr_s.chain, hp]
        · simp [fr_s.chain]
        · rw [toList_eq, toList_eq]
          simp only [List.flatMap_cons]
          rw [hitems, hp]
          have hpos : pos.position = (ps.reverse.flatMap fn_s.items ++ prev.items).length := by
            unfold fr_s.position
            rw [hp, c2.1]
            simp [List.flatMap_append]
          have e : (prev :: ps).reverse.flatMap fn_s.items =
              ps.reverse.flatMap fn_s.items ++ prev.items := by
            simp [List.flatMap_append]
          rw [e, take_drop_at _ _ item pos.position hpos]
          simp only [List.append_assoc, List.cons_append, List.nil_append, List.singleton_append]
      · rw [if_neg c2]
        have hr : pos.seg.used < pos.size := by
          rcases hroom with hr | ⟨i0, prev2, ps2, e, hlt⟩
          · exact hr
          · exfalso
            rw [hp] at e
            injection e with e1 e2
            subst e1
            exact c2 ⟨i0, hlt⟩
        unfold insert_rest
        simp only
        rw [if_pos hr]
        have := shift hr
        rw [hp] at this
        exact this

/-- Witness of `fr_insert_no_overflow`: the chain `[1,2] - [3]` (capacity 4), the
cursor on `3`, at index 0, with room in the previous segment: the item is
stored at the tail of the previous segment. -/
theorem fr_insert_no_overflow_witness :
    WellFormed ex_two_then_one ∧ ValidCursor ex_two_then_one ∧
    ex_two_then_one.toList = [1, 2, 3] ∧ ex_two_then_one.position = 2 ∧
    (fr_insert ex_two_then_one 9).toList = [1, 2, 9, 3] ∧
    (fr_insert ex_two_then_one 9).toList =
      ex_two_then_one.toList.take ex_two_then_one.position ++
        9 :: ex_two_then_one.toList.drop ex_two_then_one.position :=
  ⟨⟨by decide, by decide, by decide, by decide, by decide, by decide, by decide, by decide⟩,
    by decide, by decide, by decide, by decide,
    (fr_insert_no_overflow ex_two_then_one 9
      ⟨by decide, by decide, by decide, by decide, by decide, by decide, by decide, by decide⟩
      (by decide) (Or.inl (by decide))).2.2.2.1⟩

/-! ### The fit-left branch of `fr_insert` -/

/-- Dropping the items left of the cursor and storing the item at slot 0. -/
theorem take_fit_left (data : List Item) (idx used : Int) (item : Item) (h0 : 1 ≤ idx)
    (h1 : idx < used) (h2 : used ≤ (data.length : Int)) :
    (wr (if idx > 1 then memmove data 1 data idx (used - idx) else data) 0 item).take
        (used - idx + 1).toNat =
      item :: (data.take used.toNat).drop idx.toNat := by
  apply List.ext_getElem?
  intro i
  rw [List.getElem?_take, getElem?_wr]
  have hlen : (if idx > 1 then memmove data 1 data idx (used - idx) else data).length =
      data.length := by
    by_cases c : idx > 1
    · rw [if_pos c, length_memmove]
    · rw [if_neg c]
  rw [hlen]
  cases i with
  | zero =>
    have a1 : 0 < (used - idx + 1).toNat := by omega
    have a2 : (0 : Int) = ((0 : Nat) : Int) ∧ 0 < data.length := ⟨rfl, by omega⟩
    rw [if_pos a1, if_pos a2, List.getElem?_cons_zero]
  | succ k =>
    have a2 : ¬ ((0 : Int) = ((k + 1 : Nat) : Int) ∧ k + 1 < data.length) := by omega
    rw [if_neg a2, List.getElem?_cons_succ, List.getElem?_drop, List.getElem?_take]
    by_cases c3 : k + 1 < (used - idx + 1).toNat
    · have a4 : idx.toNat + k < used.toNat := by omega
      rw [if_pos c3, if_pos a4]
      by_cases c : idx > 1
      · have a3 : (1 : Int) ≤ ((k + 1 : Nat) : Int) ∧ ((k + 1 : Nat) : Int) < 1 + (used - idx) ∧
            k + 1 < data.length := by omega
        rw [if_pos c, getElem?_memmove, if_pos a3]
        exact some_rd _ _ _ (by omega) (by omega)
      · rw [if_neg c]
        have e : idx.toNat + k = k + 1 := by omega
        rw [e]
    · have a4 : ¬ idx.toNat + k < used.toNat := by omega
      rw [if_neg c3, if_neg a4]

/-- C31: the fit-left branch of `fr_insert`.  On a well-formed chain whose
cursor's segment is full, with the cursor index `0 < idx < half_seg` and a
previous segment with at least `idx` free slots, `fr_insert` allocates no
segment (node count and number of segments unchanged), appends the `idx`
items left of the cursor to the previous segment in order, leaves in the
cursor's segment the item at slot 0 followed by the former items from `idx`
on, sets the cursor index to 0 (on the new item), leaves the other segments
as they are, and the logical item sequence is the old one with the item
inserted at the logical position of the cursor, immediately before the item
the cursor was on. -/
theorem fr_insert_fit_left (pos : fr_s) (item : Item) (hwf : WellFormed pos)
    (hfull : pos.seg.used = pos.size) (h0 : 0 < pos.idx) (hhalf : pos.idx < half_seg pos.size)
    (prev : fn_s) (ps : List fn_s) (hp : pos.prevs = prev :: ps)
    (hfree : pos.idx ≤ pos.size - prev.used) :
    fr_node_count (fr_insert pos item) = fr_node_count pos ∧
    (fr_insert pos item).chain.length = pos.chain.length ∧
    (∃ prev1, (fr_insert pos item).prevs = prev1 :: ps ∧
      prev1.items = prev.items ++ pos.seg.items.take pos.idx.toNat) ∧
    (fr_insert pos item).seg.items = item :: pos.seg.items.drop pos.idx.toNat ∧
    (fr_insert pos item).nexts = pos.nexts ∧
    (fr_insert pos item).idx = 0 ∧ fr_item (fr_insert pos item) = item ∧
    (fr_insert pos item).toList =
      pos.toList.take pos.position ++ item :: pos.toList.drop pos.position ∧
    fr_length (fr_insert pos item) = fr_length pos + 1 := by
  obtain ⟨hpo, hn, hu0, hu1, hl, he, hi, hc⟩ := hwf
  obtain ⟨prevs, seg, nexts, idx, size, icnt, ncnt⟩ := pos
  simp only at hpo hn hu0 hu1 hl he hi hc hfull h0 hhalf hp hfree
  subst hp
  obtain ⟨hq, hps⟩ := List.forall_mem_cons.mp hpo
  obtain ⟨hq1, hq2, hq3⟩ := hq
  have hsz : 0 ≤ size := by omega
  have hlt : idx < seg.used := by
    rcases half_seg_double size hsz with e | e <;> omega
  have hprev : (fn_s.mk (prev.used + idx) (memcpy prev.data prev.used seg.data 0 idx)).items =
      prev.items ++ seg.items.take idx.toNat := by
    unfold fn_s.items
    simp only
    rw [take_memcpy_append prev.data seg.data prev.used idx (by omega) (by omega) (by omega)
      (by omega), List.take_take]
    congr 2
    omega
  have hseg : (fn_s.mk (seg.used - idx + 1)
      (wr (if idx > 1 then memmove seg.data 1 seg.data idx (seg.used - idx) else seg.data) 0
        item)).items = item :: seg.items.drop idx.toNat := by
    unfold fn_s.items
    exact take_fit_left seg.data idx seg.used item (by omega) hlt (by omega)
  have hlenS := length_items seg hu0 (by omega)
  unfold fr_insert
  simp only []
  have c1 : ¬ (idx > 0 ∧ seg.used < size) := by omega
  have c2 : ¬ (idx = 0 ∧ prev.used < size) := by omega
  rw [if_neg c1, if_neg c2]
  unfold insert_rest
  simp only
  have c3 : ¬ seg.used < size := by omega
  rw [if_neg c3]
  unfold insert_full
  simp only
  have c4 : ¬ idx ≥ seg.used := by omega
  have c5 : idx ≠ 0 ∧ idx ≤ size - prev.used := ⟨by omega, hfree⟩
  rw [if_neg c4, if_pos hhalf, if_pos c5]
  refine ⟨rfl, ?_, ⟨_, rfl, hprev⟩, hseg, rfl, rfl, ?_, ?_, rfl⟩
  · simp [fr_s.chain]
  · unfold fr_item
    simp only
    apply rd_wr_same _ _ _ (le_refl _)
    by_cases c : idx > 1
    · rw [if_pos c, length_memmove]
      omega
    · rw [if_neg c]
      omega
  · rw [toList_eq, toList_eq]
    simp only
    rw [hseg]
    have e1 : ((fn_s.mk (prev.used + idx) (memcpy prev.data prev.used seg.data 0 idx)) ::
        ps).reverse.flatMap fn_s.items =
        ps.reverse.flatMap fn_s.items ++ (prev.items ++ seg.items.take idx.toNat) := by
      rw [← hprev]
      simp [List.flatMap_append]
    have e2 : (prev :: ps).reverse.flatMap fn_s.items =
        ps.reverse.flatMap fn_s.items ++ prev.items := by
      simp [List.flatMap_append]
    rw [e1, e2, insert_mid _ seg.items _ item idx.toNat _ (by omega)
      (by unfold fr_s.position; simp only; rw [e2])]
    simp only [List.append_assoc, List.cons_append]

/-- Witness of `fr_insert_fit_left`: capacity 8, chain `[1,2] - [3..10]`, the
cursor on `5` (index 2); the items `3, 4` move to the previous segment. -/
theorem fr_insert_fit_left_witness :
    WellFormed ex_two_then_full8 ∧ ex_two_then_full8.seg.used = ex_two_then_full8.size ∧
    0 < ex_two_then_full8.idx ∧ ex_two_then_full8.idx < half_seg ex_two_then_full8.size ∧
    (fr_insert ex_two_then_full8 99).chain.map fn_s.items =
      [[1, 2, 3, 4], [99, 5, 6, 7, 8, 9, 10]] ∧
    (fr_insert ex_two_then_full8 99).toList =
      ex_two_then_full8.toList.take ex_two_then_full8.position ++
        99 :: ex_two_then_full8.toList.drop ex_two_then_full8.position :=
  ⟨⟨by decide, by decide, by decide, by decide, by decide, by decide, by decide, by decide⟩,
    by decide, by decide, by decide, by decide,
    (fr_insert_fit_left ex_two_then_full8 99
      ⟨by decide, by decide, by decide, by decide, by decide, by decide, by decide, by decide⟩
      (by decide) (by decide) (by decide) _ _ rfl (by decide)).2.2.2.2.2.2.2.1⟩

end Framer
